import Mathlib

/-!
# Shortest paths on a grid: `FindPath` (src/main.cpp)

A shallow embedding of the two-way breadth-first search of `src/main.cpp`
and a verification of its contract.

Modelling conventions.
* C `int` values are integers (`Int`) with the sentinel `-1` kept. The two
  products that size the arrays, `nMapWidth * nMapHeight` (line 25) and
  `nMapSize * 4` (line 26), are checked against the 32-bit range (`asInt`): a
  product that does not fit makes the computation `none`, as the program has
  no result there (`new int[nMapSize * 4]` throws). On a well-formed input
  every other `int` the routine computes lies between `-1` and `nMapSize * 4`,
  so no other operation can overflow once these two fit.
* A C array is a `List`; every read and write is checked. An access outside
  the array makes the whole computation `none`, as does running out of fuel
  in one of the `while` loops. A result `some (r, buf)` therefore means: the
  routine ran to completion without overflow and without a stray access,
  returned `r` and left the output buffer as `buf`.
* `std::vector<int>` values (frontiers, paths) are lists; `push_back` appends.
-/

namespace ShortestPaths

/-! ## C `int` arithmetic -/

/-- The largest value of a 32-bit C `int`. -/
def INT_MAX : Int := 2147483647

/-- The result of an `int` operation whose mathematical value is `x`: `x`
itself when it fits in 32 bits, `none` otherwise (signed overflow, where the
program has no defined result). -/
def asInt (x : Int) : Option Int :=
  if -INT_MAX - 1 ≤ x ∧ x ≤ INT_MAX then some x else none

/-! ## Checked array access -/

/-- Read `a[i]` with a C `int` index; `none` outside `0 .. a.length - 1`. -/
def rd {α : Type} (a : List α) (i : Int) : Option α :=
  if i < 0 then none else a[i.toNat]?

/-- Write `a[i] = v` with a C `int` index; `none` outside `0 .. a.length - 1`. -/
def wr {α : Type} (a : List α) (i : Int) (v : α) : Option (List α) :=
  if 0 ≤ i ∧ i.toNat < a.length then some (a.set i.toNat v) else none

/-- The loop `for (int i = 0; i < n; i++) body`, threading the state `σ`. -/
def forLoop {σ : Type} (n : Int) (body : Int → σ → Option σ) (init : σ) : Option σ :=
  (List.range n.toNat).foldlM (fun s (i : Nat) => body (i : Int) s) init

/-! ## Graph builder (main.cpp lines 25-59) -/

/-- One direction of the builder: `if (guard) { if (pMap[j] == 1) adj[slot] = j; }`. -/
def probe (pMap : List Nat) (guard : Bool) (j slot : Int) (adj : List Int) :
    Option (List Int) :=
  if guard then
    (rd pMap j).bind fun g => if g = 1 then wr adj slot j else some adj
  else some adj

/-- Body of the loop of lines 36-59 for the cell `i`. -/
def buildCell (pMap : List Nat) (nMapWidth nMapSize : Int) (i : Int) (adj : List Int) :
    Option (List Int) :=
  (rd pMap i).bind fun f =>
    if f = 1 then
      (probe pMap (decide ((i + 1).tmod nMapWidth ≠ 0)) (i + 1) (4 * i) adj).bind fun adj1 =>
      (probe pMap (decide (i ≥ nMapWidth)) (i - nMapWidth) (4 * i + 1) adj1).bind fun adj2 =>
      (probe pMap (decide (i.tmod nMapWidth ≠ 0)) (i - 1) (4 * i + 2) adj2).bind fun adj3 =>
      probe pMap (decide (i < nMapSize - nMapWidth)) (i + nMapWidth) (4 * i + 3) adj3
    else some adj

/-- Lines 26-59: `nMapSize * 4` is computed as an `int`; `adj` is allocated
with that many entries (`new int[...]` throws on a negative size), all set to
`-1`, then filled cell by cell. -/
def buildAdj (pMap : List Nat) (nMapWidth nMapSize : Int) : Option (List Int) :=
  (asInt (nMapSize * 4)).bind fun n4 =>
    if n4 < 0 then none
    else forLoop nMapSize (buildCell pMap nMapWidth nMapSize) (List.replicate n4.toNat (-1))

/-! ## Search state (lines 67-100) -/

/-- One direction of the search while a frontier is expanded: the level and
parent arrays and the `next` vector. -/
structure Side where
  level : List Int
  parent : List Int
  next : List Int
deriving DecidableEq, Repr

/-- The variables of the main loop. -/
structure Search where
  start_level : List Int
  start_parent : List Int
  target_level : List Int
  target_parent : List Int
  start_frontier : List Int
  target_frontier : List Int
  l : Int
deriving DecidableEq, Repr

/-- How the main loop ends: the frontiers met at the cell `m` (with the
variables as they are at that moment), or a frontier ran empty. -/
inductive Outcome where
  | met (m : Int) (st : Search)
  | noPath
deriving DecidableEq, Repr

/-- Lines 67-100: all levels and parents `-1`, the two origins at level `0`,
each frontier holding its origin, `l = 1`. -/
def initSearch (nMapSize s t : Int) : Option Search :=
  let blank := List.replicate nMapSize.toNat (-1 : Int)
  (wr blank s 0).bind fun sl =>
  (wr blank t 0).bind fun tl =>
  some { start_level := sl, start_parent := blank,
         target_level := tl, target_parent := blank,
         start_frontier := [s], target_frontier := [t], l := 1 }

/-! ## Frontier expansion (lines 105-208) -/

/-- Lines 113-123 (and 194-201): look at neighbour slot `v` of the cell `c`. -/
def visit (adj : List Int) (l c : Int) (s : Side) (v : Int) : Option Side :=
  (rd adj (4 * c + v)).bind fun n =>
    if n ≠ -1 then
      (rd s.level n).bind fun lv =>
        if lv = -1 then
          (wr s.level n l).bind fun level =>
          (wr s.parent n c).bind fun parent =>
          some { level := level, parent := parent, next := s.next ++ [n] }
        else some s
    else some s

/-- The loop `for (int v = 0; v < 4; v++)` over the four slots of `c`. -/
def expandCell (adj : List Int) (l : Int) (s : Side) (c : Int) : Option Side :=
  ([0, 1, 2, 3] : List Int).foldlM (visit adj l c) s

/-- Lines 108-125: expand every cell of the start frontier. -/
def expandStart (adj : List Int) (l : Int) (frontier : List Int) (s : Side) : Option Side :=
  frontier.foldlM (expandCell adj l) s

/-- Lines 139-203: walk the target frontier; a cell already visited from the
start ends the pass (`Sum.inl`, with the target side as it is then), any
other cell is expanded. -/
def targetPass (adj : List Int) (l : Int) (start_level : List Int) :
    List Int → Side → Option (Int × Side ⊕ Side)
  | [], s => some (Sum.inr s)
  | c :: rest, s =>
    (rd start_level c).bind fun sl =>
      if sl ≠ -1 then some (Sum.inl (c, s))
      else (expandCell adj l s c).bind fun s1 => targetPass adj l start_level rest s1

/-- The `while` loop of lines 105-209; `fuel` bounds the number of times the
loop condition is evaluated. -/
def mainLoop (adj : List Int) : Nat → Search → Option Outcome
  | 0, _ => none
  | fuel + 1, st =>
    if st.start_frontier.length > 0 ∧ st.target_frontier.length > 0 then
      (expandStart adj st.l st.start_frontier
          { level := st.start_level, parent := st.start_parent, next := [] }).bind fun s =>
      (targetPass adj st.l s.level st.target_frontier
          { level := st.target_level, parent := st.target_parent, next := [] }).bind fun r =>
      match r with
      | Sum.inl (m, t) =>
        some (Outcome.met m
          { start_level := s.level, start_parent := s.parent,
            target_level := t.level, target_parent := t.parent,
            start_frontier := s.next, target_frontier := st.target_frontier, l := st.l })
      | Sum.inr t =>
        mainLoop adj fuel
          { start_level := s.level, start_parent := s.parent,
            target_level := t.level, target_parent := t.parent,
            start_frontier := s.next, target_frontier := t.next, l := st.l + 1 }
    else some Outcome.noPath

/-! ## Path reconstruction and output (lines 147-190) -/

/-- The loop `while (parent[p] != -1) { path.push_back(p); p = parent[p]; }`:
the cells pushed, in order. `fuel` bounds the evaluations of the condition. -/
def walkUp (parent : List Int) : Nat → Int → Option (List Int)
  | 0, _ => none
  | fuel + 1, p =>
    (rd parent p).bind fun q =>
      if q ≠ -1 then (walkUp parent fuel q).map fun rest => p :: rest
      else some []

/-- Lines 147-160: the two ancestral paths `(start_path, target_path)` of the
meeting cell `m`. -/
def ancestralPaths (fuel : Nat) (start_parent target_parent : List Int) (m t : Int) :
    Option (List Int × List Int) :=
  (walkUp target_parent fuel m).bind fun tchain =>
  let target_path := tchain ++ [t]
  (rd start_parent m).bind fun p =>
  (walkUp start_parent fuel p).bind fun start_path =>
  some (start_path, target_path)

/-- Lines 168-178: the two copy loops, run only when the path fits. -/
def writeOut (start_path target_path : List Int) (pOutBuffer : List Int)
    (nOutBufferSize : Int) : Option (List Int) :=
  let sp : Int := start_path.length
  let tp : Int := target_path.length
  if sp + tp ≤ nOutBufferSize then
    (forLoop sp (fun i buf => (rd start_path (sp - 1 - i)).bind fun x => wr buf i x)
        pOutBuffer).bind fun buf1 =>
    forLoop tp (fun i buf => (rd target_path i).bind fun x => wr buf (i + sp) x) buf1
  else some pOutBuffer

/-- The search of lines 25-209 up to the moment the main loop ends:
`nMapSize = nMapWidth * nMapHeight` is computed as an `int`, the table is
built, the search state set up and the loop run. The loop condition may be
evaluated `nMapSize + 1` times; `mainLoop_spec` shows that on a well-formed
input the loop always ends within that bound. -/
def runSearch (nStartX nStartY nTargetX nTargetY : Int) (pMap : List Nat)
    (nMapWidth nMapHeight : Int) : Option Outcome :=
  (asInt (nMapWidth * nMapHeight)).bind fun nMapSize =>
  (buildAdj pMap nMapWidth nMapSize).bind fun adj =>
  (initSearch nMapSize (nStartX + nStartY * nMapWidth) (nTargetX + nTargetY * nMapWidth)).bind
    fun st => mainLoop adj (nMapSize.toNat + 1) st

/-- The routine `FindPath` of main.cpp: the returned `int` and the final
contents of `pOutBuffer`. Each chain walk of the reconstruction may evaluate
its condition `nMapSize + 1` times, which `walkUp_spec` shows to be enough. -/
def FindPath (nStartX nStartY nTargetX nTargetY : Int) (pMap : List Nat)
    (nMapWidth nMapHeight : Int) (pOutBuffer : List Int) (nOutBufferSize : Int) :
    Option (Int × List Int) :=
  if nStartX = nTargetX ∧ nStartY = nTargetY then some (0, pOutBuffer)
  else
    (runSearch nStartX nStartY nTargetX nTargetY pMap nMapWidth nMapHeight).bind fun out =>
    match out with
    | Outcome.noPath => some (-1, pOutBuffer)
    | Outcome.met m st =>
      (ancestralPaths ((nMapWidth * nMapHeight).toNat + 1) st.start_parent st.target_parent m
          (nTargetX + nTargetY * nMapWidth)).bind fun paths =>
      (writeOut paths.1 paths.2 pOutBuffer nOutBufferSize).bind fun buf =>
      some ((paths.1.length : Int) + (paths.2.length : Int), buf)

/-! ## The grid, as the specification describes it -/

/-- A well-formed grid: width and height at least one, one flag per cell. -/
def WellFormed (pMap : List Nat) (W H : Int) : Prop :=
  1 ≤ W ∧ 1 ≤ H ∧ (pMap.length : Int) = W * H

/-- The coordinates `(x, y)` lie on the grid. -/
def InRange (W H x y : Int) : Prop := 0 ≤ x ∧ x < W ∧ 0 ≤ y ∧ y < H

/-- The linear index `x + y * W` of the cell `(x, y)`. -/
def cellIndex (W x y : Int) : Int := x + y * W

/-- The cell with index `i` is on the grid and its flag is `1`. -/
def IsOpen (pMap : List Nat) (i : Int) : Prop := rd pMap i = some 1

/-- Two cell indices are 4-adjacent: same row with `x` differing by one, or
same column with `y` differing by one (`x = i % W`, `y = i / W`). -/
def Adjacent4 (W a b : Int) : Prop :=
  (a / W = b / W ∧ (a % W + 1 = b % W ∨ b % W + 1 = a % W)) ∨
  (a % W = b % W ∧ (a / W + 1 = b / W ∨ b / W + 1 = a / W))

/-- One move on the grid: between two open, 4-adjacent cells. -/
def Move (pMap : List Nat) (W a b : Int) : Prop :=
  IsOpen pMap a ∧ IsOpen pMap b ∧ Adjacent4 W a b

/-- A walk: a sequence of open cells, each 4-adjacent to the next. -/
def IsWalk (pMap : List Nat) (W : Int) (p : List Int) : Prop :=
  (∀ c ∈ p, IsOpen pMap c) ∧ List.Chain' (Adjacent4 W) p

/-- The walk `p` leads from the cell `a` to the cell `b`. -/
def Connects (pMap : List Nat) (W : Int) (p : List Int) (a b : Int) : Prop :=
  IsWalk pMap W p ∧ p.head? = some a ∧ p.getLast? = some b

instance (pMap : List Nat) (i : Int) : Decidable (IsOpen pMap i) :=
  inferInstanceAs (Decidable (rd pMap i = some 1))

instance (W a b : Int) : Decidable (Adjacent4 W a b) :=
  inferInstanceAs (Decidable (
    (a / W = b / W ∧ (a % W + 1 = b % W ∨ b % W + 1 = a % W)) ∨
    (a % W = b % W ∧ (a / W + 1 = b / W ∨ b / W + 1 = a / W))))

/-- Deciding whether consecutive cells of a list are 4-adjacent, pair by pair. -/
def decideAdjacentChain (W : Int) : (p : List Int) → Decidable (List.Chain' (Adjacent4 W) p)
  | [] => isTrue List.chain'_nil
  | [a] => isTrue (List.chain'_singleton a)
  | a :: b :: rest =>
    match decideAdjacentChain W (b :: rest) with
    | isTrue h =>
      if hab : Adjacent4 W a b then isTrue (List.chain'_cons.2 ⟨hab, h⟩)
      else isFalse (fun hc => hab (List.chain'_cons.1 hc).1)
    | isFalse h => isFalse (fun hc => h (List.chain'_cons.1 hc).2)

instance (pMap : List Nat) (W : Int) (p : List Int) : Decidable (IsWalk pMap W p) :=
  haveI := decideAdjacentChain W p
  inferInstanceAs (Decidable ((∀ c ∈ p, IsOpen pMap c) ∧ List.Chain' (Adjacent4 W) p))

instance (pMap : List Nat) (W : Int) (p : List Int) (a b : Int) :
    Decidable (Connects pMap W p a b) :=
  inferInstanceAs (Decidable (IsWalk pMap W p ∧ p.head? = some a ∧ p.getLast? = some b))

/-- The walk `p` leads from `a` to `b`, and no walk from `a` to `b` has fewer
cells. -/
def ShortestWalk (pMap : List Nat) (W : Int) (p : List Int) (a b : Int) : Prop :=
  Connects pMap W p a b ∧ ∀ q, Connects pMap W q a b → p.length ≤ q.length

instance (pMap : List Nat) (W H : Int) : Decidable (WellFormed pMap W H) :=
  inferInstanceAs (Decidable (1 ≤ W ∧ 1 ≤ H ∧ (pMap.length : Int) = W * H))

instance (W H x y : Int) : Decidable (InRange W H x y) :=
  inferInstanceAs (Decidable (0 ≤ x ∧ x < W ∧ 0 ≤ y ∧ y < H))

/-! ## The graph held in `adj` -/

/-- The cell `b` sits in one of the four neighbour slots of the cell `a`. -/
def Edge (adj : List Int) (a b : Int) : Prop :=
  b ≠ -1 ∧ ∃ v : Int, 0 ≤ v ∧ v < 4 ∧ rd adj (4 * a + v) = some b

/-- A walk of exactly `k` edges of `adj` from `a` to `b`. -/
inductive Reach (adj : List Int) : Nat → Int → Int → Prop where
  | zero (a : Int) : Reach adj 0 a a
  | step {k : Nat} {a b c : Int} : Reach adj k a b → Edge adj b c → Reach adj (k + 1) a c

/-- What the builder leaves in slot `v` of the cell `i`. -/
def slotSpec (pMap : List Nat) (W N : Int) (i v : Int) : Int :=
  if IsOpen pMap i then
    if v = 0 then (if (i + 1) % W ≠ 0 ∧ IsOpen pMap (i + 1) then i + 1 else -1)
    else if v = 1 then (if i ≥ W ∧ IsOpen pMap (i - W) then i - W else -1)
    else if v = 2 then (if i % W ≠ 0 ∧ IsOpen pMap (i - 1) then i - 1 else -1)
    else (if i < N - W ∧ IsOpen pMap (i + W) then i + W else -1)
  else -1

/-- The facts about `adj` the search relies on: four slots per cell, each
holding `-1` or a cell index; a symmetric edge relation; and a 2-colouring
(every edge joins cells of different colour). -/
structure GoodAdj (adj : List Int) (N : Int) : Prop where
  len : (adj.length : Int) = 4 * N
  range : ∀ k n, rd adj k = some n → n = -1 ∨ (0 ≤ n ∧ n < N)
  symm : ∀ a b, Edge adj a b → Edge adj b a
  parity : ∃ colour : Int → Int, ∀ a b, Edge adj a b → (colour a + colour b) % 2 = 1

/-- The effect of expanding along the edges `P` at depth `l`, from the side
`s` to the side `s1`: visited cells keep level and parent; an unvisited cell
either stays unvisited or gets level `l` and a parent along an edge of `P`;
the head of every edge of `P` ends up visited; and exactly the newly visited
cells are appended to `next`, each once. -/
structure Grew (l : Int) (P : Int → Int → Prop) (s s1 : Side) : Prop where
  level_len : s1.level.length = s.level.length
  parent_len : s1.parent.length = s.parent.length
  keep : ∀ c v, rd s.level c = some v → v ≠ -1 →
    rd s1.level c = some v ∧ rd s1.parent c = rd s.parent c
  fresh : ∀ c, rd s.level c = some (-1) →
    (rd s1.level c = some (-1) ∧ rd s1.parent c = rd s.parent c) ∨
    (rd s1.level c = some l ∧ ∃ f, P f c ∧ rd s1.parent c = some f)
  covered : ∀ f n, P f n → ∃ v, rd s1.level n = some v ∧ v ≠ -1
  pushed : ∃ new, s1.next = s.next ++ new ∧ new.Nodup ∧
    (∀ c, c ∈ new ↔ (rd s.level c = some (-1) ∧ rd s1.level c = some l)) ∧
    List.count (-1) s1.level + new.length = List.count (-1) s.level

/-- The parent invariant of one side with origin `o`: levels are `-1` or
non-negative, only the origin has level `0`, a cell of level at most `0` has
no parent, and the parent of a cell of level `v ≥ 1` is a neighbour of level
`v - 1`. -/
structure Tree (adj : List Int) (N : Int) (o : Int) (level parent : List Int) : Prop where
  level_len : (level.length : Int) = N
  parent_len : (parent.length : Int) = N
  origin : rd level o = some 0
  ge : ∀ c v, rd level c = some v → -1 ≤ v
  zero : ∀ c, rd level c = some 0 → c = o
  root : ∀ c v, rd level c = some v → v ≤ 0 → rd parent c = some (-1)
  up : ∀ c v, rd level c = some v → 1 ≤ v →
    ∃ p, rd parent c = some p ∧ Edge adj p c ∧ rd level p = some (v - 1)

/-- The level array is exact up to depth `k`: a visited cell carries its
distance from the origin `o`, at most `k`, and every cell within `k` edges of
`o` is visited. -/
structure Exact (adj : List Int) (o : Int) (k : Nat) (level : List Int) : Prop where
  sound : ∀ c v, rd level c = some v → v ≠ -1 →
    ∃ j : Nat, v = (j : Int) ∧ j ≤ k ∧ Reach adj j o c ∧ ∀ i, i < j → ¬ Reach adj i o c
  complete : ∀ c j, j ≤ k → Reach adj j o c → ∃ v, rd level c = some v ∧ v ≠ -1

/-- The invariant of the main loop when `k` iterations are complete
(`l = k + 1`) and the loop condition may still be evaluated `fuel` times:
both parent invariants, both level arrays exact up to depth `k`, each frontier
the set of cells of level `k`, no walk of fewer than `2 * k` edges from the
start to the target, and enough fuel for the cells still unvisited. -/
structure LoopInv (adj : List Int) (N s t : Int) (k fuel : Nat) (st : Search) : Prop where
  depth : st.l = (k : Int) + 1
  stree : Tree adj N s st.start_level st.start_parent
  ttree : Tree adj N t st.target_level st.target_parent
  sexact : Exact adj s k st.start_level
  texact : Exact adj t k st.target_level
  sfront : ∀ c, c ∈ st.start_frontier ↔ rd st.start_level c = some (k : Int)
  tfront : ∀ c, c ∈ st.target_frontier ↔ rd st.target_level c = some (k : Int)
  apart : ∀ d, d < 2 * k → ¬ Reach adj d s t
  budget : (fuel : Int) + k = N + 1
  room : st.start_frontier ≠ [] → List.count (-1) st.start_level + 2 ≤ fuel
  alive : 1 ≤ fuel

/-- What holds when the frontiers meet at the cell `m`, of start level `i`
and target level `j`. -/
structure Meeting (adj : List Int) (N s t : Int) (m : Int) (i j : Nat) (st : Search) :
    Prop where
  stree : Tree adj N s st.start_level st.start_parent
  ttree : Tree adj N t st.target_level st.target_parent
  slevel : rd st.start_level m = some (i : Int)
  tlevel : rd st.target_level m = some (j : Int)
  pos : 1 ≤ i
  sreach : Reach adj i s m
  treach : Reach adj j t m
  shortest : ∀ d, d < i + j → ¬ Reach adj d s t
  sbound : (i : Int) ≤ N + 1
  tbound : (j : Int) ≤ N

/-! ## The loop, one iteration at a time, and the output log -/

/-- The copy loops of lines 168-178 with a log: besides the buffer, the
indices of `pOutBuffer` that are assigned, in program order. -/
def writeOutTraced (start_path target_path : List Int) (pOutBuffer : List Int)
    (nOutBufferSize : Int) : Option (List Int × List Int) :=
  let sp : Int := start_path.length
  let tp : Int := target_path.length
  if sp + tp ≤ nOutBufferSize then
    (forLoop sp (fun i s => (rd start_path (sp - 1 - i)).bind fun x =>
        (wr s.1 i x).map fun b => (b, s.2 ++ [i])) (pOutBuffer, [])).bind fun s1 =>
    forLoop tp (fun i s => (rd target_path i).bind fun x =>
        (wr s.1 (i + sp) x).map fun b => (b, s.2 ++ [i + sp])) s1
  else some (pOutBuffer, [])

/-- One evaluation of the loop condition of line 105 and, when it holds, one
run of the loop body (lines 107-208): `Sum.inl` with the outcome when the
loop ends there, `Sum.inr` with the variables for the next evaluation. -/
def loopBody (adj : List Int) (st : Search) : Option (Outcome ⊕ Search) :=
  if st.start_frontier.length > 0 ∧ st.target_frontier.length > 0 then
    (expandStart adj st.l st.start_frontier
        { level := st.start_level, parent := st.start_parent, next := [] }).bind fun s =>
    (targetPass adj st.l s.level st.target_frontier
        { level := st.target_level, parent := st.target_parent, next := [] }).bind fun r =>
    match r with
    | Sum.inl (m, t) =>
      some (Sum.inl (Outcome.met m
        { start_level := s.level, start_parent := s.parent,
          target_level := t.level, target_parent := t.parent,
          start_frontier := s.next, target_frontier := st.target_frontier, l := st.l }))
    | Sum.inr t =>
      some (Sum.inr
        { start_level := s.level, start_parent := s.parent,
          target_level := t.level, target_parent := t.parent,
          start_frontier := s.next, target_frontier := t.next, l := st.l + 1 })
  else some (Sum.inl Outcome.noPath)

/-- The loop variables after `k` complete iterations, none of which met;
`none` when the loop has ended before. -/
def stateAfter (adj : List Int) (st0 : Search) : Nat → Option Search
  | 0 => some st0
  | k + 1 =>
    (stateAfter adj st0 k).bind fun st =>
      (loopBody adj st).bind fun r =>
        match r with
        | Sum.inl _ => none
        | Sum.inr st1 => some st1

/-- The cell `c` lies at distance `k` from `o` in the graph of `adj`: some walk
of `k` edges leads from `o` to `c` and no shorter one does. -/
def Dist (adj : List Int) (o c : Int) (k : Nat) : Prop :=
  Reach adj k o c ∧ ∀ i, i < k → ¬ Reach adj i o c

/-- What holds of the loop variables when `k` iterations are complete: the
two parent invariants, exact levels up to depth `k`, each frontier the list
without repetition of the cells of level `k`, and the count of the cells
still unvisited on each side. -/
structure DepthInv (adj : List Int) (N s t : Int) (k : Nat) (st : Search) : Prop where
  depth : st.l = (k : Int) + 1
  stree : Tree adj N s st.start_level st.start_parent
  ttree : Tree adj N t st.target_level st.target_parent
  sexact : Exact adj s k st.start_level
  texact : Exact adj t k st.target_level
  sfront : ∀ c, c ∈ st.start_frontier ↔ rd st.start_level c = some (k : Int)
  tfront : ∀ c, c ∈ st.target_frontier ↔ rd st.target_level c = some (k : Int)
  snodup : st.start_frontier.Nodup
  tnodup : st.target_frontier.Nodup
  scount : (List.count (-1) st.start_level : Int) + k +
    (if st.start_frontier = [] then 0 else 1) ≤ N
  tcount : (List.count (-1) st.target_level : Int) + k +
    (if st.target_frontier = [] then 0 else 1) ≤ N

/-- A run of expansion steps: the neighbour slots `(c, v)` are looked at in
the order of the list, at depth `l`. -/
def visits (adj : List Int) (l : Int) (s : Side) (cvs : List (Int × Int)) : Option Side :=
  cvs.foldlM (fun s1 cv => visit adj l cv.1 s1 cv.2) s

/-- The expansion steps of a pass over the frontier `F`, in program order:
the four slots of each cell in turn. -/
def slotsOf (F : List Int) : List (Int × Int) :=
  F.flatMap fun c => [(c, 0), (c, 1), (c, 2), (c, 3)]

/-- The parent invariant in the words of the specification: a parent that is
set is a neighbour of its cell and lies one level below it; a visited cell
without a parent is the origin `o`, at level `0`. -/
def ParentInv (adj : List Int) (o : Int) (level parent : List Int) : Prop :=
  (∀ c p, rd parent c = some p → p ≠ -1 →
    Edge adj p c ∧ Edge adj c p ∧
      ∃ v, rd level c = some v ∧ rd level p = some (v - 1)) ∧
  (∀ c v, rd level c = some v → v ≠ -1 → rd parent c = some (-1) → c = o ∧ v = 0)

/-! # Verification -/

/-! ## Checked access -/

theorem rd_some_bounds {α : Type} {a : List α} {i : Int} {v : α} (h : rd a i = some v) :
    0 ≤ i ∧ i < (a.length : Int) := by
  unfold rd at h
  split at h
  · simp at h
  · have := List.getElem?_eq_some.1 h
    obtain ⟨hlt, _⟩ := this
    omega

theorem rd_in_bounds {α : Type} {a : List α} {i : Int} (h0 : 0 ≤ i) (h1 : i < (a.length : Int)) :
    ∃ v, rd a i = some v := by
  have hlt : i.toNat < a.length := by omega
  refine ⟨a[i.toNat], ?_⟩
  unfold rd
  rw [if_neg (by omega)]
  exact List.getElem?_eq_getElem hlt

theorem wr_in_bounds {α : Type} {a : List α} {i : Int} (v : α) (h0 : 0 ≤ i)
    (h1 : i < (a.length : Int)) : ∃ b, wr a i v = some b := by
  have hlt : i.toNat < a.length := by omega
  exact ⟨a.set i.toNat v, by unfold wr; rw [if_pos ⟨h0, hlt⟩]⟩

theorem wr_length {α : Type} {a b : List α} {i : Int} {v : α} (h : wr a i v = some b) :
    b.length = a.length := by
  unfold wr at h
  split at h
  · cases h; simp
  · simp at h

theorem rd_wr_same {α : Type} {a b : List α} {i : Int} {v : α} (h : wr a i v = some b) :
    rd b i = some v := by
  unfold wr at h
  split at h
  · rename_i hc
    cases h
    unfold rd
    rw [if_neg (by omega)]
    simp [List.getElem?_set, hc.2]
  · simp at h

theorem rd_wr_ne {α : Type} {a b : List α} {i j : Int} {v : α} (h : wr a i v = some b)
    (hne : j ≠ i) : rd b j = rd a j := by
  unfold wr at h
  split at h
  · rename_i hc
    cases h
    unfold rd
    by_cases hj : j < 0
    · simp [hj]
    · rw [if_neg hj, if_neg hj]
      have : i.toNat ≠ j.toNat := by omega
      simp [List.getElem?_set, this]
  · simp at h

theorem rd_replicate {α : Type} {n : Nat} {x : α} {i : Int} (h0 : 0 ≤ i) (h1 : i < (n : Int)) :
    rd (List.replicate n x) i = some x := by
  unfold rd
  rw [if_neg (by omega)]
  have : i.toNat < n := by omega
  simp [List.getElem?_replicate, this]

/-- Invariant rule for `forLoop`: an invariant that holds at entry and is kept
by every iteration `0 ≤ i < n` holds at exit, and the loop does not fail. -/
theorem forLoop_inv {σ : Type} (n : Int) (body : Int → σ → Option σ) (init : σ)
    (I : Int → σ → Prop) (h0 : I 0 init)
    (hstep : ∀ i s, 0 ≤ i → i < n → I i s → ∃ s1, body i s = some s1 ∧ I (i + 1) s1) :
    ∃ s, forLoop n body init = some s ∧ I (max n 0) s := by
  unfold forLoop
  have key : ∀ k : Nat, (k : Int) ≤ max n 0 →
      ∃ s, (List.range k).foldlM (fun s (i : Nat) => body (i : Int) s) init = some s ∧
        I k s := by
    intro k
    induction k with
    | zero => intro _; exact ⟨init, by simp, by simpa using h0⟩
    | succ k ih =>
      intro hk
      obtain ⟨s, hs, hI⟩ := ih (by omega)
      obtain ⟨s1, hb, hI1⟩ := hstep k s (by omega) (by omega) hI
      refine ⟨s1, ?_, by simpa using hI1⟩
      rw [List.range_succ, List.foldlM_append, hs]
      simp [hb]
  have := key n.toNat (by omega)
  have e : ((n.toNat : Nat) : Int) = max n 0 := by omega
  rw [e] at this
  exact this

/-! ## The graph builder -/

theorem probe_spec (pMap : List Nat) (guard : Bool) (j slot : Int) (adj : List Int)
    (hj : guard = true → 0 ≤ j ∧ j < (pMap.length : Int))
    (hs : 0 ≤ slot ∧ slot < (adj.length : Int)) :
    ∃ adj1, probe pMap guard j slot adj = some adj1 ∧ adj1.length = adj.length ∧
      (∀ k, k ≠ slot → rd adj1 k = rd adj k) ∧
      rd adj1 slot = if guard = true ∧ IsOpen pMap j then some j else rd adj slot := by
  unfold probe
  cases guard with
  | false => exact ⟨adj, by simp, rfl, fun _ _ => rfl, by simp⟩
  | true =>
    obtain ⟨g, hg⟩ := rd_in_bounds (hj rfl).1 (hj rfl).2
    by_cases h1 : g = 1
    · obtain ⟨adj1, hw⟩ := wr_in_bounds j hs.1 hs.2
      refine ⟨adj1, by simp [hg, h1, hw], wr_length hw, fun k hk => rd_wr_ne hw hk, ?_⟩
      rw [rd_wr_same hw, if_pos]
      exact ⟨rfl, by unfold IsOpen; rw [hg, h1]⟩
    · refine ⟨adj, by simp [hg, h1], rfl, fun _ _ => rfl, ?_⟩
      rw [if_neg]
      rintro ⟨_, ho⟩
      unfold IsOpen at ho
      rw [hg] at ho
      exact h1 (Option.some.inj ho)

theorem buildCell_spec (pMap : List Nat) (W H : Int) (hwf : WellFormed pMap W H)
    (i : Int) (adj : List Int) (hi0 : 0 ≤ i) (hi1 : i < W * H)
    (hlen : (adj.length : Int) = 4 * (W * H)) :
    ∃ adj1, buildCell pMap W (W * H) i adj = some adj1 ∧ adj1.length = adj.length ∧
      (∀ k, (k < 4 * i ∨ 4 * i + 4 ≤ k) → rd adj1 k = rd adj k) ∧
      (∀ v, 0 ≤ v → v < 4 → rd adj (4 * i + v) = some (-1) →
        rd adj1 (4 * i + v) = some (slotSpec pMap W (W * H) i v)) := by
  obtain ⟨hW, hH, hN⟩ := hwf
  unfold buildCell
  obtain ⟨f, hf⟩ := rd_in_bounds hi0 (by omega : i < (pMap.length : Int))
  rw [hf]
  by_cases h1 : f = 1
  swap
  · refine ⟨adj, by simp [h1], rfl, fun _ _ => rfl, ?_⟩
    intro v _ _ hv
    have : ¬ IsOpen pMap i := by
      unfold IsOpen; rw [hf]; intro h; exact h1 (Option.some.inj h)
    rw [hv]; simp [slotSpec, this]
  · have hopen : IsOpen pMap i := by unfold IsOpen; rw [hf, h1]
    have et1 : (i + 1).tmod W = (i + 1) % W := Int.tmod_eq_emod (by omega) (by omega)
    have et2 : i.tmod W = i % W := Int.tmod_eq_emod (by omega) (by omega)
    have hNmod : (W * H) % W = 0 := Int.mul_emod_right W H
    have hzmod : (0 : Int) % W = 0 := Int.zero_emod W
    obtain ⟨a1, e1, l1, o1, s1⟩ := probe_spec pMap (decide ((i + 1).tmod W ≠ 0)) (i + 1) (4 * i) adj
      (by
        intro hg
        have hg : (i + 1) % W ≠ 0 := by rw [← et1]; simpa using hg
        have : i + 1 ≠ W * H := fun h => hg (by rw [h]; exact hNmod)
        omega) (by omega)
    obtain ⟨a2, e2, l2, o2, s2⟩ := probe_spec pMap (decide (i ≥ W)) (i - W) (4 * i + 1) a1
      (by intro hg; have hg : i ≥ W := by simpa using hg
          omega) (by omega)
    obtain ⟨a3, e3, l3, o3, s3⟩ := probe_spec pMap (decide (i.tmod W ≠ 0)) (i - 1) (4 * i + 2) a2
      (by
        intro hg
        have hg : i % W ≠ 0 := by rw [← et2]; simpa using hg
        have : i ≠ 0 := fun h => hg (by rw [h]; exact hzmod)
        omega) (by omega)
    obtain ⟨a4, e4, l4, o4, s4⟩ := probe_spec pMap (decide (i < W * H - W)) (i + W) (4 * i + 3) a3
      (by intro hg; have hg : i < W * H - W := by simpa using hg
          omega) (by omega)
    refine ⟨a4, by simp only [if_pos h1, Option.some_bind, e1, e2, e3, e4], by omega, ?_, ?_⟩
    · intro k hk
      rw [o4 k (by omega), o3 k (by omega), o2 k (by omega), o1 k (by omega)]
    · intro v hv0 hv4 hv
      have hcases : v = 0 ∨ v = 1 ∨ v = 2 ∨ v = 3 := by omega
      rcases hcases with rfl | rfl | rfl | rfl
      · rw [o4 _ (by omega), o3 _ (by omega), o2 _ (by omega)]
        simp only [Int.add_zero] at hv ⊢
        rw [s1, hv]
        simp only [slotSpec, if_pos hopen, et1]
        simp
        split <;> simp_all
      · rw [o4 _ (by omega), o3 _ (by omega), s2, o1 _ (by omega), hv]
        simp only [slotSpec, if_pos hopen]
        simp
        split <;> simp_all
      · rw [o4 _ (by omega), s3, o2 _ (by omega), o1 _ (by omega), hv]
        simp only [slotSpec, if_pos hopen, et2]
        simp
        split <;> simp_all
      · rw [s4, o3 _ (by omega), o2 _ (by omega), o1 _ (by omega), hv]
        simp only [slotSpec, if_pos hopen]
        simp
        split <;> simp_all

theorem divmod_of_eq {W a q r : Int} (hW : 0 < W) (h : a = r + W * q) (h0 : 0 ≤ r) (h1 : r < W) :
    a / W = q ∧ a % W = r :=
  (Int.ediv_emod_unique hW).2 ⟨h.symm, h0, h1⟩

theorem divmod_facts (W a : Int) (hW : 0 < W) :
    a = a % W + W * (a / W) ∧ 0 ≤ a % W ∧ a % W < W :=
  ⟨(Int.emod_add_ediv a W).symm, Int.emod_nonneg a (by omega), Int.emod_lt_of_pos a hW⟩

theorem adjacent4_symm {W a b : Int} (h : Adjacent4 W a b) : Adjacent4 W b a := by
  unfold Adjacent4 at *
  omega

theorem adjacent4_parity {W a b : Int} (h : Adjacent4 W a b) :
    (a % W + a / W + (b % W + b / W)) % 2 = 1 := by
  unfold Adjacent4 at h
  omega

theorem adjacent4_iff {W : Int} (hW : 1 ≤ W) (a b : Int) :
    Adjacent4 W a b ↔
      (b = a + 1 ∧ (a + 1) % W ≠ 0) ∨ (b = a - 1 ∧ a % W ≠ 0) ∨ b = a + W ∨ b = a - W := by
  obtain ⟨da, ra0, ra1⟩ := divmod_facts W a (by omega)
  obtain ⟨db, rb0, rb1⟩ := divmod_facts W b (by omega)
  have hm1 : W * (a / W + 1) = W * (a / W) + W := by ring
  have hm2 : W * (a / W - 1) = W * (a / W) - W := by ring
  constructor
  · intro h
    unfold Adjacent4 at h
    rcases h with ⟨hq, hr | hr⟩ | ⟨hr, hq | hq⟩
    · left
      rw [← hq] at db
      have hb : b = a + 1 := by omega
      refine ⟨hb, ?_⟩
      rw [← hb]; omega
    · right; left
      rw [← hq] at db
      exact ⟨by omega, by omega⟩
    · right; right; left
      rw [← hq, hm1] at db
      omega
    · right; right; right
      have : b / W = a / W - 1 := by omega
      rw [this, hm2] at db
      omega
  · intro h
    unfold Adjacent4
    rcases h with ⟨hb, hne⟩ | ⟨hb, hne⟩ | hb | hb
    · have hr : a % W + 1 < W := by
        by_contra hc
        have ha1 : a + 1 = 0 + W * (a / W + 1) := by omega
        exact hne (divmod_of_eq (by omega) ha1 (le_refl 0) (by omega)).2
      have := divmod_of_eq (by omega) (show b = (a % W + 1) + W * (a / W) by omega) (by omega) hr
      left; exact ⟨this.1.symm, Or.inl this.2.symm⟩
    · have := divmod_of_eq (by omega) (show b = (a % W - 1) + W * (a / W) by omega)
        (by omega) (by omega)
      left; exact ⟨this.1.symm, Or.inr (by omega)⟩
    · have := divmod_of_eq (by omega) (show b = a % W + W * (a / W + 1) by omega) ra0 ra1
      right; exact ⟨this.2.symm, Or.inl this.1.symm⟩
    · have := divmod_of_eq (by omega) (show b = a % W + W * (a / W - 1) by omega) ra0 ra1
      right; exact ⟨this.2.symm, Or.inr (by omega)⟩


/-- A value in the 32-bit range is its own `int`. -/
theorem asInt_fits {x : Int} (h0 : -INT_MAX - 1 ≤ x) (h1 : x ≤ INT_MAX) : asInt x = some x := by
  unfold asInt
  rw [if_pos ⟨h0, h1⟩]

/-- An `int` result is the mathematical value, which lies in the 32-bit
range. -/
theorem asInt_some {x y : Int} (h : asInt x = some y) :
    y = x ∧ -INT_MAX - 1 ≤ x ∧ x ≤ INT_MAX := by
  unfold asInt at h
  split at h
  · rename_i hc
    exact ⟨(Option.some.inj h).symm, hc⟩
  · simp at h

/-- The builder on a table size that fits an `int` is the fill loop on a
table of `4 * nMapSize` entries. -/
theorem buildAdj_eq (pMap : List Nat) (W N : Int) (h0 : 0 ≤ N) (h1 : 4 * N ≤ INT_MAX) :
    buildAdj pMap W N =
      forLoop N (buildCell pMap W N) (List.replicate (N * 4).toNat (-1)) := by
  unfold buildAdj
  rw [asInt_fits (by unfold INT_MAX at *; omega) (by omega), Option.some_bind,
    if_neg (by omega)]

/-- A table is only built when its size fits an `int`. -/
theorem buildAdj_fits {pMap : List Nat} {W N : Int} {adj : List Int}
    (h : buildAdj pMap W N = some adj) : 0 ≤ 4 * N ∧ 4 * N ≤ INT_MAX := by
  unfold buildAdj at h
  cases ha : asInt (N * 4) with
  | none => rw [ha] at h; simp at h
  | some n4 =>
    rw [ha, Option.some_bind] at h
    obtain ⟨e, -, h1⟩ := asInt_some ha
    subst e
    split at h
    · simp at h
    · rename_i hneg
      exact ⟨by omega, by omega⟩

/-- What the graph builder produces on a well-formed grid whose table size
fits an `int`. -/
theorem buildAdj_spec (pMap : List Nat) (W H : Int) (hwf : WellFormed pMap W H)
    (hfit : 4 * (W * H) ≤ INT_MAX) :
    ∃ adj, buildAdj pMap W (W * H) = some adj ∧ (adj.length : Int) = 4 * (W * H) ∧
      ∀ i v, 0 ≤ i → i < W * H → 0 ≤ v → v < 4 →
        rd adj (4 * i + v) = some (slotSpec pMap W (W * H) i v) := by
  have hN : 0 ≤ W * H := Int.mul_nonneg (by have := hwf.1; omega) (by have := hwf.2.1; omega)
  rw [buildAdj_eq pMap W (W * H) hN hfit]
  obtain ⟨adj, hadj, hlen, hdone, -⟩ := forLoop_inv (W * H) (buildCell pMap W (W * H))
    (List.replicate (W * H * 4).toNat (-1))
    (fun i adj => (adj.length : Int) = 4 * (W * H) ∧
      (∀ j v, 0 ≤ j → j < i → 0 ≤ v → v < 4 →
        rd adj (4 * j + v) = some (slotSpec pMap W (W * H) j v)) ∧
      (∀ k, 4 * i ≤ k → k < 4 * (W * H) → rd adj k = some (-1)))
    ⟨by simp; omega, by intro j v h0 h1; omega,
      by intro k h0 h1; exact rd_replicate (by omega) (by omega)⟩
    (by
      rintro i adj hi0 hi1 ⟨hlen, hdone, hrest⟩
      obtain ⟨adj1, e, l1, o1, s1⟩ := buildCell_spec pMap W H hwf i adj hi0 hi1 hlen
      refine ⟨adj1, e, by omega, ?_, ?_⟩
      · intro j v hj0 hj1 hv0 hv1
        by_cases hji : j = i
        · subst hji
          exact s1 v hv0 hv1 (hrest _ (by omega) (by omega))
        · rw [o1 _ (by omega)]
          exact hdone j v hj0 (by omega) hv0 hv1
      · intro k hk0 hk1
        rw [o1 _ (by omega)]
        exact hrest k (by omega) hk1)
  refine ⟨adj, hadj, hlen, ?_⟩
  intro i v hi0 hi1 hv0 hv1
  exact hdone i v hi0 (by omega) hv0 hv1

/-- The slots of `adj` hold exactly the moves of the grid. -/
theorem edge_iff_move (pMap : List Nat) (W H : Int) (hwf : WellFormed pMap W H)
    (adj : List Int) (hadj : buildAdj pMap W (W * H) = some adj) (a b : Int) :
    Edge adj a b ↔ Move pMap W a b := by
  obtain ⟨adj1, hadj1, hlen, hslot⟩ := buildAdj_spec pMap W H hwf (buildAdj_fits hadj).2
  rw [hadj] at hadj1
  cases hadj1
  obtain ⟨hW, hH, hN⟩ := hwf
  constructor
  · rintro ⟨hb, v, hv0, hv1, hrd⟩
    have hbd := rd_some_bounds hrd
    have ha0 : 0 ≤ a := by omega
    have ha1 : a < W * H := by omega
    rw [hslot a v ha0 ha1 hv0 hv1] at hrd
    have hrd : slotSpec pMap W (W * H) a v = b := Option.some.inj hrd
    unfold slotSpec at hrd
    by_cases hoa : IsOpen pMap a
    swap
    · rw [if_neg hoa] at hrd; exact absurd hrd.symm hb
    rw [if_pos hoa] at hrd
    refine ⟨hoa, ?_⟩
    have hcases : v = 0 ∨ v = 1 ∨ v = 2 ∨ v = 3 := by omega
    rcases hcases with rfl | rfl | rfl | rfl
    · simp only [if_true] at hrd
      split at hrd
      · rename_i hc
        subst hrd
        exact ⟨hc.2, (adjacent4_iff hW a _).2 (Or.inl ⟨rfl, hc.1⟩)⟩
      · exact absurd hrd.symm hb
    · simp only [show ¬ ((1 : Int) = 0) by decide, if_true, if_false] at hrd
      split at hrd
      · rename_i hc
        subst hrd
        exact ⟨hc.2, (adjacent4_iff hW a _).2 (Or.inr (Or.inr (Or.inr rfl)))⟩
      · exact absurd hrd.symm hb
    · simp only [show ¬ ((2 : Int) = 0) by decide, show ¬ ((2 : Int) = 1) by decide,
        if_true, if_false] at hrd
      split at hrd
      · rename_i hc
        subst hrd
        exact ⟨hc.2, (adjacent4_iff hW a _).2 (Or.inr (Or.inl ⟨rfl, hc.1⟩))⟩
      · exact absurd hrd.symm hb
    · simp only [show ¬ ((3 : Int) = 0) by decide, show ¬ ((3 : Int) = 1) by decide,
        show ¬ ((3 : Int) = 2) by decide, if_false] at hrd
      split at hrd
      · rename_i hc
        subst hrd
        exact ⟨hc.2, (adjacent4_iff hW a _).2 (Or.inr (Or.inr (Or.inl rfl)))⟩
      · exact absurd hrd.symm hb
  · rintro ⟨hoa, hob, hadj4⟩
    have hba := rd_some_bounds hoa
    have hbb := rd_some_bounds hob
    refine ⟨by omega, ?_⟩
    rcases (adjacent4_iff hW a b).1 hadj4 with ⟨hb, hne⟩ | ⟨hb, hne⟩ | hb | hb
    · refine ⟨0, by omega, by omega, ?_⟩
      rw [hslot a 0 (by omega) (by omega) (by omega) (by omega)]
      subst hb
      simp [slotSpec, hoa, hob, hne]
    · refine ⟨2, by omega, by omega, ?_⟩
      rw [hslot a 2 (by omega) (by omega) (by omega) (by omega)]
      subst hb
      simp [slotSpec, hoa, hob, hne]
    · refine ⟨3, by omega, by omega, ?_⟩
      rw [hslot a 3 (by omega) (by omega) (by omega) (by omega)]
      subst hb
      have : a < W * H - W := by omega
      simp [slotSpec, hoa, hob, this]
    · refine ⟨1, by omega, by omega, ?_⟩
      rw [hslot a 1 (by omega) (by omega) (by omega) (by omega)]
      subst hb
      have : W ≤ a := by omega
      simp [slotSpec, hoa, hob, this]


/-! ## Frontier expansion -/

theorem count_wr {a b : List Int} {i v : Int} (h : wr a i v = some b)
    (hold : rd a i = some (-1)) (hv : v ≠ -1) :
    List.count (-1) b + 1 = List.count (-1) a := by
  unfold wr at h
  split at h
  swap
  · simp at h
  rename_i hc
  cases h
  unfold rd at hold
  rw [if_neg (by omega)] at hold
  have hget : a[i.toNat] = -1 := by
    have := List.getElem?_eq_getElem hc.2
    rw [this] at hold
    exact Option.some.inj hold
  rw [List.count_set (h := hc.2)]
  have hpos : 0 < List.count (-1) a := by
    rw [List.count_pos_iff]
    rw [← hget]
    exact List.getElem_mem hc.2
  simp [hget, hv]
  omega

theorem Grew.same {l : Int} {P : Int → Int → Prop} {s : Side} (hl : l ≠ -1)
    (hP : ∀ f n, P f n → ∃ v, rd s.level n = some v ∧ v ≠ -1) : Grew l P s s where
  level_len := rfl
  parent_len := rfl
  keep := fun c v h _ => ⟨h, rfl⟩
  fresh := fun c h => Or.inl ⟨h, rfl⟩
  covered := hP
  pushed := ⟨[], by simp, List.nodup_nil, by
    intro c
    constructor
    · intro h; simp at h
    · rintro ⟨h1, h2⟩
      rw [h1] at h2
      exact absurd (Option.some.inj h2).symm hl, by simp⟩

theorem Grew.congr {l : Int} {P Q : Int → Int → Prop} {s s1 : Side} (h : Grew l P s s1)
    (hPQ : ∀ f n, P f n ↔ Q f n) : Grew l Q s s1 where
  level_len := h.level_len
  parent_len := h.parent_len
  keep := h.keep
  fresh := fun c hc => by
    rcases h.fresh c hc with h1 | ⟨h1, f, hf, h2⟩
    · exact Or.inl h1
    · exact Or.inr ⟨h1, f, (hPQ f c).1 hf, h2⟩
  covered := fun f n hq => h.covered f n ((hPQ f n).2 hq)
  pushed := h.pushed

theorem Grew.trans {l : Int} {P Q : Int → Int → Prop} {s s1 s2 : Side} (hl : l ≠ -1)
    (h1 : Grew l P s s1) (h2 : Grew l Q s1 s2) :
    Grew l (fun f n => P f n ∨ Q f n) s s2 where
  level_len := h2.level_len.trans h1.level_len
  parent_len := h2.parent_len.trans h1.parent_len
  keep := fun c v hc hv => by
    obtain ⟨a1, b1⟩ := h1.keep c v hc hv
    obtain ⟨a2, b2⟩ := h2.keep c v a1 hv
    exact ⟨a2, b2.trans b1⟩
  fresh := fun c hc => by
    rcases h1.fresh c hc with ⟨a1, b1⟩ | ⟨a1, f, hf, b1⟩
    · rcases h2.fresh c a1 with ⟨a2, b2⟩ | ⟨a2, f, hf, b2⟩
      · exact Or.inl ⟨a2, b2.trans b1⟩
      · exact Or.inr ⟨a2, f, Or.inr hf, b2⟩
    · obtain ⟨a2, b2⟩ := h2.keep c l a1 hl
      exact Or.inr ⟨a2, f, Or.inl hf, b2.trans b1⟩
  covered := fun f n hpq => by
    rcases hpq with hp | hq
    · obtain ⟨v, hv, hne⟩ := h1.covered f n hp
      exact ⟨v, (h2.keep n v hv hne).1, hne⟩
    · exact h2.covered f n hq
  pushed := by
    obtain ⟨n1, e1, nd1, m1, c1⟩ := h1.pushed
    obtain ⟨n2, e2, nd2, m2, c2⟩ := h2.pushed
    refine ⟨n1 ++ n2, by rw [e2, e1, List.append_assoc], ?_, ?_, ?_⟩
    · rw [List.nodup_append]
      refine ⟨nd1, nd2, ?_⟩
      intro c hc1 hc2
      have a := ((m1 c).1 hc1).2
      have b := ((m2 c).1 hc2).1
      rw [a] at b
      exact hl (Option.some.inj b)
    · intro c
      rw [List.mem_append, m1, m2]
      constructor
      · rintro (⟨a, b⟩ | ⟨a, b⟩)
        · exact ⟨a, (h2.keep c l b hl).1⟩
        · refine ⟨?_, b⟩
          have hb := rd_some_bounds a
          rw [h1.level_len] at hb
          obtain ⟨v, hv⟩ := rd_in_bounds hb.1 hb.2
          by_cases hv1 : v = -1
          · rw [hv, hv1]
          · have := (h1.keep c v hv hv1).1
            rw [a] at this
            exact absurd (Option.some.inj this).symm hv1
      · rintro ⟨a, b⟩
        rcases h1.fresh c a with ⟨a1, -⟩ | ⟨a1, -⟩
        · exact Or.inr ⟨a1, b⟩
        · exact Or.inl ⟨a, a1⟩
    · rw [List.length_append]; omega

theorem visit_spec {adj : List Int} {N : Int} (hg : GoodAdj adj N) {l c v : Int} {s : Side}
    (hl : l ≠ -1) (hc0 : 0 ≤ c) (hc1 : c < N) (hv0 : 0 ≤ v) (hv1 : v < 4)
    (hlev : (s.level.length : Int) = N) (hpar : (s.parent.length : Int) = N) :
    ∃ s1, visit adj l c s v = some s1 ∧
      Grew l (fun f n => f = c ∧ n ≠ -1 ∧ rd adj (4 * c + v) = some n) s s1 := by
  obtain ⟨n, hn⟩ := rd_in_bounds (a := adj) (i := 4 * c + v) (by omega) (by have := hg.len; omega)
  by_cases hn1 : n = -1
  · refine ⟨s, by unfold visit; rw [hn]; simp [hn1], Grew.same hl ?_⟩
    rintro f n2 ⟨-, h2, h3⟩
    rw [hn] at h3
    exact absurd ((Option.some.inj h3).symm.trans hn1) h2
  · have hr := (hg.range _ _ hn).resolve_left hn1
    obtain ⟨lv, hlv⟩ := rd_in_bounds (a := s.level) hr.1 (by omega)
    by_cases hlv1 : lv = -1
    swap
    · refine ⟨s, by unfold visit; rw [hn]; simp [hn1, hlv, hlv1], Grew.same hl ?_⟩
      rintro f n2 ⟨-, -, h3⟩
      rw [hn] at h3
      cases h3
      exact ⟨lv, hlv, hlv1⟩
    · subst hlv1
      obtain ⟨lev1, hw1⟩ := wr_in_bounds (a := s.level) l hr.1 (by omega)
      obtain ⟨par1, hw2⟩ := wr_in_bounds (a := s.parent) c hr.1 (by omega)
      refine ⟨⟨lev1, par1, s.next ++ [n]⟩,
        by unfold visit; rw [hn]; simp [hn1, hlv, hw1, hw2], ?_⟩
      refine ⟨wr_length hw1, wr_length hw2, ?_, ?_, ?_, ?_⟩
      · intro c2 v2 h2 hv2
        have hne : c2 ≠ n := by
          rintro rfl
          rw [hlv] at h2
          exact hv2 (Option.some.inj h2).symm
        exact ⟨by rw [rd_wr_ne hw1 hne]; exact h2, rd_wr_ne hw2 hne⟩
      · intro c2 h2
        by_cases hne : c2 = n
        · subst hne
          exact Or.inr ⟨rd_wr_same hw1, c, ⟨rfl, hn1, hn⟩, rd_wr_same hw2⟩
        · exact Or.inl ⟨by rw [rd_wr_ne hw1 hne]; exact h2, rd_wr_ne hw2 hne⟩
      · rintro f n2 ⟨-, -, h3⟩
        rw [hn] at h3
        cases h3
        exact ⟨l, rd_wr_same hw1, hl⟩
      · refine ⟨[n], rfl, List.nodup_singleton n, ?_, ?_⟩
        · intro c2
          rw [List.mem_singleton]
          constructor
          · rintro rfl
            exact ⟨hlv, rd_wr_same hw1⟩
          · rintro ⟨a, b⟩
            by_contra hne
            rw [rd_wr_ne hw1 hne, a] at b
            exact hl (Option.some.inj b).symm
        · simpa using count_wr hw1 hlv hl


theorem expandCell_spec {adj : List Int} {N : Int} (hg : GoodAdj adj N) {l c : Int} {s : Side}
    (hl : l ≠ -1) (hc0 : 0 ≤ c) (hc1 : c < N)
    (hlev : (s.level.length : Int) = N) (hpar : (s.parent.length : Int) = N) :
    ∃ s1, expandCell adj l s c = some s1 ∧ Grew l (fun f n => f = c ∧ Edge adj c n) s s1 := by
  obtain ⟨s1, e1, g1⟩ := visit_spec hg (v := 0) hl hc0 hc1 (by omega) (by omega) hlev hpar
  obtain ⟨s2, e2, g2⟩ := visit_spec hg (v := 1) (s := s1) hl hc0 hc1 (by omega) (by omega)
    (by rw [g1.level_len]; exact hlev) (by rw [g1.parent_len]; exact hpar)
  have g12 := Grew.trans hl g1 g2
  obtain ⟨s3, e3, g3⟩ := visit_spec hg (v := 2) (s := s2) hl hc0 hc1 (by omega) (by omega)
    (by rw [g12.level_len]; exact hlev) (by rw [g12.parent_len]; exact hpar)
  have g123 := Grew.trans hl g12 g3
  obtain ⟨s4, e4, g4⟩ := visit_spec hg (v := 3) (s := s3) hl hc0 hc1 (by omega) (by omega)
    (by rw [g123.level_len]; exact hlev) (by rw [g123.parent_len]; exact hpar)
  have g := Grew.trans hl g123 g4
  refine ⟨s4, ?_, g.congr ?_⟩
  · simp only [expandCell, List.foldlM, e1, e2, e3, e4, Option.bind_eq_bind, Option.some_bind,
      Option.pure_def]
  · intro f n
    constructor
    · rintro (((⟨h1, h2, h3⟩ | ⟨h1, h2, h3⟩) | ⟨h1, h2, h3⟩) | ⟨h1, h2, h3⟩)
      · exact ⟨h1, h2, 0, by omega, by omega, h3⟩
      · exact ⟨h1, h2, 1, by omega, by omega, h3⟩
      · exact ⟨h1, h2, 2, by omega, by omega, h3⟩
      · exact ⟨h1, h2, 3, by omega, by omega, h3⟩
    · rintro ⟨h1, h2, v, hv0, hv1, h3⟩
      have hcases : v = 0 ∨ v = 1 ∨ v = 2 ∨ v = 3 := by omega
      rcases hcases with rfl | rfl | rfl | rfl
      · exact Or.inl (Or.inl (Or.inl ⟨h1, h2, h3⟩))
      · exact Or.inl (Or.inl (Or.inr ⟨h1, h2, h3⟩))
      · exact Or.inl (Or.inr ⟨h1, h2, h3⟩)
      · exact Or.inr ⟨h1, h2, h3⟩

theorem expandStart_spec {adj : List Int} {N : Int} (hg : GoodAdj adj N) {l : Int}
    (hl : l ≠ -1) (F : List Int) (hF : ∀ c ∈ F, 0 ≤ c ∧ c < N) (s : Side)
    (hlev : (s.level.length : Int) = N) (hpar : (s.parent.length : Int) = N) :
    ∃ s1, expandStart adj l F s = some s1 ∧ Grew l (fun f n => f ∈ F ∧ Edge adj f n) s s1 := by
  induction F generalizing s with
  | nil =>
    exact ⟨s, by simp [expandStart], Grew.same hl (by intro f n h; simp at h)⟩
  | cons c rest ih =>
    have hc := hF c (List.mem_cons_self c rest)
    obtain ⟨s1, e1, g1⟩ := expandCell_spec hg (s := s) hl hc.1 hc.2 hlev hpar
    obtain ⟨s2, e2, g2⟩ := ih (fun x hx => hF x (List.mem_cons_of_mem c hx)) s1
      (by rw [g1.level_len]; exact hlev) (by rw [g1.parent_len]; exact hpar)
    refine ⟨s2, ?_, (Grew.trans hl g1 g2).congr ?_⟩
    · unfold expandStart at e2 ⊢
      rw [List.foldlM_cons, e1]
      exact e2
    · intro f n
      rw [List.mem_cons]
      constructor
      · rintro (⟨h1, h2⟩ | ⟨h1, h2⟩)
        · exact ⟨Or.inl h1, h1 ▸ h2⟩
        · exact ⟨Or.inr h1, h2⟩
      · rintro ⟨h1 | h1, h2⟩
        · exact Or.inl ⟨h1, h1 ▸ h2⟩
        · exact Or.inr ⟨h1, h2⟩

/-- The target pass either stops at the first frontier cell that the start
side has visited, having expanded the cells before it, or expands the whole
frontier. -/
theorem targetPass_spec {adj : List Int} {N : Int} (hg : GoodAdj adj N) {l : Int}
    (hl : l ≠ -1) (sl : List Int) (hsl : (sl.length : Int) = N)
    (F : List Int) (hF : ∀ c ∈ F, 0 ≤ c ∧ c < N) (s : Side)
    (hlev : (s.level.length : Int) = N) (hpar : (s.parent.length : Int) = N) :
    (∃ m s1 pre post, targetPass adj l sl F s = some (Sum.inl (m, s1)) ∧
        F = pre ++ m :: post ∧ (∀ c ∈ pre, rd sl c = some (-1)) ∧
        (∃ v, rd sl m = some v ∧ v ≠ -1) ∧
        Grew l (fun f n => f ∈ pre ∧ Edge adj f n) s s1) ∨
    (∃ s1, targetPass adj l sl F s = some (Sum.inr s1) ∧
        (∀ c ∈ F, rd sl c = some (-1)) ∧
        Grew l (fun f n => f ∈ F ∧ Edge adj f n) s s1) := by
  induction F generalizing s with
  | nil =>
    right
    exact ⟨s, rfl, by simp, Grew.same hl (by intro f n h; simp at h)⟩
  | cons c rest ih =>
    have hc := hF c (List.mem_cons_self c rest)
    obtain ⟨v, hv⟩ := rd_in_bounds (a := sl) hc.1 (by omega)
    by_cases hv1 : v = -1
    swap
    · left
      refine ⟨c, s, [], rest, ?_, rfl, by simp, ⟨v, hv, hv1⟩,
        Grew.same hl (by intro f n h; simp at h)⟩
      simp [targetPass, hv, hv1]
    · subst hv1
      obtain ⟨s1, e1, g1⟩ := expandCell_spec hg (s := s) hl hc.1 hc.2 hlev hpar
      have hcongr : ∀ (L : List Int) (f n : Int),
          ((f = c ∧ Edge adj c n) ∨ (f ∈ L ∧ Edge adj f n)) ↔ (f ∈ c :: L ∧ Edge adj f n) := by
        intro L f n
        rw [List.mem_cons]
        constructor
        · rintro (⟨h1, h2⟩ | ⟨h1, h2⟩)
          · exact ⟨Or.inl h1, h1 ▸ h2⟩
          · exact ⟨Or.inr h1, h2⟩
        · rintro ⟨h1 | h1, h2⟩
          · exact Or.inl ⟨h1, h1 ▸ h2⟩
          · exact Or.inr ⟨h1, h2⟩
      have hstep : targetPass adj l sl (c :: rest) s = targetPass adj l sl rest s1 := by
        simp [targetPass, hv, e1]
      rcases ih (fun x hx => hF x (List.mem_cons_of_mem c hx)) s1
        (by rw [g1.level_len]; exact hlev) (by rw [g1.parent_len]; exact hpar) with
        ⟨m, s2, pre, post, e2, hsplit, hpre, hm, g2⟩ | ⟨s2, e2, hall, g2⟩
      · left
        refine ⟨m, s2, c :: pre, post, by rw [hstep, e2], by rw [hsplit]; rfl, ?_, hm,
          (Grew.trans hl g1 g2).congr (hcongr pre)⟩
        intro x hx
        rcases List.mem_cons.1 hx with rfl | hx
        · exact hv
        · exact hpre x hx
      · right
        refine ⟨s2, by rw [hstep, e2], ?_, (Grew.trans hl g1 g2).congr (hcongr rest)⟩
        intro x hx
        rcases List.mem_cons.1 hx with rfl | hx
        · exact hv
        · exact hall x hx


/-! ## Walks in `adj` and the two invariants -/

theorem edge_range {adj : List Int} {N : Int} (hg : GoodAdj adj N) {a b : Int}
    (h : Edge adj a b) : 0 ≤ b ∧ b < N := by
  obtain ⟨hb, v, -, -, hrd⟩ := h
  exact (hg.range _ _ hrd).resolve_left hb

theorem reach_range {adj : List Int} {N : Int} (hg : GoodAdj adj N) {k : Nat} {o c : Int}
    (h : Reach adj k o c) (ho : 0 ≤ o ∧ o < N) : 0 ≤ c ∧ c < N := by
  cases h with
  | zero => exact ho
  | step _ he => exact edge_range hg he

theorem reach_zero {adj : List Int} {a b : Int} (h : Reach adj 0 a b) : b = a := by
  cases h; rfl

theorem reach_pred {adj : List Int} {k : Nat} {a c : Int} (h : Reach adj (k + 1) a c) :
    ∃ b, Reach adj k a b ∧ Edge adj b c := by
  cases h with
  | step h1 h2 => exact ⟨_, h1, h2⟩

theorem reach_trans {adj : List Int} {j k : Nat} {a b c : Int} (h1 : Reach adj j a b)
    (h2 : Reach adj k b c) : Reach adj (j + k) a c := by
  induction h2 with
  | zero => exact h1
  | step _ he ih => exact Reach.step (ih h1) he

theorem reach_split {adj : List Int} (j : Nat) {k : Nat} {a c : Int}
    (h : Reach adj (j + k) a c) : ∃ b, Reach adj j a b ∧ Reach adj k b c := by
  induction k generalizing c with
  | zero => exact ⟨c, h, Reach.zero c⟩
  | succ k ih =>
    obtain ⟨b, hb, he⟩ := reach_pred (k := j + k) h
    obtain ⟨m, h1, h2⟩ := ih hb
    exact ⟨m, h1, Reach.step h2 he⟩

theorem reach_symm {adj : List Int} {N : Int} (hg : GoodAdj adj N) {k : Nat} {a b : Int}
    (h : Reach adj k a b) : Reach adj k b a := by
  induction h with
  | zero => exact Reach.zero _
  | step _ he ih =>
    rename_i k a b c _
    have h1 : Reach adj 1 c b := Reach.step (Reach.zero c) (hg.symm _ _ he)
    have := reach_trans h1 ih
    rwa [Nat.add_comm] at this

theorem reach_parity {adj : List Int} {N : Int} (hg : GoodAdj adj N) {j k : Nat} {a b : Int}
    (h1 : Reach adj j a b) (h2 : Reach adj k a b) : j % 2 = k % 2 := by
  obtain ⟨colour, hcol⟩ := hg.parity
  have key : ∀ (n : Nat) (x y : Int), Reach adj n x y → (colour x + colour y + n) % 2 = 0 := by
    intro n x y h
    induction h with
    | zero => omega
    | step _ he ih =>
      have := hcol _ _ he
      push_cast
      omega
  have e1 := key j a b h1
  have e2 := key k a b h2
  omega

/-- Expanding along edges that leave cells of level `l - 1` keeps the parent
invariant. -/
theorem tree_grew {adj : List Int} {N o l : Int} {P : Int → Int → Prop} {s s1 : Side}
    (ht : Tree adj N o s.level s.parent) (hg : Grew l P s s1) (hl : 1 ≤ l)
    (hP : ∀ f n, P f n → Edge adj f n ∧ rd s.level f = some (l - 1)) :
    Tree adj N o s1.level s1.parent := by
  have old : ∀ c v, rd s1.level c = some v → ∃ v0, rd s.level c = some v0 := by
    intro c v h
    have hb := rd_some_bounds h
    rw [hg.level_len] at hb
    exact rd_in_bounds hb.1 hb.2
  have cases : ∀ c v, rd s1.level c = some v →
      (rd s.level c = some v ∧ v ≠ -1 ∧ rd s1.parent c = rd s.parent c) ∨
      (rd s.level c = some (-1) ∧ v = -1 ∧ rd s1.parent c = rd s.parent c) ∨
      (rd s.level c = some (-1) ∧ v = l ∧ ∃ f, P f c ∧ rd s1.parent c = some f) := by
    intro c v h
    obtain ⟨v0, h0⟩ := old c v h
    by_cases hv0 : v0 = -1
    · subst hv0
      rcases hg.fresh c h0 with ⟨a, b⟩ | ⟨a, b⟩
      · rw [h] at a
        exact Or.inr (Or.inl ⟨h0, Option.some.inj a, b⟩)
      · rw [h] at a
        exact Or.inr (Or.inr ⟨h0, Option.some.inj a, b⟩)
    · obtain ⟨a, b⟩ := hg.keep c v0 h0 hv0
      rw [h] at a
      cases a
      exact Or.inl ⟨h0, hv0, b⟩
  refine ⟨by rw [hg.level_len]; exact ht.level_len, by rw [hg.parent_len]; exact ht.parent_len,
    (hg.keep o 0 ht.origin (by decide)).1, ?_, ?_, ?_, ?_⟩
  · intro c v h
    rcases cases c v h with ⟨a, -, -⟩ | ⟨-, a, -⟩ | ⟨-, a, -⟩
    · exact ht.ge c v a
    · omega
    · omega
  · intro c h
    rcases cases c 0 h with ⟨a, -, -⟩ | ⟨-, a, -⟩ | ⟨-, a, -⟩
    · exact ht.zero c a
    · omega
    · omega
  · intro c v h hv
    rcases cases c v h with ⟨a, -, b⟩ | ⟨a, e, b⟩ | ⟨-, a, -⟩
    · rw [b]; exact ht.root c v a hv
    · rw [b]; exact ht.root c (-1) a (by omega)
    · omega
  · intro c v h hv
    rcases cases c v h with ⟨a, -, b⟩ | ⟨-, a, -⟩ | ⟨-, a, f, hf, b⟩
    · obtain ⟨p, hp, he, hlp⟩ := ht.up c v a hv
      exact ⟨p, by rw [b]; exact hp, he, (hg.keep p (v - 1) hlp (by omega)).1⟩
    · omega
    · obtain ⟨he, hlf⟩ := hP f c hf
      subst a
      exact ⟨f, b, he, (hg.keep f (v - 1) hlf (by omega)).1⟩

/-- One full expansion of the frontier of depth `k` makes the level array
exact up to depth `k + 1`; the new frontier is the set of cells of level
`k + 1`. -/
theorem exact_grew {adj : List Int} {o : Int}
    {k : Nat} {F : List Int} {s s1 : Side}
    (hex : Exact adj o k s.level)
    (hF : ∀ c, c ∈ F ↔ rd s.level c = some (k : Int))
    (hg : Grew ((k : Int) + 1) (fun f n => f ∈ F ∧ Edge adj f n) s s1) (hnext : s.next = []) :
    Exact adj o (k + 1) s1.level ∧
      (∀ c, c ∈ s1.next ↔ rd s1.level c = some ((k : Int) + 1)) ∧
      List.count (-1) s1.level + s1.next.length = List.count (-1) s.level := by
  have old : ∀ c v, rd s1.level c = some v → ∃ v0, rd s.level c = some v0 := by
    intro c v h
    have hb := rd_some_bounds h
    rw [hg.level_len] at hb
    exact rd_in_bounds hb.1 hb.2
  refine ⟨⟨?_, ?_⟩, ?_, ?_⟩
  · intro c v h hv
    obtain ⟨v0, h0⟩ := old c v h
    by_cases hv0 : v0 = -1
    · subst hv0
      rcases hg.fresh c h0 with ⟨a, -⟩ | ⟨a, f, ⟨hfF, he⟩, -⟩
      · rw [h] at a
        exact absurd (Option.some.inj a) hv
      · rw [h] at a
        have hv1 : v = (k : Int) + 1 := Option.some.inj a
        obtain ⟨j, hj, -, hr, -⟩ := hex.sound f k ((hF f).1 hfF) (by omega)
        have hjk : j = k := by omega
        subst hjk
        refine ⟨j + 1, by rw [hv1]; push_cast; rfl, le_refl _, Reach.step hr he, ?_⟩
        intro i hi hri
        obtain ⟨w, hw, hw1⟩ := hex.complete c i (by omega) hri
        rw [h0] at hw
        exact hw1 (Option.some.inj hw).symm
    · obtain ⟨a, -⟩ := hg.keep c v0 h0 hv0
      rw [h] at a
      cases a
      obtain ⟨j, hj, hjk, hr, hmin⟩ := hex.sound c v h0 hv0
      exact ⟨j, hj, by omega, hr, hmin⟩
  · intro c j hj hr
    by_cases hjk : j ≤ k
    · obtain ⟨v, hv, hv1⟩ := hex.complete c j hjk hr
      exact ⟨v, (hg.keep c v hv hv1).1, hv1⟩
    · have hj1 : j = k + 1 := by omega
      subst hj1
      obtain ⟨b, hb, he⟩ := reach_pred hr
      obtain ⟨v, hv, hv1⟩ := hex.complete b k (le_refl _) hb
      obtain ⟨i, hi, hik, hri, -⟩ := hex.sound b v hv hv1
      by_cases hik2 : i = k
      · subst hik2
        subst hi
        exact hg.covered b c ⟨(hF b).2 hv, he⟩
      · obtain ⟨w, hw, hw1⟩ := hex.complete c (i + 1) (by omega) (Reach.step hri he)
        exact ⟨w, (hg.keep c w hw hw1).1, hw1⟩
  · obtain ⟨new, e, -, hmem, -⟩ := hg.pushed
    intro c
    rw [e, hnext, List.nil_append, hmem]
    constructor
    · exact fun h => h.2
    · intro h
      refine ⟨?_, h⟩
      obtain ⟨v0, h0⟩ := old c _ h
      by_cases hv0 : v0 = -1
      · rw [h0, hv0]
      · obtain ⟨a, -⟩ := hg.keep c v0 h0 hv0
        rw [h] at a
        obtain ⟨j, hj, hjk, -, -⟩ := hex.sound c v0 h0 hv0
        have := Option.some.inj a
        omega
  · obtain ⟨new, e, -, -, hcount⟩ := hg.pushed
    rw [e, hnext, List.nil_append]
    exact hcount


/-! ## The main loop -/

/-- When no cell has level `k`, everything reachable lies within `k - 1`
edges of the origin. -/
theorem exhausted {adj : List Int} {o : Int} {k : Nat} {level : List Int}
    (hex : Exact adj o k level) (hk : 1 ≤ k) (hnone : ∀ c, rd level c ≠ some (k : Int))
    (d : Nat) (c : Int) (h : Reach adj d o c) : ∃ j, j < k ∧ Reach adj j o c := by
  induction d generalizing c with
  | zero =>
    have := reach_zero h
    subst this
    exact ⟨0, by omega, h⟩
  | succ d ih =>
    obtain ⟨b, hb, he⟩ := reach_pred h
    obtain ⟨j, hj, hr⟩ := ih b hb
    obtain ⟨v, hv, hv1⟩ := hex.complete c (j + 1) (by omega) (Reach.step hr he)
    obtain ⟨i, hi, hik, hri, -⟩ := hex.sound c v hv hv1
    refine ⟨i, ?_, hri⟩
    by_contra hc
    have : i = k := by omega
    subst this
    subst hi
    exact hnone c hv

/-- A pass over the target frontier that finds no cell visited from the start
rules out walks of `2 * k` and `2 * k + 1` edges. -/
theorem apart_step {adj : List Int} {N s t : Int} (hg : GoodAdj adj N) {k : Nat}
    {sl tl : List Int} (hs : Exact adj s (k + 1) sl) (ht : Exact adj t k tl)
    (hmiss : ∀ c, rd tl c = some (k : Int) → rd sl c = some (-1))
    (hapart : ∀ d, d < 2 * k → ¬ Reach adj d s t) :
    ∀ d, d < 2 * (k + 1) → ¬ Reach adj d s t := by
  intro d hd hr
  by_cases hlt : d < 2 * k
  · exact hapart d hlt hr
  · have hsplit : d = (d - k) + k := by omega
    rw [hsplit] at hr
    obtain ⟨c, h1, h2⟩ := reach_split (d - k) hr
    obtain ⟨v, hv, hv1⟩ := hs.complete c (d - k) (by omega) h1
    obtain ⟨w, hw, hw1⟩ := ht.complete c k (le_refl _) (reach_symm hg h2)
    obtain ⟨j, hj, hjk, hrj, -⟩ := ht.sound c w hw hw1
    by_cases hjk2 : j = k
    · subst hjk2
      subst hj
      have := hmiss c hw
      rw [hv] at this
      exact hv1 (Option.some.inj this)
    · have h3 := reach_trans h1 (reach_symm hg hrj)
      have hpar := reach_parity hg h3 (reach_trans h1 h2)
      exact hapart (d - k + j) (by omega) h3

/-- The cell at which the pass stops lies on a shortest walk. -/
theorem meet_shortest {adj : List Int} {N s t m : Int} (hg : GoodAdj adj N) {i k : Nat}
    (h1 : Reach adj i s m) (h2 : Reach adj k t m) (hik : i ≤ k + 1)
    (hapart : ∀ d, d < 2 * k → ¬ Reach adj d s t) :
    ∀ d, d < i + k → ¬ Reach adj d s t := by
  intro d hd hr
  by_cases hlt : d < 2 * k
  · exact hapart d hlt hr
  · have hpar := reach_parity hg hr (reach_trans h1 (reach_symm hg h2))
    omega


/-- The main loop ends: either the frontiers meet at a cell on a shortest
walk, or a frontier runs empty and no walk joins start and target. -/
theorem mainLoop_spec {adj : List Int} {N s t : Int} (hg : GoodAdj adj N) (hst : s ≠ t) :
    ∀ (fuel k : Nat) (st : Search), LoopInv adj N s t k fuel st →
      (∃ m st1 i j, mainLoop adj fuel st = some (Outcome.met m st1) ∧
          Meeting adj N s t m i j st1) ∨
      (mainLoop adj fuel st = some Outcome.noPath ∧ ∀ d, ¬ Reach adj d s t) := by
  intro fuel
  induction fuel with
  | zero => intro k st h; exact absurd h.alive (by omega)
  | succ f ih =>
    intro k st h
    have hl : st.l = (k : Int) + 1 := h.depth
    by_cases hcond : st.start_frontier.length > 0 ∧ st.target_frontier.length > 0
    swap
    · right
      refine ⟨by rw [mainLoop, if_neg hcond], ?_⟩
      have hk : 1 ≤ k := by
        by_contra hk0
        have hk0 : k = 0 := by omega
        subst hk0
        have h1 := (h.sfront s).2 h.stree.origin
        have h2 := (h.tfront t).2 h.ttree.origin
        exact hcond ⟨List.length_pos_of_mem h1, List.length_pos_of_mem h2⟩
      intro d hd
      have hempty : st.start_frontier = [] ∨ st.target_frontier = [] := by
        by_contra hne
        push_neg at hne
        exact hcond ⟨List.length_pos.2 hne.1, List.length_pos.2 hne.2⟩
      rcases hempty with he | he
      · obtain ⟨j, hj, hr⟩ := exhausted h.sexact hk
          (fun c hc => by have := (h.sfront c).2 hc; rw [he] at this; simp at this) d t hd
        exact h.apart j (by omega) hr
      · obtain ⟨j, hj, hr⟩ := exhausted h.texact hk
          (fun c hc => by have := (h.tfront c).2 hc; rw [he] at this; simp at this) d s
          (reach_symm hg hd)
        exact h.apart j (by omega) (reach_symm hg hr)
    · have hsF : ∀ c ∈ st.start_frontier, 0 ≤ c ∧ c < N := fun c hc => by
        have := rd_some_bounds ((h.sfront c).1 hc)
        rw [h.stree.level_len] at this
        exact this
      have htF : ∀ c ∈ st.target_frontier, 0 ≤ c ∧ c < N := fun c hc => by
        have := rd_some_bounds ((h.tfront c).1 hc)
        rw [h.ttree.level_len] at this
        exact this
      have hlne : st.l ≠ -1 := by omega
      obtain ⟨s1, e1, g1⟩ := expandStart_spec hg hlne st.start_frontier hsF
        ⟨st.start_level, st.start_parent, []⟩ h.stree.level_len h.stree.parent_len
      have stree1 : Tree adj N s s1.level s1.parent :=
        tree_grew (s := ⟨st.start_level, st.start_parent, []⟩) h.stree g1 (by omega)
          (fun f n hfn => ⟨hfn.2, by
            have := (h.sfront f).1 hfn.1
            rw [hl]
            simpa using this⟩)
      obtain ⟨sex1, sfr1, scount⟩ := exact_grew (s := ⟨st.start_level, st.start_parent, []⟩)
        h.sexact h.sfront (hl ▸ g1) rfl
      rcases targetPass_spec hg hlne s1.level stree1.level_len st.target_frontier htF
        ⟨st.target_level, st.target_parent, []⟩ h.ttree.level_len h.ttree.parent_len with
        ⟨m, t1, pre, post, e2, hsplit, hpre, ⟨v, hv, hv1⟩, g2⟩ | ⟨t1, e2, hall, g2⟩
      · left
        obtain ⟨i, hi, hik, hri, hmin⟩ := sex1.sound m v hv hv1
        have hmF : m ∈ st.target_frontier := by rw [hsplit]; simp
        have hmk := (h.tfront m).1 hmF
        obtain ⟨j, hj, hjk, hrj, -⟩ := h.texact.sound m k hmk (by omega)
        have hjk2 : j = k := by omega
        subst hjk2
        refine ⟨m, _, i, j, by rw [mainLoop, if_pos hcond, e1, Option.some_bind, e2,
          Option.some_bind], ?_⟩
        have hbud := h.budget
        have halive := h.alive
        refine ⟨stree1, ?_, by rw [hv, hi], (g2.keep m j hmk (by omega)).1, ?_, hri, hrj,
          meet_shortest hg hri hrj hik h.apart, by omega, by omega⟩
        · exact tree_grew (s := ⟨st.target_level, st.target_parent, []⟩) h.ttree g2 (by omega)
            (fun f n hfn => ⟨hfn.2, by
              have hfF : f ∈ st.target_frontier := by
                rw [hsplit]; exact List.mem_append_left _ hfn.1
              have := (h.tfront f).1 hfF
              rw [hl]
              simpa using this⟩)
        · by_contra hi0
          have hi0 : i = 0 := by omega
          subst hi0
          have hms := reach_zero hri
          subst hms
          by_cases hj0 : j = 0
          · subst hj0
            exact hst (reach_zero hrj)
          · exact h.apart j (by omega) (reach_symm hg hrj)
      · have ttree1 : Tree adj N t t1.level t1.parent :=
          tree_grew (s := ⟨st.target_level, st.target_parent, []⟩) h.ttree g2 (by omega)
            (fun f n hfn => ⟨hfn.2, by
              have := (h.tfront f).1 hfn.1
              rw [hl]
              simpa using this⟩)
        obtain ⟨tex1, tfr1, -⟩ := exact_grew (s := ⟨st.target_level, st.target_parent, []⟩)
          h.texact h.tfront (hl ▸ g2) rfl
        have hstep : mainLoop adj (f + 1) st = mainLoop adj f
            { start_level := s1.level, start_parent := s1.parent,
              target_level := t1.level, target_parent := t1.parent,
              start_frontier := s1.next, target_frontier := t1.next, l := st.l + 1 } := by
          rw [mainLoop, if_pos hcond, e1, Option.some_bind, e2, Option.some_bind]
        rw [hstep]
        have hroom := h.room (List.length_pos.1 hcond.1)
        have hbud := h.budget
        apply ih (k + 1)
        refine ⟨by simp [hl], stree1, ttree1, sex1, tex1, ?_, ?_, ?_, ?_, ?_, ?_⟩
        · intro c; rw [sfr1 c]; simp
        · intro c; rw [tfr1 c]; simp
        · exact apart_step hg sex1 h.texact
            (fun c hc => hall c ((h.tfront c).2 hc)) h.apart
        · push_cast; omega
        · intro hne
          have : 0 < s1.next.length := List.length_pos.2 hne
          show List.count (-1) s1.level + 2 ≤ f
          simp only at scount
          omega
        · simp only at scount
          omega


/-- The table produced by the builder has the properties the search needs. -/
theorem buildAdj_good (pMap : List Nat) (W H : Int) (hwf : WellFormed pMap W H)
    (adj : List Int) (hadj : buildAdj pMap W (W * H) = some adj) : GoodAdj adj (W * H) := by
  obtain ⟨adj1, hadj1, hlen, hslot⟩ := buildAdj_spec pMap W H hwf (buildAdj_fits hadj).2
  rw [hadj] at hadj1
  cases hadj1
  refine ⟨hlen, ?_, ?_, ?_⟩
  · intro k n hk
    have hb := rd_some_bounds hk
    have h4 : k = 4 * (k / 4) + k % 4 := by omega
    rw [h4, hslot (k / 4) (k % 4) (by omega) (by omega) (by omega) (by omega)] at hk
    have hk : slotSpec pMap W (W * H) (k / 4) (k % 4) = n := Option.some.inj hk
    have hopen : ∀ c, IsOpen pMap c → 0 ≤ c ∧ c < W * H := by
      intro c hc
      have := rd_some_bounds hc
      rw [hwf.2.2] at this
      exact this
    unfold slotSpec at hk
    split at hk
    · split at hk
      · split at hk
        · rename_i hc; right; rw [← hk]; exact hopen _ hc.2
        · left; exact hk.symm
      · split at hk
        · split at hk
          · rename_i hc; right; rw [← hk]; exact hopen _ hc.2
          · left; exact hk.symm
        · split at hk
          · split at hk
            · rename_i hc; right; rw [← hk]; exact hopen _ hc.2
            · left; exact hk.symm
          · split at hk
            · rename_i hc; right; rw [← hk]; exact hopen _ hc.2
            · left; exact hk.symm
    · left; exact hk.symm
  · intro a b h
    rw [edge_iff_move pMap W H hwf adj hadj] at h ⊢
    exact ⟨h.2.1, h.1, adjacent4_symm h.2.2⟩
  · refine ⟨fun a => a % W + a / W, ?_⟩
    intro a b h
    rw [edge_iff_move pMap W H hwf adj hadj] at h
    exact adjacent4_parity h.2.2

/-- The initial state satisfies the loop invariant at depth `0`. -/
theorem initSearch_spec (adj : List Int) (N s t : Int) (hs : 0 ≤ s ∧ s < N)
    (ht : 0 ≤ t ∧ t < N) :
    ∃ st, initSearch N s t = some st ∧ LoopInv adj N s t 0 (N.toNat + 1) st := by
  have hblank : ((List.replicate N.toNat (-1 : Int)).length : Int) = N := by
    simp; omega
  obtain ⟨sl, hsl⟩ := wr_in_bounds (a := List.replicate N.toNat (-1 : Int)) 0 hs.1
    (by rw [hblank]; exact hs.2)
  obtain ⟨tl, htl⟩ := wr_in_bounds (a := List.replicate N.toNat (-1 : Int)) 0 ht.1
    (by rw [hblank]; exact ht.2)
  have rdblank : ∀ c v, rd (List.replicate N.toNat (-1 : Int)) c = some v → v = -1 := by
    intro c v h
    have hb := rd_some_bounds h
    rw [rd_replicate hb.1 (by omega)] at h
    exact (Option.some.inj h).symm
  have tree : ∀ (o : Int) (lev : List Int), wr (List.replicate N.toNat (-1 : Int)) o 0 = some lev →
      Tree adj N o lev (List.replicate N.toNat (-1 : Int)) ∧ Exact adj o 0 lev ∧
      (∀ c, c ∈ [o] ↔ rd lev c = some ((0 : Nat) : Int)) ∧
      List.count (-1) lev + 1 = N.toNat := by
    intro o lev hw
    have hval : ∀ c v, rd lev c = some v → (c = o ∧ v = 0) ∨ (c ≠ o ∧ v = -1) := by
      intro c v h
      by_cases hc : c = o
      · subst hc
        rw [rd_wr_same hw] at h
        exact Or.inl ⟨rfl, (Option.some.inj h).symm⟩
      · rw [rd_wr_ne hw hc] at h
        exact Or.inr ⟨hc, rdblank c v h⟩
    have hlen : (lev.length : Int) = N := by rw [wr_length hw]; exact hblank
    refine ⟨⟨hlen, hblank, rd_wr_same hw, ?_, ?_, ?_, ?_⟩, ⟨?_, ?_⟩, ?_, ?_⟩
    · intro c v h
      rcases hval c v h with ⟨-, h1⟩ | ⟨-, h1⟩ <;> omega
    · intro c h
      rcases hval c 0 h with ⟨h1, -⟩ | ⟨-, h1⟩
      · exact h1
      · omega
    · intro c v h _
      have hb := rd_some_bounds h
      exact rd_replicate hb.1 (by omega)
    · intro c v h hv
      rcases hval c v h with ⟨-, h1⟩ | ⟨-, h1⟩ <;> omega
    · intro c v h hv
      rcases hval c v h with ⟨h1, h2⟩ | ⟨-, h1⟩
      · subst h1
        exact ⟨0, by simpa using h2, le_refl _, Reach.zero _, by intro i hi; omega⟩
      · exact absurd h1 hv
    · intro c j hj hr
      have hj0 : j = 0 := by omega
      subst hj0
      have := reach_zero hr
      subst this
      exact ⟨0, rd_wr_same hw, by decide⟩
    · intro c
      rw [List.mem_singleton]
      constructor
      · rintro rfl; simpa using rd_wr_same hw
      · intro h
        rcases hval c _ h with ⟨h1, -⟩ | ⟨-, h1⟩
        · exact h1
        · simp at h1
    · have hbd := rd_some_bounds (rd_wr_same hw)
      have := count_wr hw (rd_replicate hbd.1 (by omega)) (by decide)
      rw [this]
      simp
  obtain ⟨st1, se1, sf1, sc1⟩ := tree s sl hsl
  obtain ⟨tt1, te1, tf1, -⟩ := tree t tl htl
  refine ⟨{ start_level := sl, start_parent := List.replicate N.toNat (-1 : Int),
             target_level := tl, target_parent := List.replicate N.toNat (-1 : Int),
             start_frontier := [s], target_frontier := [t], l := 1 },
    by simp only [initSearch, hsl, htl, Option.some_bind], ?_⟩
  exact ⟨rfl, st1, tt1, se1, te1, sf1, tf1, by intro d hd; omega, by push_cast; omega,
    by intro _; show List.count (-1) sl + 2 ≤ N.toNat + 1; omega, by omega⟩


/-! ## Output and reconstruction -/

theorem rd_natCast {α : Type} (a : List α) (n : Nat) : rd a (n : Int) = a[n]? := by
  unfold rd
  rw [if_neg (by omega)]
  simp

theorem rd_neg {α : Type} (a : List α) {i : Int} (h : i < 0) : rd a i = none := by
  unfold rd; rw [if_pos h]

theorem rd_ext {α : Type} {a b : List α} (h : ∀ k, rd a k = rd b k) : a = b := by
  apply List.ext_getElem?
  intro n
  rw [← rd_natCast, ← rd_natCast]
  exact h n

theorem rd_append {α : Type} (a b : List α) (k : Int) :
    rd (a ++ b) k = if k < (a.length : Int) then rd a k else rd b (k - a.length) := by
  by_cases hk : k < 0
  · rw [rd_neg _ hk, if_pos (by omega), rd_neg _ hk]
  · obtain ⟨n, rfl⟩ := Int.eq_ofNat_of_zero_le (by omega : 0 ≤ k)
    rw [rd_natCast]
    by_cases hn : n < a.length
    · rw [if_pos (by omega), rd_natCast, List.getElem?_append_left hn]
    · rw [if_neg (by omega), List.getElem?_append_right (by omega)]
      have : (n : Int) - (a.length : Int) = ((n - a.length : Nat) : Int) := by omega
      rw [this, rd_natCast]

theorem rd_drop {α : Type} (a : List α) (n : Nat) (k : Int) (hk : 0 ≤ k) :
    rd (a.drop n) k = rd a (k + n) := by
  obtain ⟨m, rfl⟩ := Int.eq_ofNat_of_zero_le hk
  have : (m : Int) + (n : Int) = ((n + m : Nat) : Int) := by omega
  rw [this, rd_natCast, rd_natCast, List.getElem?_drop]

theorem rd_reverse {α : Type} (a : List α) (i : Int) (h0 : 0 ≤ i) (h1 : i < (a.length : Int)) :
    rd a.reverse i = rd a ((a.length : Int) - 1 - i) := by
  obtain ⟨m, rfl⟩ := Int.eq_ofNat_of_zero_le h0
  have hm : m < a.length := by omega
  have : (a.length : Int) - 1 - (m : Int) = ((a.length - 1 - m : Nat) : Int) := by omega
  rw [this, rd_natCast, rd_natCast, List.getElem?_reverse hm]

/-- A copy loop `for (i = 0; i < src.size(); i++) buf[i + off] = src[i]`
overwrites the entries `off .. off + src.size() - 1` and nothing else. -/
theorem blit_spec (src : List Int) (off : Int) (body : Int → List Int → Option (List Int))
    (buf : List Int) (hoff : 0 ≤ off) (hfit : off + (src.length : Int) ≤ (buf.length : Int))
    (hbody : ∀ i b x, rd src i = some x → body i b = wr b (i + off) x) :
    ∃ buf1, forLoop (src.length : Int) body buf = some buf1 ∧ buf1.length = buf.length ∧
      ∀ k, rd buf1 k =
        if off ≤ k ∧ k < off + (src.length : Int) then rd src (k - off) else rd buf k := by
  obtain ⟨buf1, e, hlen, hrd⟩ := forLoop_inv (src.length : Int) body buf
    (fun i b => b.length = buf.length ∧
      ∀ k, rd b k = if off ≤ k ∧ k < off + i then rd src (k - off) else rd buf k)
    ⟨rfl, fun k => by rw [if_neg (by omega)]⟩
    (by
      rintro i b hi0 hi1 ⟨hl, hr⟩
      obtain ⟨x, hx⟩ := rd_in_bounds (a := src) hi0 hi1
      obtain ⟨b1, hb1⟩ := wr_in_bounds (a := b) (i := i + off) x (by omega) (by omega)
      refine ⟨b1, by rw [hbody i b x hx]; exact hb1, by rw [wr_length hb1]; exact hl, ?_⟩
      intro k
      by_cases hk : k = i + off
      · subst hk
        rw [rd_wr_same hb1, if_pos (by omega)]
        rw [show i + off - off = i by omega, hx]
      · rw [rd_wr_ne hb1 hk, hr k]
        by_cases hin : off ≤ k ∧ k < off + i
        · rw [if_pos hin, if_pos (by omega)]
        · rw [if_neg hin, if_neg (by omega)])
  refine ⟨buf1, e, hlen, ?_⟩
  intro k
  rw [hrd k]
  have : max (src.length : Int) 0 = (src.length : Int) := by omega
  rw [this]

/-- The output policy: a path that fits is written from entry `0` on, in the
order reversed start path, target path; a path that does not fit leaves the
buffer alone. -/
theorem writeOut_spec (start_path target_path buf : List Int) (cap : Int)
    (hcap : cap ≤ (buf.length : Int)) :
    writeOut start_path target_path buf cap =
      some (if ((start_path.length : Int) + (target_path.length : Int) ≤ cap)
        then start_path.reverse ++ target_path ++
          buf.drop (start_path.length + target_path.length)
        else buf) := by
  unfold writeOut
  by_cases hfit : (start_path.length : Int) + (target_path.length : Int) ≤ cap
  swap
  · simp only [if_neg hfit]
  simp only [if_pos hfit]
  obtain ⟨b1, e1, l1, r1⟩ := blit_spec start_path.reverse 0
    (fun i buf => (rd start_path ((start_path.length : Int) - 1 - i)).bind fun x => wr buf i x)
    buf (le_refl 0) (by simp; omega)
    (by
      intro i b x hx
      have hb := rd_some_bounds hx
      rw [List.length_reverse] at hb
      rw [rd_reverse _ _ hb.1 hb.2] at hx
      simp only [hx, Option.some_bind, Int.add_zero])
  obtain ⟨b2, e2, l2, r2⟩ := blit_spec target_path (start_path.length : Int)
    (fun i buf => (rd target_path i).bind fun x => wr buf (i + (start_path.length : Int)) x)
    b1 (by omega) (by rw [l1]; omega)
    (by intro i b x hx; simp only [hx, Option.some_bind])
  rw [List.length_reverse] at e1
  rw [e1, Option.some_bind, e2]
  congr 1
  apply rd_ext
  intro k
  rw [r2 k, r1 k, rd_append, rd_append]
  simp only [List.length_reverse, List.length_append, Int.sub_zero, Nat.cast_add, Int.zero_add]
  by_cases hk0 : k < 0
  · rw [if_neg (by omega), if_neg (by omega), if_pos (by omega), if_pos (by omega),
      rd_neg _ hk0, rd_neg _ hk0]
  by_cases hk1 : k < (start_path.length : Int)
  · rw [if_neg (by omega), if_pos (by omega), if_pos (by omega), if_pos hk1]
  by_cases hk2 : k < (start_path.length : Int) + (target_path.length : Int)
  · rw [if_pos (by omega), if_pos (by omega), if_neg hk1]
  · rw [if_neg (by omega), if_neg (by omega), if_neg (by omega), rd_drop _ _ _ (by omega)]
    congr 1
    push_cast
    omega


/-- Under the parent invariant the chain walk from a cell of level `j` ends
after `j` steps at the origin: it pushes `j` cells, starting with `p`, each
the child of the next. -/
theorem walkUp_spec {adj : List Int} {N o : Int} {level parent : List Int}
    (ht : Tree adj N o level parent) :
    ∀ (j fuel : Nat) (p : Int), rd level p = some (j : Int) → j + 1 ≤ fuel →
      ∃ cs, walkUp parent fuel p = some cs ∧ cs.length = j ∧
        List.Chain' (fun a b => Edge adj b a) (cs ++ [o]) ∧ (cs ++ [o]).head? = some p := by
  intro j
  induction j with
  | zero =>
    intro fuel p hp hf
    obtain ⟨f, rfl⟩ : ∃ f, fuel = f + 1 := ⟨fuel - 1, by omega⟩
    have hpo := ht.zero p (by simpa using hp)
    subst hpo
    refine ⟨[], ?_, rfl, by simp, by simp⟩
    rw [walkUp, ht.root p 0 (by simpa using hp) (le_refl 0)]
    simp
  | succ j ih =>
    intro fuel p hp hf
    obtain ⟨f, rfl⟩ : ∃ f, fuel = f + 1 := ⟨fuel - 1, by omega⟩
    obtain ⟨q, hq, he, hlq⟩ := ht.up p _ hp (by push_cast; omega)
    have hlq : rd level q = some (j : Int) := by
      rw [hlq]; congr 1; push_cast; omega
    obtain ⟨cs, hcs, hlen, hchain, hhead⟩ := ih f q hlq (by omega)
    have hq1 : q ≠ -1 := by
      have := rd_some_bounds hlq
      omega
    refine ⟨p :: cs, ?_, by simp [hlen], ?_, by simp⟩
    · rw [walkUp, hq]
      simp [hq1, hcs]
    · rw [List.cons_append, List.chain'_cons']
      refine ⟨?_, hchain⟩
      intro y hy
      rw [hhead] at hy
      cases hy
      exact he

/-- A chain of edges is a walk of `adj`. -/
theorem reach_of_chain (adj : List Int) (p : List Int) :
    ∀ (a b : Int), List.Chain' (Edge adj) p → p.head? = some a → p.getLast? = some b →
      Reach adj (p.length - 1) a b := by
  induction p using List.reverseRecOn with
  | nil => intro a b _ h; simp at h
  | append_singleton q x ih =>
    intro a b hc hh hl
    have hxb : x = b := by simpa [List.getLast?_append] using hl
    subst hxb
    by_cases hq : q = []
    · subst hq
      simp at hh
      subst hh
      exact Reach.zero _
    · obtain ⟨y, hy⟩ : ∃ y, q.getLast? = some y := by
        cases h : q.getLast? with
        | none => exact absurd (List.getLast?_eq_none_iff.1 h) hq
        | some y => exact ⟨y, rfl⟩
      have hqh : q.head? = some a := by
        cases q with
        | nil => exact absurd rfl hq
        | cons z q => simpa using hh
      have hc2 := List.chain'_append.1 hc
      have hr := ih a y hc2.1 hqh hy
      have he : Edge adj y x := hc2.2.2 y hy x (by simp)
      have hlen : (q ++ [x]).length - 1 = (q.length - 1) + 1 := by
        have : 0 < q.length := List.length_pos.2 hq
        simp; omega
      rw [hlen]
      exact Reach.step hr he

theorem chain_of_reach {adj : List Int} {k : Nat} {a b : Int} (h : Reach adj k a b) :
    ∃ p : List Int, p.length = k + 1 ∧ List.Chain' (Edge adj) p ∧ p.head? = some a ∧
      p.getLast? = some b := by
  induction h with
  | zero a => exact ⟨[a], rfl, by simp, rfl, rfl⟩
  | step _ he ih =>
    rename_i k a b c _
    obtain ⟨p, hlen, hc, hh, hl⟩ := ih
    refine ⟨p ++ [c], by simp [hlen], ?_, ?_, by simp⟩
    · apply List.Chain'.append hc (by simp)
      intro x hx y hy
      rw [hl] at hx
      cases hx
      simp at hy
      subst hy
      exact he
    · cases p with
      | nil => simp at hlen
      | cons z p => simpa using hh

/-- The two ancestral paths of the meeting cell, joined, are a walk of `adj`
from the cell after the start to the target. -/
theorem ancestralPaths_spec {adj : List Int} {N s t m : Int} {i j : Nat} {st : Search}
    (hg : GoodAdj adj N) (hm : Meeting adj N s t m i j st) :
    ∃ sp tp, ancestralPaths (N.toNat + 1) st.start_parent st.target_parent m t =
        some (sp, tp) ∧
      (sp.length : Int) + (tp.length : Int) = (i : Int) + (j : Int) ∧
      List.Chain' (Edge adj) (s :: (sp.reverse ++ tp)) ∧
      (sp.reverse ++ tp).getLast? = some t := by
  have hj := hm.tbound
  have hi := hm.sbound
  have hpos := hm.pos
  obtain ⟨tc, htc, htlen, htchain, hthead⟩ :=
    walkUp_spec hm.ttree j (N.toNat + 1) m hm.tlevel (by omega)
  obtain ⟨p, hp, hpe, hpl⟩ := hm.stree.up m _ hm.slevel (by omega)
  have hpl : rd st.start_level p = some ((i - 1 : Nat) : Int) := by
    rw [hpl]; congr 1; omega
  obtain ⟨sc, hsc, hslen, hschain, hshead⟩ :=
    walkUp_spec hm.stree (i - 1) (N.toNat + 1) p hpl (by omega)
  refine ⟨sc, tc ++ [t], ?_, ?_, ?_, by simp [List.getLast?_append]⟩
  · simp only [ancestralPaths, htc, hp, hsc, Option.some_bind]
  · simp [hslen, htlen]; omega
  · have h1 : List.Chain' (Edge adj) (s :: sc.reverse) := by
      have := List.chain'_reverse.2 hschain
      simpa [flip] using this
    have h2 : List.Chain' (Edge adj) (tc ++ [t]) :=
      htchain.imp (fun a b h => hg.symm _ _ h)
    have h3 : (s :: sc.reverse).getLast? = some p := by
      have := congrArg List.getLast? (show (sc ++ [s]).reverse = s :: sc.reverse by simp)
      rw [List.getLast?_reverse, hshead] at this
      exact this.symm
    rw [← List.cons_append]
    apply List.Chain'.append h1 h2
    intro x hx y hy
    rw [h3] at hx
    rw [hthead] at hy
    cases hx
    cases hy
    exact hpe


theorem cellIndex_range {W H x y : Int} (h : InRange W H x y) :
    0 ≤ cellIndex W x y ∧ cellIndex W x y < W * H := by
  obtain ⟨hx0, hx1, hy0, hy1⟩ := h
  unfold cellIndex
  have h1 : 0 ≤ y * W := Int.mul_nonneg hy0 (by omega)
  have h2 : (y + 1) * W ≤ H * W := Int.mul_le_mul_of_nonneg_right (by omega) (by omega)
  have h3 : (y + 1) * W = y * W + W := by ring
  have h4 : H * W = W * H := Int.mul_comm H W
  omega

theorem cellIndex_inj {W H x y x1 y1 : Int} (h : InRange W H x y) (h1 : InRange W H x1 y1)
    (he : cellIndex W x y = cellIndex W x1 y1) : x = x1 ∧ y = y1 := by
  unfold cellIndex at he
  have hW : 0 < W := by have := h.1; have := h.2.1; omega
  have a := divmod_of_eq hW (show x + y * W = x + W * y by ring) h.1 h.2.1
  have b := divmod_of_eq hW (show x1 + y1 * W = x1 + W * y1 by ring) h1.1 h1.2.1
  rw [he] at a
  exact ⟨a.2.symm.trans b.2, a.1.symm.trans b.1⟩

theorem exists_dup_split {l : List Int} (h : ¬ l.Nodup) :
    ∃ x A B C, l = A ++ x :: (B ++ x :: C) := by
  induction l with
  | nil => exact absurd List.nodup_nil h
  | cons a l ih =>
    rw [List.nodup_cons] at h
    by_cases ha : a ∈ l
    · obtain ⟨B, C, hBC⟩ := List.append_of_mem ha
      exact ⟨a, [], B, C, by rw [hBC]; rfl⟩
    · have hn : ¬ l.Nodup := fun hn => h ⟨ha, hn⟩
      obtain ⟨x, A, B, C, hl⟩ := ih hn
      exact ⟨x, a :: A, B, C, by rw [hl]; rfl⟩

/-- A walk with the least possible number of edges visits no cell twice. -/
theorem nodup_of_shortest {adj : List Int} {p : List Int} {a b : Int}
    (hc : List.Chain' (Edge adj) p) (hh : p.head? = some a) (hl : p.getLast? = some b)
    (hmin : ∀ d, d < p.length - 1 → ¬ Reach adj d a b) : p.Nodup := by
  by_contra hnd
  obtain ⟨x, A, B, C, rfl⟩ := exists_dup_split hnd
  have h1 := List.chain'_split.1 hc
  have h2 := List.chain'_split.1 (show List.Chain' (Edge adj) ((x :: B) ++ x :: C) from h1.2)
  have hq : List.Chain' (Edge adj) (A ++ x :: C) := List.chain'_split.2 ⟨h1.1, h2.2⟩
  have hqh : (A ++ x :: C).head? = some a := by
    cases A with
    | nil => simpa using hh
    | cons z A => simpa using hh
  have hql : (A ++ x :: C).getLast? = some b := by
    have e : A ++ x :: (B ++ x :: C) = (A ++ x :: B) ++ (x :: C) := by simp
    rw [e, List.getLast?_append_of_ne_nil _ (by simp)] at hl
    rw [List.getLast?_append_of_ne_nil _ (by simp)]
    exact hl
  have := reach_of_chain adj _ a b hq hqh hql
  refine hmin _ ?_ this
  simp
  omega


/-! ## The routine as a whole -/

theorem chain_of_walk {pMap : List Nat} {W : Int} {adj : List Int}
    (hiff : ∀ a b, Edge adj a b ↔ Move pMap W a b) {p : List Int} (h : IsWalk pMap W p) :
    List.Chain' (Edge adj) p := by
  have := List.Chain'.iff_mem.1 h.2
  exact this.imp (fun a b hab => (hiff a b).2 ⟨h.1 a hab.1, h.1 b hab.2.1, hab.2.2⟩)

theorem walk_of_chain {pMap : List Nat} {W : Int} {adj : List Int}
    (hiff : ∀ a b, Edge adj a b ↔ Move pMap W a b) :
    ∀ (p : List Int) (a : Int), List.Chain' (Edge adj) (a :: p) → p ≠ [] →
      IsWalk pMap W (a :: p) := by
  intro p
  induction p with
  | nil => intro a _ h; exact absurd rfl h
  | cons b q ih =>
    intro a hc _
    rw [List.chain'_cons] at hc
    have hm := (hiff a b).1 hc.1
    by_cases hq : q = []
    · subst hq
      refine ⟨?_, by simp [hm.2.2]⟩
      intro c hcm
      simp at hcm
      rcases hcm with rfl | rfl
      · exact hm.1
      · exact hm.2.1
    · have := ih b hc.2 hq
      refine ⟨?_, by rw [List.chain'_cons]; exact ⟨hm.2.2, this.2⟩⟩
      intro c hcm
      rcases List.mem_cons.1 hcm with rfl | hcm
      · exact hm.1
      · exact this.1 c hcm

/-- The search on a grid whose table size fits an `int`. -/
theorem runSearch_eq (sx sy tx ty : Int) (pMap : List Nat) (W H : Int) (h0 : 0 ≤ W * H)
    (hfit : 4 * (W * H) ≤ INT_MAX) :
    runSearch sx sy tx ty pMap W H =
      (buildAdj pMap W (W * H)).bind fun adj =>
        (initSearch (W * H) (sx + sy * W) (tx + ty * W)).bind fun st =>
          mainLoop adj ((W * H).toNat + 1) st := by
  unfold runSearch
  rw [asInt_fits (by unfold INT_MAX at *; omega) (by omega), Option.some_bind]

/-- The search only returns when the table size fits an `int`. -/
theorem runSearch_fits {sx sy tx ty : Int} {pMap : List Nat} {W H : Int} {o : Outcome}
    (h : runSearch sx sy tx ty pMap W H = some o) : 4 * (W * H) ≤ INT_MAX := by
  unfold runSearch at h
  cases ha : asInt (W * H) with
  | none => rw [ha] at h; simp at h
  | some N =>
    rw [ha, Option.some_bind] at h
    obtain ⟨e, -, -⟩ := asInt_some ha
    subst e
    cases hb : buildAdj pMap W (W * H) with
    | none => rw [hb] at h; simp at h
    | some adj => exact (buildAdj_fits hb).2

/-- A call between distinct cells only returns when the table size fits an
`int`. -/
theorem FindPath_fits {sx sy tx ty : Int} {pMap : List Nat} {W H : Int} {buf : List Int}
    {cap : Int} {r : Int × List Int} (h : FindPath sx sy tx ty pMap W H buf cap = some r)
    (hne : ¬ (sx = tx ∧ sy = ty)) : 4 * (W * H) ≤ INT_MAX := by
  unfold FindPath at h
  rw [if_neg hne] at h
  cases hr : runSearch sx sy tx ty pMap W H with
  | none => rw [hr] at h; simp at h
  | some o => exact runSearch_fits hr

/-- Past the `int` range of `nMapSize * 4` the builder leaves no table. -/
theorem buildAdj_overflow (pMap : List Nat) (W N : Int) (h : INT_MAX < 4 * N) :
    buildAdj pMap W N = none := by
  cases hb : buildAdj pMap W N with
  | none => rfl
  | some adj => exact absurd (buildAdj_fits hb).2 (not_le.2 h)

/-- Past the `int` range of `nMapSize * 4` a call between distinct cells has
no result. -/
theorem FindPath_overflow (sx sy tx ty : Int) (pMap : List Nat) (W H : Int) (buf : List Int)
    (cap : Int) (hne : ¬ (sx = tx ∧ sy = ty)) (h : INT_MAX < 4 * (W * H)) :
    FindPath sx sy tx ty pMap W H buf cap = none := by
  cases hr : FindPath sx sy tx ty pMap W H buf cap with
  | none => rfl
  | some r => exact absurd (FindPath_fits hr hne) (not_le.2 h)

/-- A grid of `n = W * H` equal flags is well formed. -/
theorem wellFormed_replicate (f n : Nat) (W H : Int) (hW : 1 ≤ W) (hH : 1 ≤ H)
    (hn : (n : Int) = W * H) : WellFormed (List.replicate n f) W H :=
  ⟨hW, hH, by rw [List.length_replicate]; exact hn⟩

/-- On a grid of `n` equal flags `f`, the open cells are all cells when
`f = 1` and none otherwise. -/
theorem isOpen_replicate (f n : Nat) (c : Int) :
    IsOpen (List.replicate n f) c ↔ 0 ≤ c ∧ c < (n : Int) ∧ f = 1 := by
  unfold IsOpen rd
  by_cases hc : c < 0
  · rw [if_pos hc]
    constructor
    · intro h; cases h
    · intro h; omega
  · rw [if_neg hc, List.getElem?_replicate]
    by_cases hn : c.toNat < n
    · rw [if_pos hn]
      constructor
      · intro h; exact ⟨by omega, by omega, Option.some.inj h⟩
      · intro h; rw [h.2.2]
    · rw [if_neg hn]
      constructor
      · intro h; cases h
      · intro h; omega

/-- A walk starts at an open cell. -/
theorem connects_head_open {pMap : List Nat} {W : Int} {p : List Int} {a b : Int}
    (h : Connects pMap W p a b) : IsOpen pMap a := by
  cases p with
  | nil => exact absurd h.2.1 (by simp)
  | cons c rest =>
    have hc : c = a := by simpa using h.2.1
    exact hc ▸ h.1.1 c (List.mem_cons_self _ _)

/-- The outcome of a call with distinct in-range start and target, in terms
of the table `adj`. -/
theorem FindPath_spec (sx sy tx ty : Int) (pMap : List Nat) (W H : Int) (buf : List Int)
    (cap : Int) (hwf : WellFormed pMap W H) (hs : InRange W H sx sy)
    (ht : InRange W H tx ty) (hne : ¬ (sx = tx ∧ sy = ty)) (hcap : cap ≤ (buf.length : Int))
    (hfit : 4 * (W * H) ≤ INT_MAX) :
    ∃ adj, buildAdj pMap W (W * H) = some adj ∧ GoodAdj adj (W * H) ∧
      ((∃ (m : Int) (st : Search) (i j : Nat) (path : List Int),
          runSearch sx sy tx ty pMap W H = some (Outcome.met m st) ∧
          Meeting adj (W * H) (cellIndex W sx sy) (cellIndex W tx ty) m i j st ∧
          path.length = i + j ∧
          List.Chain' (Edge adj) (cellIndex W sx sy :: path) ∧
          path.getLast? = some (cellIndex W tx ty) ∧
          FindPath sx sy tx ty pMap W H buf cap =
            some (((i + j : Nat) : Int),
              if ((i + j : Nat) : Int) ≤ cap then path ++ buf.drop (i + j) else buf)) ∨
       (runSearch sx sy tx ty pMap W H = some Outcome.noPath ∧
          (∀ d, ¬ Reach adj d (cellIndex W sx sy) (cellIndex W tx ty)) ∧
          FindPath sx sy tx ty pMap W H buf cap = some (-1, buf))) := by
  obtain ⟨adj, hadj, -, -⟩ := buildAdj_spec pMap W H hwf hfit
  have hg := buildAdj_good pMap W H hwf adj hadj
  have hsr := cellIndex_range hs
  have htr := cellIndex_range ht
  have hst : cellIndex W sx sy ≠ cellIndex W tx ty := fun h => hne (cellIndex_inj hs ht h)
  obtain ⟨st0, hinit, hinv⟩ := initSearch_spec adj (W * H) _ _ hsr htr
  have hrun : runSearch sx sy tx ty pMap W H = mainLoop adj ((W * H).toNat + 1) st0 := by
    unfold cellIndex at hinit
    rw [runSearch_eq sx sy tx ty pMap W H (by omega) hfit]
    simp only [hadj, hinit, Option.some_bind]
  refine ⟨adj, hadj, hg, ?_⟩
  rcases mainLoop_spec hg hst _ _ st0 hinv with ⟨m, st, i, j, hloop, hm⟩ | ⟨hloop, hno⟩
  · left
    obtain ⟨sp, tp, hap, hlen, hchain, hlast⟩ := ancestralPaths_spec hg hm
    have hlen2 : (sp.reverse ++ tp).length = i + j := by
      simp only [List.length_append, List.length_reverse]; omega
    refine ⟨m, st, i, j, sp.reverse ++ tp, by rw [hrun, hloop], hm, hlen2, hchain, hlast, ?_⟩
    unfold cellIndex at hap
    simp only [FindPath, if_neg hne, hrun, hloop, Option.some_bind, hap,
      writeOut_spec sp tp buf cap hcap]
    have e1 : (sp.length : Int) + (tp.length : Int) = ((i + j : Nat) : Int) := by
      rw [hlen]; push_cast; rfl
    have e2 : sp.length + tp.length = i + j := by omega
    rw [e1, e2]
  · right
    refine ⟨by rw [hrun, hloop], hno, ?_⟩
    simp only [FindPath, if_neg hne, hrun, hloop, Option.some_bind]


theorem reach_of_connects {pMap : List Nat} {W : Int} {adj : List Int}
    (hiff : ∀ a b, Edge adj a b ↔ Move pMap W a b) {q : List Int} {a b : Int}
    (h : Connects pMap W q a b) : 1 ≤ q.length ∧ Reach adj (q.length - 1) a b := by
  refine ⟨?_, reach_of_chain adj q a b (chain_of_walk hiff h.1) h.2.1 h.2.2⟩
  cases q with
  | nil => have := h.2.1; simp at this
  | cons x q => simp

/-- The outcome of a call with distinct in-range start and target, in terms
of the grid: either the search meets, and the path it reconstructs, put
after the start cell, is a shortest walk from start to target without
repeated cells; or no walk joins start and target and the call returns `-1`
with the buffer as it was. -/
theorem FindPath_grid (sx sy tx ty : Int) (pMap : List Nat) (W H : Int) (buf : List Int)
    (cap : Int) (hwf : WellFormed pMap W H) (hs : InRange W H sx sy)
    (ht : InRange W H tx ty) (hne : ¬ (sx = tx ∧ sy = ty)) (hcap : cap ≤ (buf.length : Int))
    (hfit : 4 * (W * H) ≤ INT_MAX) :
    (∃ path : List Int, path ≠ [] ∧
        ShortestWalk pMap W (cellIndex W sx sy :: path) (cellIndex W sx sy) (cellIndex W tx ty) ∧
        (cellIndex W sx sy :: path).Nodup ∧
        FindPath sx sy tx ty pMap W H buf cap =
          some ((path.length : Int),
            if (path.length : Int) ≤ cap then path ++ buf.drop path.length else buf) ∧
        ∃ (m : Int) (st : Search) (i j : Nat),
          runSearch sx sy tx ty pMap W H = some (Outcome.met m st) ∧
          rd st.start_level m = some (i : Int) ∧ rd st.target_level m = some (j : Int) ∧
          path.length = i + j) ∨
    ((∀ q, ¬ Connects pMap W q (cellIndex W sx sy) (cellIndex W tx ty)) ∧
        runSearch sx sy tx ty pMap W H = some Outcome.noPath ∧
        FindPath sx sy tx ty pMap W H buf cap = some (-1, buf)) := by
  obtain ⟨adj, hadj, hg, hcase⟩ :=
    FindPath_spec sx sy tx ty pMap W H buf cap hwf hs ht hne hcap hfit
  have hiff := edge_iff_move pMap W H hwf adj hadj
  rcases hcase with ⟨m, st, i, j, path, hrun, hm, hlen, hchain, hlast, hres⟩ | ⟨hrun, hno, hres⟩
  · left
    have hpos := hm.pos
    have hpne : path ≠ [] := by
      intro h; rw [h] at hlen; simp at hlen; omega
    have hlast2 : (cellIndex W sx sy :: path).getLast? = some (cellIndex W tx ty) := by
      cases path with
      | nil => exact absurd rfl hpne
      | cons x path => rw [List.getLast?_cons_cons]; exact hlast
    refine ⟨path, hpne, ⟨⟨walk_of_chain hiff path _ hchain hpne, rfl, hlast2⟩, ?_⟩, ?_, ?_,
      m, st, i, j, hrun, hm.slevel, hm.tlevel, hlen⟩
    · intro q hq
      obtain ⟨h1, h2⟩ := reach_of_connects hiff hq
      have := hm.shortest (q.length - 1)
      simp only [List.length_cons]
      by_contra hc
      exact this (by omega) h2
    · apply nodup_of_shortest hchain rfl hlast2
      intro d hd
      simp only [List.length_cons] at hd
      exact hm.shortest d (by omega)
    · rw [hres, hlen]
  · right
    refine ⟨?_, hrun, hres⟩
    intro q hq
    exact hno _ (reach_of_connects hiff hq).2

/-- A call that returns a positive length `L`: the reconstructed path has `L`
cells, and the buffer holds it when `L` fits and is unchanged otherwise. -/
theorem FindPath_found (sx sy tx ty : Int) (pMap : List Nat) (W H : Int) (buf : List Int)
    (cap : Int) (hwf : WellFormed pMap W H) (hs : InRange W H sx sy)
    (ht : InRange W H tx ty) (hne : ¬ (sx = tx ∧ sy = ty)) (hcap : cap ≤ (buf.length : Int))
    (L : Int) (buf1 : List Int)
    (hres : FindPath sx sy tx ty pMap W H buf cap = some (L, buf1)) (hL : 1 ≤ L) :
    ∃ path : List Int, path ≠ [] ∧ (path.length : Int) = L ∧
      ShortestWalk pMap W (cellIndex W sx sy :: path) (cellIndex W sx sy) (cellIndex W tx ty) ∧
      (cellIndex W sx sy :: path).Nodup ∧
      buf1 = (if L ≤ cap then path ++ buf.drop path.length else buf) := by
  rcases FindPath_grid sx sy tx ty pMap W H buf cap hwf hs ht hne hcap
      (FindPath_fits hres hne) with
    ⟨path, hpne, hsw, hnd, hfp, -⟩ | ⟨-, -, hfp⟩
  · rw [hfp] at hres
    have h1 := (Prod.mk.inj (Option.some.inj hres)).1
    have h2 := (Prod.mk.inj (Option.some.inj hres)).2
    refine ⟨path, hpne, h1, hsw, hnd, ?_⟩
    rw [← h2, h1]
  · rw [hfp] at hres
    have h1 := (Prod.mk.inj (Option.some.inj hres)).1
    omega

theorem take_written (path buf : List Int) (L : Int) (h : (path.length : Int) = L) :
    (path ++ buf).take L.toNat = path := by
  have : L.toNat = path.length := by omega
  rw [this, List.take_left']
  rfl


/-! ## The claims of the specification -/

/-- On the 3x3 grid whose middle row is blocked, a walk that starts in the top
row ends in the top row. -/
theorem blocked_row_confines :
    ∀ (p : List Int) (a b : Int), IsWalk [1, 1, 1, 0, 0, 0, 1, 1, 1] 3 p →
      p.head? = some a → p.getLast? = some b → a < 3 → b < 3 := by
  intro p
  induction p with
  | nil => intro a b _ h; simp at h
  | cons x r ih =>
    intro a b hw hh hl ha
    have hxa : x = a := by simpa using hh
    subst hxa
    cases r with
    | nil =>
      have : x = b := by simpa using hl
      omega
    | cons y r =>
      have hox : IsOpen [1, 1, 1, 0, 0, 0, 1, 1, 1] x := hw.1 x (by simp)
      have hoy : IsOpen [1, 1, 1, 0, 0, 0, 1, 1, 1] y := hw.1 y (by simp)
      have hadj : Adjacent4 3 x y := (List.chain'_cons.1 hw.2).1
      have hbx := rd_some_bounds hox
      have hby := rd_some_bounds hoy
      have hy3 : y < 3 := by
        simp only [List.length_cons, List.length_nil] at hbx hby
        unfold Adjacent4 at hadj
        unfold IsOpen at hoy
        have h345 : y ≠ 3 ∧ y ≠ 4 ∧ y ≠ 5 := by
          refine ⟨?_, ?_, ?_⟩ <;> rintro rfl <;> revert hoy <;> decide
        omega
      refine ih y b ⟨fun c hc => hw.1 c (List.mem_cons_of_mem _ hc), (List.chain'_cons.1 hw.2).2⟩
        rfl ?_ hy3
      rw [List.getLast?_cons_cons] at hl
      exact hl


/-- C1 (counterexample): the fully open grid of 32768 x 16384 cells is well
formed and its cells (0,0) and (1,0) are joined by the walk `[0, 1]`, yet the
call has no result: `nMapSize * 4 = 2^31` is not an `int`. -/
theorem C1_counterexample :
    WellFormed (List.replicate 536870912 1) 32768 16384 ∧
    InRange 32768 16384 0 0 ∧ InRange 32768 16384 1 0 ∧
    Connects (List.replicate 536870912 1) 32768 [0, 1] (cellIndex 32768 0 0)
      (cellIndex 32768 1 0) ∧
    FindPath 0 0 1 0 (List.replicate 536870912 1) 32768 16384 [] 0 = none := by
  refine ⟨wellFormed_replicate 1 536870912 32768 16384 (by decide) (by decide) (by decide),
    by decide, by decide, ⟨⟨?_, List.chain'_pair.2 (by decide)⟩, by decide, by decide⟩,
    FindPath_overflow 0 0 1 0 _ 32768 16384 [] 0 (by decide) (by decide)⟩
  intro c hc
  refine (isOpen_replicate 1 536870912 c).2 ?_
  simp only [List.mem_cons, List.mem_singleton, List.not_mem_nil, or_false] at hc
  rcases hc with rfl | rfl <;> decide

/-- C1 (amended): on a well-formed grid whose table size `4 * W * H` fits an
`int`, for distinct in-range start and target cells joined by a walk of open
4-adjacent cells, the search ends at a meeting cell `m`; the value `FindPath`
returns is `start_level[m] + target_level[m]`; some walk from start to target
makes exactly that many moves and no walk makes fewer. -/
theorem C1_returns_shortest_length (sx sy tx ty : Int) (pMap : List Nat) (W H : Int)
    (buf : List Int) (cap : Int) (hwf : WellFormed pMap W H)
    (hfit : 4 * (W * H) ≤ INT_MAX) (hs : InRange W H sx sy)
    (ht : InRange W H tx ty) (hne : ¬ (sx = tx ∧ sy = ty)) (hcap : cap ≤ (buf.length : Int))
    (hconn : ∃ p, Connects pMap W p (cellIndex W sx sy) (cellIndex W tx ty)) :
    ∃ (m : Int) (st : Search) (i j : Nat) (buf1 : List Int),
      runSearch sx sy tx ty pMap W H = some (Outcome.met m st) ∧
      rd st.start_level m = some (i : Int) ∧ rd st.target_level m = some (j : Int) ∧
      FindPath sx sy tx ty pMap W H buf cap = some ((i : Int) + (j : Int), buf1) ∧
      (∃ p, Connects pMap W p (cellIndex W sx sy) (cellIndex W tx ty) ∧
        p.length = i + j + 1) ∧
      (∀ q, Connects pMap W q (cellIndex W sx sy) (cellIndex W tx ty) →
        i + j + 1 ≤ q.length) := by
  rcases FindPath_grid sx sy tx ty pMap W H buf cap hwf hs ht hne hcap hfit with
    ⟨path, -, hsw, -, hfp, m, st, i, j, hrun, hsl, htl, hlen⟩ | ⟨hno, -, -⟩
  · refine ⟨m, st, i, j,
      (if (path.length : Int) ≤ cap then path ++ buf.drop path.length else buf),
      hrun, hsl, htl, ?_, ⟨_, hsw.1, by simp [hlen]⟩, ?_⟩
    · rw [hfp, hlen]; push_cast; rfl
    · intro q hq
      have := hsw.2 q hq
      simp only [List.length_cons] at this
      omega
  · obtain ⟨p, hp⟩ := hconn
    exact absurd hp (hno p)

/-- C1 (witness): the fully open 3x3 grid, from (0,0) to (2,2); the call
returns 4. -/
theorem C1_returns_shortest_length_witness :
    FindPath 0 0 2 2 [1, 1, 1, 1, 1, 1, 1, 1, 1] 3 3 [0, 0, 0, 0, 0, 0] 6 =
      some (4, [1, 2, 5, 8, 0, 0]) ∧
    ∃ (m : Int) (st : Search) (i j : Nat) (buf1 : List Int),
      runSearch 0 0 2 2 [1, 1, 1, 1, 1, 1, 1, 1, 1] 3 3 = some (Outcome.met m st) ∧
      rd st.start_level m = some (i : Int) ∧ rd st.target_level m = some (j : Int) ∧
      FindPath 0 0 2 2 [1, 1, 1, 1, 1, 1, 1, 1, 1] 3 3 [0, 0, 0, 0, 0, 0] 6 =
        some ((i : Int) + (j : Int), buf1) ∧
      (∃ p, Connects [1, 1, 1, 1, 1, 1, 1, 1, 1] 3 p (cellIndex 3 0 0) (cellIndex 3 2 2) ∧
        p.length = i + j + 1) ∧
      (∀ q, Connects [1, 1, 1, 1, 1, 1, 1, 1, 1] 3 q (cellIndex 3 0 0) (cellIndex 3 2 2) →
        i + j + 1 ≤ q.length) :=
  ⟨by decide,
    C1_returns_shortest_length 0 0 2 2 [1, 1, 1, 1, 1, 1, 1, 1, 1] 3 3 [0, 0, 0, 0, 0, 0] 6
      (by decide) (by decide) (by decide) (by decide) (by decide) (by decide)
      ⟨[0, 1, 2, 5, 8], by decide⟩⟩

/-- C2 (counterexample): on the fully open 3x3 grid, from (0,0) to (2,2), the
call returns 4, while a shortest connecting walk, `[0, 1, 2, 5, 8]`, has 5
cells counting the start and the target; and on the fully open grid of
32768 x 16384 cells, well formed and with (0,0) and (0,1) joined by the walk
`[0, 32768]`, the call returns no integer at all. -/
theorem C2_counterexample :
    (FindPath 0 0 2 2 [1, 1, 1, 1, 1, 1, 1, 1, 1] 3 3 [0, 0, 0, 0, 0, 0] 6 =
      some (4, [1, 2, 5, 8, 0, 0]) ∧
    ShortestWalk [1, 1, 1, 1, 1, 1, 1, 1, 1] 3 [0, 1, 2, 5, 8] (cellIndex 3 0 0)
      (cellIndex 3 2 2) ∧
    (4 : Int) ≠ (([0, 1, 2, 5, 8] : List Int).length : Int)) ∧
    (WellFormed (List.replicate 536870912 1) 32768 16384 ∧
    InRange 32768 16384 0 0 ∧ InRange 32768 16384 0 1 ∧
    Connects (List.replicate 536870912 1) 32768 [0, 32768] (cellIndex 32768 0 0)
      (cellIndex 32768 0 1) ∧
    ∀ (L : Int) (buf1 : List Int),
      FindPath 0 0 0 1 (List.replicate 536870912 1) 32768 16384 [0, 0] 2 ≠ some (L, buf1)) := by
  have hev : FindPath 0 0 2 2 [1, 1, 1, 1, 1, 1, 1, 1, 1] 3 3 [0, 0, 0, 0, 0, 0] 6 =
      some (4, [1, 2, 5, 8, 0, 0]) := by decide
  refine ⟨⟨hev, ⟨by decide, ?_⟩, by decide⟩,
    wellFormed_replicate 1 536870912 32768 16384 (by decide) (by decide) (by decide),
    by decide, by decide, ⟨⟨?_, List.chain'_pair.2 (by decide)⟩, by decide, by decide⟩, ?_⟩
  rotate_left
  · intro c hc
    refine (isOpen_replicate 1 536870912 c).2 ?_
    simp only [List.mem_cons, List.mem_singleton, List.not_mem_nil, or_false] at hc
    rcases hc with rfl | rfl <;> decide
  · intro L buf1 h
    rw [FindPath_overflow 0 0 0 1 _ 32768 16384 [0, 0] 2 (by decide) (by decide)] at h
    cases h
  intro q hq
  obtain ⟨path, -, hlen, hsw, -, -⟩ := FindPath_found 0 0 2 2 [1, 1, 1, 1, 1, 1, 1, 1, 1] 3 3
    [0, 0, 0, 0, 0, 0] 6 (by decide) (by decide) (by decide) (by decide) (by decide) 4 _ hev
    (by decide)
  have := hsw.2 q hq
  simp only [List.length_cons, List.length_nil] at this ⊢
  omega

/-- C2 (amended): on a well-formed grid whose table size `4 * W * H` fits an
`int`, for distinct in-range start and target cells joined by a walk, the
integer `FindPath` returns is the number of moves of a shortest walk: the
number of cells on a shortest connecting walk counting the target cell but
not the start cell. -/
theorem C2_returns_cells_after_start (sx sy tx ty : Int) (pMap : List Nat) (W H : Int)
    (buf : List Int) (cap : Int) (hwf : WellFormed pMap W H)
    (hfit : 4 * (W * H) ≤ INT_MAX) (hs : InRange W H sx sy)
    (ht : InRange W H tx ty) (hne : ¬ (sx = tx ∧ sy = ty)) (hcap : cap ≤ (buf.length : Int))
    (hconn : ∃ p, Connects pMap W p (cellIndex W sx sy) (cellIndex W tx ty)) :
    ∃ (L : Int) (buf1 p : List Int),
      FindPath sx sy tx ty pMap W H buf cap = some (L, buf1) ∧
      ShortestWalk pMap W p (cellIndex W sx sy) (cellIndex W tx ty) ∧
      (p.length : Int) = L + 1 := by
  rcases FindPath_grid sx sy tx ty pMap W H buf cap hwf hs ht hne hcap hfit with
    ⟨path, -, hsw, -, hfp, -⟩ | ⟨hno, -, -⟩
  · exact ⟨_, _, _, hfp, hsw, by simp⟩
  · obtain ⟨p, hp⟩ := hconn
    exact absurd hp (hno p)

/-- C2 (witness): the fully open 3x3 grid, from (0,0) to (2,2). -/
theorem C2_returns_cells_after_start_witness :
    ∃ (L : Int) (buf1 p : List Int),
      FindPath 0 0 2 2 [1, 1, 1, 1, 1, 1, 1, 1, 1] 3 3 [0, 0, 0, 0, 0, 0] 6 = some (L, buf1) ∧
      ShortestWalk [1, 1, 1, 1, 1, 1, 1, 1, 1] 3 p (cellIndex 3 0 0) (cellIndex 3 2 2) ∧
      (p.length : Int) = L + 1 :=
  C2_returns_cells_after_start 0 0 2 2 [1, 1, 1, 1, 1, 1, 1, 1, 1] 3 3 [0, 0, 0, 0, 0, 0] 6
    (by decide) (by decide) (by decide) (by decide) (by decide) (by decide)
    ⟨[0, 1, 2, 5, 8], by decide⟩

/-- C3 (counterexample): on the grid of 32768 x 16384 cells, all blocked, no
walk joins the cells (0,0) and (1,0), yet the call does not return `-1`: it
has no result, `nMapSize * 4 = 2^31` not being an `int`. -/
theorem C3_counterexample :
    WellFormed (List.replicate 536870912 0) 32768 16384 ∧
    InRange 32768 16384 0 0 ∧ InRange 32768 16384 1 0 ∧
    (¬ ∃ p, Connects (List.replicate 536870912 0) 32768 p (cellIndex 32768 0 0)
      (cellIndex 32768 1 0)) ∧
    FindPath 0 0 1 0 (List.replicate 536870912 0) 32768 16384 [7, 7, 7] 3 ≠
      some (-1, [7, 7, 7]) := by
  refine ⟨wellFormed_replicate 0 536870912 32768 16384 (by decide) (by decide) (by decide),
    by decide, by decide, ?_, ?_⟩
  · rintro ⟨p, hp⟩
    have := ((isOpen_replicate 0 536870912 _).1 (connects_head_open hp)).2.2
    omega
  · rw [FindPath_overflow 0 0 1 0 _ 32768 16384 [7, 7, 7] 3 (by decide) (by decide)]
    exact fun h => nomatch h

/-- C3 (amended): on a well-formed grid whose table size `4 * W * H` fits an
`int`, for distinct in-range start and target cells that no walk of open
4-adjacent cells joins, `FindPath` returns exactly `-1` and the output buffer
is as it was before the call. -/
theorem C3_no_path_returns_minus_one (sx sy tx ty : Int) (pMap : List Nat) (W H : Int)
    (buf : List Int) (cap : Int) (hwf : WellFormed pMap W H)
    (hfit : 4 * (W * H) ≤ INT_MAX) (hs : InRange W H sx sy)
    (ht : InRange W H tx ty) (hne : ¬ (sx = tx ∧ sy = ty))
    (hno : ¬ ∃ p, Connects pMap W p (cellIndex W sx sy) (cellIndex W tx ty)) :
    FindPath sx sy tx ty pMap W H buf cap = some (-1, buf) := by
  rcases FindPath_grid sx sy tx ty pMap W H [] 0 hwf hs ht hne (le_refl _) hfit with
    ⟨path, -, hsw, -, -, -⟩ | ⟨-, hrun, -⟩
  · exact absurd ⟨_, hsw.1⟩ hno
  · simp only [FindPath, if_neg hne, hrun, Option.some_bind]

/-- C3 (witness): the 3x3 grid with the cells 3, 4 and 5 blocked, from (0,0)
to (2,2): the call returns `-1` and leaves the buffer `[7, 7, 7]` alone. -/
theorem C3_no_path_returns_minus_one_witness :
    FindPath 0 0 2 2 [1, 1, 1, 0, 0, 0, 1, 1, 1] 3 3 [7, 7, 7] 3 = some (-1, [7, 7, 7]) :=
  C3_no_path_returns_minus_one 0 0 2 2 [1, 1, 1, 0, 0, 0, 1, 1, 1] 3 3 [7, 7, 7] 3
    (by decide) (by decide) (by decide) (by decide) (by decide)
    (by
      rintro ⟨p, hp⟩
      have := blocked_row_confines p (cellIndex 3 0 0) (cellIndex 3 2 2) hp.1 hp.2.1 hp.2.2
        (by decide)
      revert this
      decide)


/-- The first `L` entries of a buffer into which a path of `L` cells was
written are that path. -/
theorem written_prefix (sx sy tx ty : Int) (pMap : List Nat) (W H : Int) (buf : List Int)
    (cap : Int) (hwf : WellFormed pMap W H) (hs : InRange W H sx sy)
    (ht : InRange W H tx ty) (hne : ¬ (sx = tx ∧ sy = ty)) (hcap : cap ≤ (buf.length : Int))
    (L : Int) (buf1 : List Int)
    (hres : FindPath sx sy tx ty pMap W H buf cap = some (L, buf1)) (h1 : 1 ≤ L)
    (h2 : L ≤ cap) :
    buf1.take L.toNat ≠ [] ∧ ((buf1.take L.toNat).length : Int) = L ∧
      buf1 = buf1.take L.toNat ++ buf.drop L.toNat ∧
      ShortestWalk pMap W (cellIndex W sx sy :: buf1.take L.toNat) (cellIndex W sx sy)
        (cellIndex W tx ty) ∧
      (cellIndex W sx sy :: buf1.take L.toNat).Nodup := by
  obtain ⟨path, hpne, hlen, hsw, hnd, hbuf⟩ :=
    FindPath_found sx sy tx ty pMap W H buf cap hwf hs ht hne hcap L buf1 hres h1
  rw [if_pos h2] at hbuf
  have htake : buf1.take L.toNat = path := by rw [hbuf]; exact take_written _ _ _ hlen
  have hL : L.toNat = path.length := by omega
  rw [htake]
  exact ⟨hpne, hlen, by rw [hL]; exact hbuf, hsw, hnd⟩

/-- C4: when the call returns a length `L` with `1 ≤ L ≤ nOutBufferSize`, the
first `L` entries of the output buffer form a valid walk: every entry is the
index of an open cell and consecutive entries are 4-adjacent. -/
theorem C4_buffer_is_valid_walk (sx sy tx ty : Int) (pMap : List Nat) (W H : Int)
    (buf : List Int) (cap : Int) (hwf : WellFormed pMap W H) (hs : InRange W H sx sy)
    (ht : InRange W H tx ty) (hne : ¬ (sx = tx ∧ sy = ty)) (hcap : cap ≤ (buf.length : Int))
    (L : Int) (buf1 : List Int)
    (hres : FindPath sx sy tx ty pMap W H buf cap = some (L, buf1)) (h1 : 1 ≤ L)
    (h2 : L ≤ cap) :
    ((buf1.take L.toNat).length : Int) = L ∧
    (∀ c ∈ buf1.take L.toNat, IsOpen pMap c) ∧
    List.Chain' (Adjacent4 W) (buf1.take L.toNat) := by
  obtain ⟨-, hlen, -, hsw, -⟩ :=
    written_prefix sx sy tx ty pMap W H buf cap hwf hs ht hne hcap L buf1 hres h1 h2
  have hw := hsw.1.1
  exact ⟨hlen, fun c hc => hw.1 c (List.mem_cons_of_mem _ hc), hw.2.tail⟩

/-- C4 (witness): the fully open 3x3 grid, from (0,0) to (2,2), capacity 6. -/
theorem C4_buffer_is_valid_walk_witness :
    ((([1, 2, 5, 8, 0, 0] : List Int).take (4 : Int).toNat).length : Int) = 4 ∧
    (∀ c ∈ ([1, 2, 5, 8, 0, 0] : List Int).take (4 : Int).toNat,
      IsOpen [1, 1, 1, 1, 1, 1, 1, 1, 1] c) ∧
    List.Chain' (Adjacent4 3) (([1, 2, 5, 8, 0, 0] : List Int).take (4 : Int).toNat) :=
  C4_buffer_is_valid_walk 0 0 2 2 [1, 1, 1, 1, 1, 1, 1, 1, 1] 3 3 [0, 0, 0, 0, 0, 0] 6
    (by decide) (by decide) (by decide) (by decide) (by decide) 4 [1, 2, 5, 8, 0, 0]
    (by decide) (by decide) (by decide)

/-- C5 (counterexample): on the fully open 3x3 grid, from (0,0) to (2,2) with
capacity 6, a path exists and fits, yet the first buffer entry is the cell 1,
not the start cell `0 + 0 * 3`. -/
theorem C5_counterexample :
    ∃ (L : Int) (buf1 : List Int),
      FindPath 0 0 2 2 [1, 1, 1, 1, 1, 1, 1, 1, 1] 3 3 [0, 0, 0, 0, 0, 0] 6 = some (L, buf1) ∧
      1 ≤ L ∧ L ≤ 6 ∧ rd buf1 0 ≠ some (0 + 0 * 3) :=
  ⟨4, [1, 2, 5, 8, 0, 0], by decide, by decide, by decide, by decide⟩

/-- C5 (amended): when a path exists and the returned length `L` fits the
buffer, the buffer is filled in order from the cell after the start to the
target: the start cell followed by the first `L` entries is a walk from start
to target, so `pOutBuffer[0]` is an open cell 4-adjacent to the start cell
and is not the start cell, which is not written. -/
theorem C5_buffer_begins_after_start (sx sy tx ty : Int) (pMap : List Nat) (W H : Int)
    (buf : List Int) (cap : Int) (hwf : WellFormed pMap W H) (hs : InRange W H sx sy)
    (ht : InRange W H tx ty) (hne : ¬ (sx = tx ∧ sy = ty)) (hcap : cap ≤ (buf.length : Int))
    (L : Int) (buf1 : List Int)
    (hres : FindPath sx sy tx ty pMap W H buf cap = some (L, buf1)) (h1 : 1 ≤ L)
    (h2 : L ≤ cap) :
    Connects pMap W (cellIndex W sx sy :: buf1.take L.toNat) (cellIndex W sx sy)
      (cellIndex W tx ty) ∧
    ∃ c, rd buf1 0 = some c ∧ IsOpen pMap c ∧ Adjacent4 W (cellIndex W sx sy) c ∧
      c ≠ cellIndex W sx sy ∧ cellIndex W sx sy ∉ buf1.take L.toNat := by
  obtain ⟨hpne, hlen, hsplit, hsw, hnd⟩ :=
    written_prefix sx sy tx ty pMap W H buf cap hwf hs ht hne hcap L buf1 hres h1 h2
  refine ⟨hsw.1, ?_⟩
  have hw := hsw.1.1
  have hnotin := (List.nodup_cons.1 hnd).1
  cases hp : buf1.take L.toNat with
  | nil => exact absurd hp hpne
  | cons c rest =>
    rw [hp] at hw hnotin
    refine ⟨c, ?_, hw.1 c (by simp), (List.chain'_cons.1 hw.2).1, ?_, hnotin⟩
    · rw [hsplit, hp]
      simp [rd]
    · intro hc
      exact hnotin (by rw [hc]; simp)

/-- C5 (witness): the fully open 3x3 grid, from (0,0) to (2,2), capacity 6. -/
theorem C5_buffer_begins_after_start_witness :
    Connects [1, 1, 1, 1, 1, 1, 1, 1, 1] 3
      (cellIndex 3 0 0 :: ([1, 2, 5, 8, 0, 0] : List Int).take (4 : Int).toNat)
      (cellIndex 3 0 0) (cellIndex 3 2 2) ∧
    ∃ c, rd ([1, 2, 5, 8, 0, 0] : List Int) 0 = some c ∧
      IsOpen [1, 1, 1, 1, 1, 1, 1, 1, 1] c ∧ Adjacent4 3 (cellIndex 3 0 0) c ∧
      c ≠ cellIndex 3 0 0 ∧
      cellIndex 3 0 0 ∉ ([1, 2, 5, 8, 0, 0] : List Int).take (4 : Int).toNat :=
  C5_buffer_begins_after_start 0 0 2 2 [1, 1, 1, 1, 1, 1, 1, 1, 1] 3 3 [0, 0, 0, 0, 0, 0] 6
    (by decide) (by decide) (by decide) (by decide) (by decide) 4 [1, 2, 5, 8, 0, 0]
    (by decide) (by decide) (by decide)

/-- C6: when the call returns a length `L` with `1 ≤ L ≤ nOutBufferSize`, the
last written entry is the target cell, `pOutBuffer[L - 1] = nTargetX +
nTargetY * nMapWidth`, and the target occurs exactly once among the first `L`
entries (also when the meeting cell is the target itself). -/
theorem C6_buffer_ends_at_target (sx sy tx ty : Int) (pMap : List Nat) (W H : Int)
    (buf : List Int) (cap : Int) (hwf : WellFormed pMap W H) (hs : InRange W H sx sy)
    (ht : InRange W H tx ty) (hne : ¬ (sx = tx ∧ sy = ty)) (hcap : cap ≤ (buf.length : Int))
    (L : Int) (buf1 : List Int)
    (hres : FindPath sx sy tx ty pMap W H buf cap = some (L, buf1)) (h1 : 1 ≤ L)
    (h2 : L ≤ cap) :
    rd buf1 (L - 1) = some (tx + ty * W) ∧
    (buf1.take L.toNat).count (tx + ty * W) = 1 := by
  obtain ⟨hpne, hlen, hsplit, hsw, hnd⟩ :=
    written_prefix sx sy tx ty pMap W H buf cap hwf hs ht hne hcap L buf1 hres h1 h2
  have hlast : (buf1.take L.toNat).getLast? = some (cellIndex W tx ty) := by
    have := hsw.1.2.2
    cases hp : buf1.take L.toNat with
    | nil => exact absurd hp hpne
    | cons c rest => rw [hp, List.getLast?_cons_cons] at this; exact this
  have hmem : cellIndex W tx ty ∈ buf1.take L.toNat := List.mem_of_getLast?_eq_some hlast
  refine ⟨?_, List.count_eq_one_of_mem (List.nodup_cons.1 hnd).2 hmem⟩
  rw [hsplit, rd_append, if_pos (by omega)]
  rw [List.getLast?_eq_getElem?] at hlast
  have e : L - 1 = (((buf1.take L.toNat).length - 1 : Nat) : Int) := by omega
  rw [e, rd_natCast]
  exact hlast

/-- C6 (witness): the fully open 3x3 grid, from (0,0) to (1,0): the meeting
cell is the target itself, and it is written once. -/
theorem C6_buffer_ends_at_target_witness :
    rd ([1, 7] : List Int) (1 - 1) = some (1 + 0 * 3) ∧
    (([1, 7] : List Int).take (1 : Int).toNat).count (1 + 0 * 3) = 1 :=
  C6_buffer_ends_at_target 0 0 1 0 [1, 1, 1, 1, 1, 1, 1, 1, 1] 3 3 [7, 7] 2
    (by decide) (by decide) (by decide) (by decide) (by decide) 1 [1, 7]
    (by decide) (by decide) (by decide)

/-- C7: when the call returns a length `L` with `1 ≤ L ≤ nOutBufferSize`, the
first `L` entries of the output buffer are pairwise distinct (and none of
them is the start cell). -/
theorem C7_buffer_has_no_repeats (sx sy tx ty : Int) (pMap : List Nat) (W H : Int)
    (buf : List Int) (cap : Int) (hwf : WellFormed pMap W H) (hs : InRange W H sx sy)
    (ht : InRange W H tx ty) (hne : ¬ (sx = tx ∧ sy = ty)) (hcap : cap ≤ (buf.length : Int))
    (L : Int) (buf1 : List Int)
    (hres : FindPath sx sy tx ty pMap W H buf cap = some (L, buf1)) (h1 : 1 ≤ L)
    (h2 : L ≤ cap) :
    (buf1.take L.toNat).Nodup ∧ cellIndex W sx sy ∉ buf1.take L.toNat := by
  obtain ⟨-, -, -, -, hnd⟩ :=
    written_prefix sx sy tx ty pMap W H buf cap hwf hs ht hne hcap L buf1 hres h1 h2
  exact ⟨(List.nodup_cons.1 hnd).2, (List.nodup_cons.1 hnd).1⟩

/-- C7 (witness): the fully open 3x3 grid, from (0,0) to (2,2), capacity 6. -/
theorem C7_buffer_has_no_repeats_witness :
    (([1, 2, 5, 8, 0, 0] : List Int).take (4 : Int).toNat).Nodup ∧
    cellIndex 3 0 0 ∉ ([1, 2, 5, 8, 0, 0] : List Int).take (4 : Int).toNat :=
  C7_buffer_has_no_repeats 0 0 2 2 [1, 1, 1, 1, 1, 1, 1, 1, 1] 3 3 [0, 0, 0, 0, 0, 0] 6
    (by decide) (by decide) (by decide) (by decide) (by decide) 4 [1, 2, 5, 8, 0, 0]
    (by decide) (by decide) (by decide)


theorem connects_reverse {pMap : List Nat} {W : Int} {p : List Int} {a b : Int}
    (h : Connects pMap W p a b) : Connects pMap W p.reverse b a := by
  obtain ⟨⟨hopen, hchain⟩, hh, hl⟩ := h
  refine ⟨⟨fun c hc => hopen c (List.mem_reverse.1 hc), ?_⟩, ?_, ?_⟩
  · rw [List.chain'_reverse]
    exact hchain.imp (fun x y hxy => adjacent4_symm hxy)
  · rw [List.head?_reverse]; exact hl
  · rw [List.getLast?_reverse]; exact hh

/-- C8: when a path is found and its length `L` exceeds `nOutBufferSize`, the
call still returns `L`, the true length (the number of moves of a shortest
walk, and the value returned with any other buffer and capacity), and the
output buffer is unchanged. -/
theorem C8_short_buffer_untouched (sx sy tx ty : Int) (pMap : List Nat) (W H : Int)
    (buf : List Int) (cap : Int) (hwf : WellFormed pMap W H) (hs : InRange W H sx sy)
    (ht : InRange W H tx ty) (hne : ¬ (sx = tx ∧ sy = ty)) (hcap : cap ≤ (buf.length : Int))
    (L : Int) (buf1 : List Int)
    (hres : FindPath sx sy tx ty pMap W H buf cap = some (L, buf1)) (h1 : 1 ≤ L)
    (h2 : cap < L) :
    buf1 = buf ∧
    (∃ p, ShortestWalk pMap W p (cellIndex W sx sy) (cellIndex W tx ty) ∧
      (p.length : Int) = L + 1) ∧
    ∀ (buf2 : List Int) (cap2 : Int), cap2 ≤ (buf2.length : Int) →
      ∃ b, FindPath sx sy tx ty pMap W H buf2 cap2 = some (L, b) := by
  obtain ⟨path, hpne, hlen, hsw, hnd, hbuf⟩ :=
    FindPath_found sx sy tx ty pMap W H buf cap hwf hs ht hne hcap L buf1 hres h1
  rw [if_neg (by omega)] at hbuf
  refine ⟨hbuf, ⟨_, hsw, by simp [hlen]⟩, ?_⟩
  intro buf2 cap2 hcap2
  rcases FindPath_grid sx sy tx ty pMap W H buf2 cap2 hwf hs ht hne hcap2
      (FindPath_fits hres hne) with
    ⟨path2, -, hsw2, -, hfp, -⟩ | ⟨hno, -, -⟩
  · have a := hsw.2 _ hsw2.1
    have b := hsw2.2 _ hsw.1
    simp only [List.length_cons] at a b
    have e : (path2.length : Int) = L := by omega
    exact ⟨_, by rw [hfp, e]⟩
  · exact absurd hsw.1 (hno _)

/-- C8 (witness): capacity 1 and a path of length 4 on the fully open 3x3
grid: the call returns 4 and leaves the buffer `[9]` alone. -/
theorem C8_short_buffer_untouched_witness :
    FindPath 0 0 2 2 [1, 1, 1, 1, 1, 1, 1, 1, 1] 3 3 [9] 1 = some (4, [9]) ∧
    ([9] : List Int) = [9] ∧
    (∃ p, ShortestWalk [1, 1, 1, 1, 1, 1, 1, 1, 1] 3 p (cellIndex 3 0 0) (cellIndex 3 2 2) ∧
      (p.length : Int) = 4 + 1) ∧
    ∀ (buf2 : List Int) (cap2 : Int), cap2 ≤ (buf2.length : Int) →
      ∃ b, FindPath 0 0 2 2 [1, 1, 1, 1, 1, 1, 1, 1, 1] 3 3 buf2 cap2 = some (4, b) :=
  ⟨by decide,
    C8_short_buffer_untouched 0 0 2 2 [1, 1, 1, 1, 1, 1, 1, 1, 1] 3 3 [9] 1
      (by decide) (by decide) (by decide) (by decide) (by decide) 4 [9]
      (by decide) (by decide) (by decide)⟩

/-- C9: for all grids, buffers, capacities and coordinates `(x, y)`, the call
from `(x, y)` to `(x, y)` returns `0` and leaves the buffer as it was,
whatever the map, width, height and capacity. -/
theorem C9_same_cell_returns_zero (x y : Int) (pMap : List Nat) (W H : Int) (buf : List Int)
    (cap : Int) : FindPath x y x y pMap W H buf cap = some (0, buf) := by
  simp [FindPath]

/-- C10 (counterexample): on the well-formed, fully open grid of
32768 x 16384 cells neither the call from (0,0) to (1,0) nor the call from
(1,0) to (0,0) returns an integer, so the two return no common integer. -/
theorem C10_counterexample :
    WellFormed (List.replicate 536870912 1) 32768 16384 ∧
    InRange 32768 16384 0 0 ∧ InRange 32768 16384 1 0 ∧
    FindPath 0 0 1 0 (List.replicate 536870912 1) 32768 16384 [0] 1 = none ∧
    FindPath 1 0 0 0 (List.replicate 536870912 1) 32768 16384 [0] 1 = none ∧
    ¬ ∃ (r : Int) (b1 b2 : List Int),
      FindPath 0 0 1 0 (List.replicate 536870912 1) 32768 16384 [0] 1 = some (r, b1) ∧
      FindPath 1 0 0 0 (List.replicate 536870912 1) 32768 16384 [0] 1 = some (r, b2) := by
  have h1 := FindPath_overflow 0 0 1 0 (List.replicate 536870912 1) 32768 16384 [0] 1
    (by decide) (by decide)
  have h2 := FindPath_overflow 1 0 0 0 (List.replicate 536870912 1) 32768 16384 [0] 1
    (by decide) (by decide)
  refine ⟨wellFormed_replicate 1 536870912 32768 16384 (by decide) (by decide) (by decide),
    by decide, by decide, h1, h2, ?_⟩
  rintro ⟨r, b1, b2, h, -⟩
  rw [h1] at h
  cases h

/-- C10 (amended): symmetry. On a well-formed grid, for any two in-range cells
`A` and `B` that are equal or lie on a grid whose table size `4 * W * H` fits
an `int`, the call from `A` to `B` and the call from `B` to `A` return the
same integer: `0` both ways when `A = B`, `-1` both ways when no walk joins
them, and the same length otherwise. -/
theorem C10_symmetry (x1 y1 x2 y2 : Int) (pMap : List Nat) (W H : Int)
    (buf1 : List Int) (cap1 : Int) (buf2 : List Int) (cap2 : Int)
    (hwf : WellFormed pMap W H)
    (hfit : ¬ (x1 = x2 ∧ y1 = y2) → 4 * (W * H) ≤ INT_MAX)
    (ha : InRange W H x1 y1) (hb : InRange W H x2 y2)
    (hcap1 : cap1 ≤ (buf1.length : Int)) (hcap2 : cap2 ≤ (buf2.length : Int)) :
    ∃ (r : Int) (b1 b2 : List Int),
      FindPath x1 y1 x2 y2 pMap W H buf1 cap1 = some (r, b1) ∧
      FindPath x2 y2 x1 y1 pMap W H buf2 cap2 = some (r, b2) ∧
      ((x1 = x2 ∧ y1 = y2) → r = 0) ∧
      (¬ (x1 = x2 ∧ y1 = y2) →
        (¬ ∃ p, Connects pMap W p (cellIndex W x1 y1) (cellIndex W x2 y2)) → r = -1) ∧
      (¬ (x1 = x2 ∧ y1 = y2) →
        (∃ p, Connects pMap W p (cellIndex W x1 y1) (cellIndex W x2 y2)) → 1 ≤ r) := by
  by_cases htriv : x1 = x2 ∧ y1 = y2
  · obtain ⟨rfl, rfl⟩ := htriv
    exact ⟨0, buf1, buf2, by simp [FindPath], by simp [FindPath], fun _ => rfl,
      fun h => absurd ⟨rfl, rfl⟩ h, fun h => absurd ⟨rfl, rfl⟩ h⟩
  · have htriv2 : ¬ (x2 = x1 ∧ y2 = y1) := fun h => htriv ⟨h.1.symm, h.2.symm⟩
    have hfit1 := hfit htriv
    rcases FindPath_grid x1 y1 x2 y2 pMap W H buf1 cap1 hwf ha hb htriv hcap1 hfit1 with
      ⟨p1, hp1, hsw1, -, hfp1, -⟩ | ⟨hno1, -, hfp1⟩
    · rcases FindPath_grid x2 y2 x1 y1 pMap W H buf2 cap2 hwf hb ha htriv2 hcap2 hfit1 with
        ⟨p2, -, hsw2, -, hfp2, -⟩ | ⟨hno2, -, -⟩
      · have a := hsw1.2 _ (connects_reverse hsw2.1)
        have b := hsw2.2 _ (connects_reverse hsw1.1)
        simp only [List.length_cons, List.length_reverse] at a b
        have e : (p2.length : Int) = (p1.length : Int) := by omega
        refine ⟨_, _, _, hfp1, by rw [hfp2, e], fun h => absurd h htriv,
          fun _ h => absurd ⟨_, hsw1.1⟩ h, fun _ _ => ?_⟩
        have : 0 < p1.length := List.length_pos.2 hp1
        omega
      · exact absurd (connects_reverse hsw1.1) (hno2 _)
    · rcases FindPath_grid x2 y2 x1 y1 pMap W H buf2 cap2 hwf hb ha htriv2 hcap2 hfit1 with
        ⟨p2, -, hsw2, -, -, -⟩ | ⟨-, -, hfp2⟩
      · exact absurd (connects_reverse hsw2.1) (hno1 _)
      · exact ⟨_, _, _, hfp1, hfp2, fun h => absurd h htriv, fun _ _ => rfl,
          fun _ h => by obtain ⟨p, hp⟩ := h; exact absurd hp (hno1 p)⟩

/-- C10 (witness): the fully open 3x3 grid, between (0,0) and (2,2). -/
theorem C10_symmetry_witness :
    ∃ (r : Int) (b1 b2 : List Int),
      FindPath 0 0 2 2 [1, 1, 1, 1, 1, 1, 1, 1, 1] 3 3 [0, 0, 0, 0] 4 = some (r, b1) ∧
      FindPath 2 2 0 0 [1, 1, 1, 1, 1, 1, 1, 1, 1] 3 3 [0, 0, 0, 0, 0] 5 = some (r, b2) ∧
      (((0 : Int) = 2 ∧ (0 : Int) = 2) → r = 0) ∧
      (¬ ((0 : Int) = 2 ∧ (0 : Int) = 2) →
        (¬ ∃ p, Connects [1, 1, 1, 1, 1, 1, 1, 1, 1] 3 p (cellIndex 3 0 0) (cellIndex 3 2 2)) →
          r = -1) ∧
      (¬ ((0 : Int) = 2 ∧ (0 : Int) = 2) →
        (∃ p, Connects [1, 1, 1, 1, 1, 1, 1, 1, 1] 3 p (cellIndex 3 0 0) (cellIndex 3 2 2)) →
          1 ≤ r) :=
  C10_symmetry 0 0 2 2 [1, 1, 1, 1, 1, 1, 1, 1, 1] 3 3 [0, 0, 0, 0] 4 [0, 0, 0, 0, 0] 5
    (by decide) (fun _ => by decide) (by decide) (by decide) (by decide) (by decide)



/-! ## The graph builder, in coordinates (C13, C14) -/

/-- The coordinates of a cell are recovered from its index. -/
theorem cellIndex_divmod {W H x y : Int} (h : InRange W H x y) :
    cellIndex W x y / W = y ∧ cellIndex W x y % W = x := by
  have hW : 0 < W := by have := h.1; have := h.2.1; omega
  exact divmod_of_eq hW (show cellIndex W x y = x + W * y by unfold cellIndex; ring) h.1 h.2.1

/-- The border tests of the builder, read in coordinates. -/
theorem border_tests {W H x y : Int} (h : InRange W H x y) :
    ((cellIndex W x y + 1) % W ≠ 0 ↔ x + 1 < W) ∧ (cellIndex W x y ≥ W ↔ 1 ≤ y) ∧
    (cellIndex W x y % W ≠ 0 ↔ 1 ≤ x) ∧ (cellIndex W x y < W * H - W ↔ y + 1 < H) := by
  obtain ⟨hx0, hx1, hy0, hy1⟩ := h
  have hW : 0 < W := by omega
  have hdm := cellIndex_divmod ⟨hx0, hx1, hy0, hy1⟩
  have hi : cellIndex W x y = x + W * y := by unfold cellIndex; ring
  refine ⟨?_, ?_, ?_, ?_⟩
  · by_cases hx : x + 1 < W
    · have := divmod_of_eq hW (show cellIndex W x y + 1 = (x + 1) + W * y by omega)
        (by omega) hx
      rw [this.2]
      constructor
      · intro _; exact hx
      · intro _; omega
    · have e : W * (y + 1) = W * y + W := by ring
      have := divmod_of_eq hW (show cellIndex W x y + 1 = 0 + W * (y + 1) by omega)
        (le_refl 0) hW
      rw [this.2]
      constructor
      · intro h0; exact absurd rfl h0
      · intro h1; exact absurd h1 hx
  · by_cases hy : 1 ≤ y
    · have h1 : 0 ≤ W * (y - 1) := Int.mul_nonneg (by omega) (by omega)
      have e : W * (y - 1) = W * y - W := by ring
      constructor
      · intro _; exact hy
      · intro _; omega
    · have hy0' : y = 0 := by omega
      subst hy0'
      simp only [mul_zero, add_zero] at hi
      constructor
      · intro h1; omega
      · intro h1; omega
  · rw [hdm.2]; omega
  · have e1 : W * (H - 1) = W * H - W := by ring
    by_cases hy : y + 1 < H
    · have h1 : 0 ≤ W * (H - 2 - y) := Int.mul_nonneg (by omega) (by omega)
      have e2 : W * (H - 2 - y) = W * H - 2 * W - W * y := by ring
      constructor
      · intro _; exact hy
      · intro _; omega
    · have hyH : y = H - 1 := by omega
      subst hyH
      constructor
      · intro h1; omega
      · intro h1; exact absurd h1 hy

/-- C13 (counterexample): the grid of 32768 x 16384 cells, all blocked, is well
formed, yet the builder leaves no table whose slots could hold the stated
values: its size `nMapSize * 4 = 2^31` is not an `int`. -/
theorem C13_counterexample :
    WellFormed (List.replicate 536870912 0) 32768 16384 ∧
    buildAdj (List.replicate 536870912 0) 32768 (32768 * 16384) = none ∧
    ¬ ∃ adj, buildAdj (List.replicate 536870912 0) 32768 (32768 * 16384) = some adj ∧
      rd adj (4 * cellIndex 32768 0 0) = some (-1) := by
  have h := buildAdj_overflow (List.replicate 536870912 0) 32768 (32768 * 16384) (by decide)
  refine ⟨wellFormed_replicate 0 536870912 32768 16384 (by decide) (by decide) (by decide),
    h, ?_⟩
  rintro ⟨adj, hadj, -⟩
  rw [h] at hadj
  cases hadj

/-- C13 (amended): on a well-formed grid whose table size `4 * W * H` fits an
`int`, the builder fills the four slots of every cell
`i = x + y * W` as the grid prescribes: slot 0 holds `i + 1` exactly when `i`
is open, `x + 1 < W` and `i + 1` is open; slot 1 holds `i - W` exactly when
`i` is open, `y ≥ 1` and `i - W` is open; slot 2 holds `i - 1` exactly when
`i` is open, `x ≥ 1` and `i - 1` is open; slot 3 holds `i + W` exactly when
`i` is open, `y + 1 < H` and `i + W` is open; any other slot holds `-1`. So
every edge joins two open cells that are 4-adjacent on the grid: a blocked
cell has no outgoing and no incoming edge, and no edge wraps around a row
end. -/
theorem C13_builder_matches_grid (pMap : List Nat) (W H : Int) (hwf : WellFormed pMap W H)
    (hfit : 4 * (W * H) ≤ INT_MAX) :
    ∃ adj, buildAdj pMap W (W * H) = some adj ∧ (adj.length : Int) = 4 * (W * H) ∧
      (∀ x y, InRange W H x y →
        rd adj (4 * cellIndex W x y) =
          some (if IsOpen pMap (cellIndex W x y) ∧ x + 1 < W ∧
              IsOpen pMap (cellIndex W x y + 1) then cellIndex W x y + 1 else -1) ∧
        rd adj (4 * cellIndex W x y + 1) =
          some (if IsOpen pMap (cellIndex W x y) ∧ 1 ≤ y ∧
              IsOpen pMap (cellIndex W x y - W) then cellIndex W x y - W else -1) ∧
        rd adj (4 * cellIndex W x y + 2) =
          some (if IsOpen pMap (cellIndex W x y) ∧ 1 ≤ x ∧
              IsOpen pMap (cellIndex W x y - 1) then cellIndex W x y - 1 else -1) ∧
        rd adj (4 * cellIndex W x y + 3) =
          some (if IsOpen pMap (cellIndex W x y) ∧ y + 1 < H ∧
              IsOpen pMap (cellIndex W x y + W) then cellIndex W x y + W else -1)) ∧
      (∀ a b, Edge adj a b → IsOpen pMap a ∧ IsOpen pMap b ∧ Adjacent4 W a b) := by
  obtain ⟨adj, hadj, hlen, hslot⟩ := buildAdj_spec pMap W H hwf hfit
  refine ⟨adj, hadj, hlen, ?_, fun a b h => (edge_iff_move pMap W H hwf adj hadj a b).1 h⟩
  intro x y hxy
  have hr := cellIndex_range hxy
  obtain ⟨b0, b1, b2, b3⟩ := border_tests hxy
  have s0 := hslot _ 0 hr.1 hr.2 (by omega) (by omega)
  have s1 := hslot _ 1 hr.1 hr.2 (by omega) (by omega)
  have s2 := hslot _ 2 hr.1 hr.2 (by omega) (by omega)
  have s3 := hslot _ 3 hr.1 hr.2 (by omega) (by omega)
  rw [Int.add_zero] at s0
  rw [s0, s1, s2, s3]
  by_cases ho : IsOpen pMap (cellIndex W x y)
  · simp only [slotSpec, if_pos ho, b0, b1, b2, b3, ho, true_and, if_true,
      show ¬ ((1 : Int) = 0) by decide, show ¬ ((2 : Int) = 0) by decide,
      show ¬ ((2 : Int) = 1) by decide, show ¬ ((3 : Int) = 0) by decide,
      show ¬ ((3 : Int) = 1) by decide, show ¬ ((3 : Int) = 2) by decide, if_false, and_self]
  · simp only [slotSpec, if_neg ho, ho, false_and, if_false, and_self]

/-- C13 (witness): the 2x2 grid whose cell 3 is blocked. -/
theorem C13_builder_matches_grid_witness :
    ∃ adj, buildAdj [1, 1, 1, 0] 2 (2 * 2) = some adj ∧ (adj.length : Int) = 4 * (2 * 2) ∧
      (∀ x y, InRange 2 2 x y →
        rd adj (4 * cellIndex 2 x y) =
          some (if IsOpen [1, 1, 1, 0] (cellIndex 2 x y) ∧ x + 1 < 2 ∧
              IsOpen [1, 1, 1, 0] (cellIndex 2 x y + 1) then cellIndex 2 x y + 1 else -1) ∧
        rd adj (4 * cellIndex 2 x y + 1) =
          some (if IsOpen [1, 1, 1, 0] (cellIndex 2 x y) ∧ 1 ≤ y ∧
              IsOpen [1, 1, 1, 0] (cellIndex 2 x y - 2) then cellIndex 2 x y - 2 else -1) ∧
        rd adj (4 * cellIndex 2 x y + 2) =
          some (if IsOpen [1, 1, 1, 0] (cellIndex 2 x y) ∧ 1 ≤ x ∧
              IsOpen [1, 1, 1, 0] (cellIndex 2 x y - 1) then cellIndex 2 x y - 1 else -1) ∧
        rd adj (4 * cellIndex 2 x y + 3) =
          some (if IsOpen [1, 1, 1, 0] (cellIndex 2 x y) ∧ y + 1 < 2 ∧
              IsOpen [1, 1, 1, 0] (cellIndex 2 x y + 2) then cellIndex 2 x y + 2 else -1)) ∧
      (∀ a b, Edge adj a b → IsOpen [1, 1, 1, 0] a ∧ IsOpen [1, 1, 1, 0] b ∧ Adjacent4 2 a b) :=
  C13_builder_matches_grid [1, 1, 1, 0] 2 2 (by decide) (by decide)

/-- C14: on a well-formed grid the adjacency relation produced by the builder
is symmetric: whatever table `adj` the builder leaves, for all cells `a` and
`b`, `b` sits in one of the four slots of `a` if and only if `a` sits in one
of the four slots of `b`. The builder leaves a table whenever its size
`4 * W * H` fits an `int`. -/
theorem C14_adjacency_symmetric (pMap : List Nat) (W H : Int) (hwf : WellFormed pMap W H) :
    (4 * (W * H) ≤ INT_MAX → ∃ adj, buildAdj pMap W (W * H) = some adj) ∧
    ∀ adj, buildAdj pMap W (W * H) = some adj →
      ∀ a b, 0 ≤ a → a < W * H → 0 ≤ b → b < W * H →
        ((∃ v, 0 ≤ v ∧ v < 4 ∧ rd adj (4 * a + v) = some b) ↔
          (∃ v, 0 ≤ v ∧ v < 4 ∧ rd adj (4 * b + v) = some a)) := by
  refine ⟨fun hfit => ?_, ?_⟩
  · obtain ⟨adj, hadj, -, -⟩ := buildAdj_spec pMap W H hwf hfit
    exact ⟨adj, hadj⟩
  intro adj hadj
  have hg := buildAdj_good pMap W H hwf adj hadj
  intro a b ha0 _ hb0 _
  constructor
  · intro h
    exact (hg.symm a b ⟨by omega, h⟩).2
  · intro h
    exact (hg.symm b a ⟨by omega, h⟩).2

/-- C14 (witness): the 2x2 grid whose cell 3 is blocked, and the table the
builder leaves for it. -/
theorem C14_adjacency_symmetric_witness :
    buildAdj [1, 1, 1, 0] 2 (2 * 2) =
      some [1, -1, -1, 2, -1, -1, 0, -1, -1, 0, -1, -1, -1, -1, -1, -1] ∧
    (4 * (2 * 2) ≤ INT_MAX → ∃ adj, buildAdj [1, 1, 1, 0] 2 (2 * 2) = some adj) ∧
    ∀ adj, buildAdj [1, 1, 1, 0] 2 (2 * 2) = some adj →
      ∀ a b, 0 ≤ a → a < 2 * 2 → 0 ≤ b → b < 2 * 2 →
        ((∃ v, 0 ≤ v ∧ v < 4 ∧ rd adj (4 * a + v) = some b) ↔
          (∃ v, 0 ≤ v ∧ v < 4 ∧ rd adj (4 * b + v) = some a)) :=
  ⟨by decide, C14_adjacency_symmetric [1, 1, 1, 0] 2 2 (by decide)⟩

/-! ## Return values and flags (C17, C19, C20) -/

/-- A list of pairwise distinct cell indices below `N` has at most `N`
entries. -/
theorem nodup_length_le {l : List Int} {N : Int} (hN0 : 0 ≤ N) (hnd : l.Nodup)
    (hr : ∀ c ∈ l, 0 ≤ c ∧ c < N) : (l.length : Int) ≤ N := by
  by_cases hN : N ≤ 0
  · cases l with
    | nil => simp; omega
    | cons c r => have := hr c (by simp); omega
  · have hsub : l ⊆ (List.range N.toNat).map (fun i : Nat => (i : Int)) := by
      intro c hc
      obtain ⟨h0, h1⟩ := hr c hc
      rw [List.mem_map]
      exact ⟨c.toNat, List.mem_range.2 (by omega), by omega⟩
    have := (hnd.subperm hsub).length_le
    simp at this
    omega

/-- C17 (counterexample): on the grid of 32768 x 16384 cells, all blocked, the
4-adjacent cells (0,0) and (0,1) are distinct, in range and both blocked, yet
the call does not return `-1`: it has no result. -/
theorem C17_counterexample :
    WellFormed (List.replicate 536870912 0) 32768 16384 ∧
    InRange 32768 16384 0 0 ∧ InRange 32768 16384 0 1 ∧
    rd (List.replicate 536870912 0) (0 + 0 * 32768) ≠ some 1 ∧
    rd (List.replicate 536870912 0) (0 + 1 * 32768) ≠ some 1 ∧
    ∀ (r : Int) (b : List Int),
      FindPath 0 0 0 1 (List.replicate 536870912 0) 32768 16384 [7, 7] 2 ≠ some (r, b) := by
  refine ⟨wellFormed_replicate 0 536870912 32768 16384 (by decide) (by decide) (by decide),
    by decide, by decide, ?_, ?_, ?_⟩
  · intro h
    have := ((isOpen_replicate 0 536870912 _).1 h).2.2
    omega
  · intro h
    have := ((isOpen_replicate 0 536870912 _).1 h).2.2
    omega
  · intro r b h
    rw [FindPath_overflow 0 0 0 1 _ 32768 16384 [7, 7] 2 (by decide) (by decide)] at h
    cases h

/-- C17 (amended): on a well-formed grid whose table size `4 * W * H` fits an
`int`, for distinct in-range start and target cells, if the start cell or the
target cell is blocked (its flag is not `1`) the call returns `-1` and leaves
the buffer as it was. -/
theorem C17_blocked_endpoint (sx sy tx ty : Int) (pMap : List Nat) (W H : Int)
    (buf : List Int) (cap : Int) (hwf : WellFormed pMap W H)
    (hfit : 4 * (W * H) ≤ INT_MAX) (hs : InRange W H sx sy)
    (ht : InRange W H tx ty) (hne : ¬ (sx = tx ∧ sy = ty))
    (hblocked : rd pMap (sx + sy * W) ≠ some 1 ∨ rd pMap (tx + ty * W) ≠ some 1) :
    FindPath sx sy tx ty pMap W H buf cap = some (-1, buf) := by
  rcases FindPath_grid sx sy tx ty pMap W H [] 0 hwf hs ht hne (le_refl _) hfit with
    ⟨path, hpne, hsw, -, -, -⟩ | ⟨-, hrun, -⟩
  · exfalso
    have hw := hsw.1.1
    rcases hblocked with hb | hb
    · exact hb (hw.1 _ (List.mem_cons_self _ _))
    · exact hb (hw.1 _ (List.mem_of_getLast?_eq_some hsw.1.2.2))
  · simp only [FindPath, if_neg hne, hrun, Option.some_bind]

/-- C17 (witness): the 1x2 grid with the start cell blocked: start and target
are 4-adjacent and the call returns `-1`. -/
theorem C17_blocked_endpoint_witness :
    FindPath 0 0 1 0 [0, 1] 2 1 [7, 7] 2 = some (-1, [7, 7]) :=
  C17_blocked_endpoint 0 0 1 0 [0, 1] 2 1 [7, 7] 2 (by decide) (by decide) (by decide)
    (by decide) (by decide) (Or.inl (by decide))

/-- C19 (counterexample): on the well-formed, fully open grid of
32768 x 16384 cells the call between the distinct in-range cells (0,0) and
(1,1) returns neither `-1` nor a value between `1` and `W * H - 1`: it has no
result. -/
theorem C19_counterexample :
    WellFormed (List.replicate 536870912 1) 32768 16384 ∧
    InRange 32768 16384 0 0 ∧ InRange 32768 16384 1 1 ∧
    ¬ ((0 : Int) = 1 ∧ (0 : Int) = 1) ∧
    ¬ ∃ r b, FindPath 0 0 1 1 (List.replicate 536870912 1) 32768 16384 [0, 0] 2 = some (r, b) ∧
      (r = -1 ∨ (1 ≤ r ∧ r ≤ 32768 * 16384 - 1)) := by
  refine ⟨wellFormed_replicate 1 536870912 32768 16384 (by decide) (by decide) (by decide),
    by decide, by decide, by decide, ?_⟩
  rintro ⟨r, b, h, -⟩
  rw [FindPath_overflow 0 0 1 1 _ 32768 16384 [0, 0] 2 (by decide) (by decide)] at h
  cases h

/-- C19 (amended): on a well-formed input the call returns `0` exactly when
the start coordinates equal the target coordinates; for distinct in-range
start and target on a grid whose table size `4 * W * H` fits an `int`, the
result is `-1` or lies between `1` and `W * H - 1`. -/
theorem C19_zero_is_unambiguous (sx sy tx ty : Int) (pMap : List Nat) (W H : Int)
    (buf : List Int) (cap : Int) (hwf : WellFormed pMap W H) (hs : InRange W H sx sy)
    (ht : InRange W H tx ty) (hcap : cap ≤ (buf.length : Int)) :
    ((∃ b, FindPath sx sy tx ty pMap W H buf cap = some (0, b)) ↔ (sx = tx ∧ sy = ty)) ∧
    (¬ (sx = tx ∧ sy = ty) → 4 * (W * H) ≤ INT_MAX →
      ∃ r b, FindPath sx sy tx ty pMap W H buf cap = some (r, b) ∧
        (r = -1 ∨ (1 ≤ r ∧ r ≤ W * H - 1))) := by
  have key : ¬ (sx = tx ∧ sy = ty) → 4 * (W * H) ≤ INT_MAX →
      ∃ r b, FindPath sx sy tx ty pMap W H buf cap = some (r, b) ∧
        (r = -1 ∨ (1 ≤ r ∧ r ≤ W * H - 1)) := by
    intro hne hfit
    rcases FindPath_grid sx sy tx ty pMap W H buf cap hwf hs ht hne hcap hfit with
      ⟨path, hpne, hsw, hnd, hfp, -⟩ | ⟨-, -, hfp⟩
    · refine ⟨_, _, hfp, Or.inr ⟨?_, ?_⟩⟩
      · have : 0 < path.length := List.length_pos.2 hpne
        omega
      · have hopen := hsw.1.1.1
        have := nodup_length_le (N := W * H)
          (Int.mul_nonneg (by have := hwf.1; omega) (by have := hwf.2.1; omega)) hnd (fun c hc => by
          have := rd_some_bounds (hopen c hc)
          rw [hwf.2.2] at this
          exact this)
        simp only [List.length_cons] at this
        push_cast at this
        omega
    · exact ⟨_, _, hfp, Or.inl rfl⟩
  refine ⟨⟨?_, ?_⟩, key⟩
  · rintro ⟨b, hb⟩
    by_contra hne
    obtain ⟨r, b1, hfp, hr⟩ := key hne (FindPath_fits hb hne)
    rw [hfp] at hb
    have := (Prod.mk.inj (Option.some.inj hb)).1
    omega
  · rintro ⟨rfl, rfl⟩
    exact ⟨buf, by simp [FindPath]⟩

/-- C19 (witness): the fully open 3x3 grid, from (0,0) to (2,2). -/
theorem C19_zero_is_unambiguous_witness :
    ((∃ b, FindPath 0 0 2 2 [1, 1, 1, 1, 1, 1, 1, 1, 1] 3 3 [0, 0, 0, 0] 4 = some (0, b)) ↔
      ((0 : Int) = 2 ∧ (0 : Int) = 2)) ∧
    (¬ ((0 : Int) = 2 ∧ (0 : Int) = 2) → 4 * (3 * 3) ≤ INT_MAX →
      ∃ r b, FindPath 0 0 2 2 [1, 1, 1, 1, 1, 1, 1, 1, 1] 3 3 [0, 0, 0, 0] 4 = some (r, b) ∧
        (r = -1 ∨ (1 ≤ r ∧ r ≤ 3 * 3 - 1))) :=
  C19_zero_is_unambiguous 0 0 2 2 [1, 1, 1, 1, 1, 1, 1, 1, 1] 3 3 [0, 0, 0, 0] 4
    (by decide) (by decide) (by decide) (by decide)

/-- Testing a flag against `1` gives the same result on two maps of equal
length with the same open cells. -/
theorem flag_test_eq {β : Type} {pMap pMap1 : List Nat} (hlen : pMap1.length = pMap.length)
    (hsame : ∀ i, rd pMap1 i = some 1 ↔ rd pMap i = some 1) (j : Int) (A B : Option β) :
    ((rd pMap1 j).bind fun g => if g = 1 then A else B) =
      ((rd pMap j).bind fun g => if g = 1 then A else B) := by
  by_cases hj : 0 ≤ j ∧ j < (pMap.length : Int)
  · obtain ⟨g, hg⟩ := rd_in_bounds (a := pMap) hj.1 hj.2
    obtain ⟨g1, hg1⟩ := rd_in_bounds (a := pMap1) hj.1 (by rw [hlen]; exact hj.2)
    have := hsame j
    rw [hg, hg1] at this
    have hiff : g1 = 1 ↔ g = 1 := by
      constructor
      · intro h; exact Option.some.inj (this.1 (by rw [h]))
      · intro h; exact Option.some.inj (this.2 (by rw [h]))
    rw [hg, hg1]
    by_cases h1 : g = 1
    · simp [h1, hiff.2 h1]
    · have h2 : ¬ g1 = 1 := fun h => h1 (hiff.1 h)
      simp [h1, h2]
  · have h1 : rd pMap j = none := by
      cases h : rd pMap j with
      | none => rfl
      | some v => exact absurd (rd_some_bounds h) hj
    have h2 : rd pMap1 j = none := by
      cases h : rd pMap1 j with
      | none => rfl
      | some v => have := rd_some_bounds h; rw [hlen] at this; exact absurd this hj
    rw [h1, h2]

/-- The builder sees the map only through the test `pMap[i] == 1`. -/
theorem buildAdj_flags {pMap pMap1 : List Nat} (hlen : pMap1.length = pMap.length)
    (hsame : ∀ i, rd pMap1 i = some 1 ↔ rd pMap i = some 1) (W N : Int) :
    buildAdj pMap1 W N = buildAdj pMap W N := by
  have hprobe : ∀ (g : Bool) (j slot : Int) (adj : List Int),
      probe pMap1 g j slot adj = probe pMap g j slot adj := by
    intro g j slot adj
    unfold probe
    cases g with
    | false => rfl
    | true => simp only [if_true]; exact flag_test_eq hlen hsame j _ _
  have hcell : buildCell pMap1 W N = buildCell pMap W N := by
    funext i adj
    unfold buildCell
    simp only [hprobe]
    exact flag_test_eq hlen hsame i _ _
  unfold buildAdj
  rw [hcell]

/-- C20: the returned length and the buffer contents depend on the map only
through the test `pMap[i] == 1`: two maps of equal length with the same open
cells give the same result, so replacing a flag that is neither `0` nor `1`
by `0` changes neither the returned length nor any buffer entry. -/
theorem C20_only_flag_one_is_open (sx sy tx ty : Int) (pMap : List Nat) (W H : Int)
    (buf : List Int) (cap : Int) :
    (∀ pMap1 : List Nat, pMap1.length = pMap.length →
      (∀ i, rd pMap1 i = some 1 ↔ rd pMap i = some 1) →
      FindPath sx sy tx ty pMap1 W H buf cap = FindPath sx sy tx ty pMap W H buf cap) ∧
    (∀ (k : Nat) (f : Nat), pMap[k]? = some f → f ≠ 0 → f ≠ 1 →
      FindPath sx sy tx ty (pMap.set k 0) W H buf cap =
        FindPath sx sy tx ty pMap W H buf cap) := by
  have gen : ∀ pMap1 : List Nat, pMap1.length = pMap.length →
      (∀ i, rd pMap1 i = some 1 ↔ rd pMap i = some 1) →
      FindPath sx sy tx ty pMap1 W H buf cap = FindPath sx sy tx ty pMap W H buf cap := by
    intro pMap1 hlen hsame
    simp only [FindPath, runSearch, buildAdj_flags hlen hsame]
  refine ⟨gen, ?_⟩
  intro k f hk _ hf1
  apply gen _ (by simp)
  intro i
  by_cases hi : i < 0
  · rw [rd_neg _ hi, rd_neg _ hi]
  · obtain ⟨n, rfl⟩ := Int.eq_ofNat_of_zero_le (by omega : 0 ≤ i)
    rw [rd_natCast, rd_natCast, List.getElem?_set]
    by_cases hkn : k = n
    · subst hkn
      rw [if_pos rfl, hk]
      split <;> simp [hf1]
    · rw [if_neg hkn]

/-- C20 (witness): on the 3x3 grid whose centre flag is `255`, replacing that
flag by `0` gives the same result, `some (4, [1, 2, 5, 8, 0])`. -/
theorem C20_only_flag_one_is_open_witness :
    FindPath 0 0 2 2 [1, 1, 1, 1, 255, 1, 1, 1, 1] 3 3 [0, 0, 0, 0, 0] 5 =
      some (4, [1, 2, 5, 8, 0]) ∧
    FindPath 0 0 2 2 ([1, 1, 1, 1, 255, 1, 1, 1, 1].set 4 0) 3 3 [0, 0, 0, 0, 0] 5 =
      FindPath 0 0 2 2 [1, 1, 1, 1, 255, 1, 1, 1, 1] 3 3 [0, 0, 0, 0, 0] 5 :=
  ⟨by decide,
    (C20_only_flag_one_is_open 0 0 2 2 [1, 1, 1, 1, 255, 1, 1, 1, 1] 3 3 [0, 0, 0, 0, 0] 5).2
      4 255 (by decide) (by decide) (by decide)⟩

/-! ## Safety and the buffer frame (C11, C18) -/

/-- A loop that logs the index `g i` next to each buffer assignment computes
the same buffer as the loop without the log, and logs `g 0, g 1, ...`. -/
theorem forLoop_traced (n : Int) (g : Int → Int)
    (body : Int → List Int → Option (List Int))
    (bodyT : Int → List Int × List Int → Option (List Int × List Int))
    (hT : ∀ i b log, bodyT i (b, log) = (body i b).map fun b1 => (b1, log ++ [g i]))
    (b : List Int) (log : List Int) :
    forLoop n bodyT (b, log) =
      (forLoop n body b).map fun b1 =>
        (b1, log ++ (List.range n.toNat).map fun i : Nat => g (i : Int)) := by
  unfold forLoop
  generalize List.range n.toNat = is
  induction is generalizing b log with
  | nil => simp
  | cons i is ih =>
    rw [List.foldlM_cons, List.foldlM_cons, hT]
    cases hb : body (i : Int) b with
    | none => simp
    | some b1 =>
      simp only [Option.map_some', Option.some_bind, Option.bind_eq_bind]
      rw [ih]
      simp

/-- The traced copy computes the buffer of `writeOut`; when it runs, it
assigns the indices `0, 1, ..., sp + tp - 1`, in this order. -/
theorem writeOutTraced_spec (start_path target_path buf : List Int) (cap : Int) :
    writeOutTraced start_path target_path buf cap =
      (writeOut start_path target_path buf cap).map fun b =>
        (b, if (start_path.length : Int) + (target_path.length : Int) ≤ cap
          then (List.range (start_path.length + target_path.length)).map
            fun i : Nat => (i : Int)
          else []) := by
  unfold writeOutTraced writeOut
  by_cases hfit : (start_path.length : Int) + (target_path.length : Int) ≤ cap
  swap
  · simp only [if_neg hfit, Option.map_some']
  simp only [if_pos hfit]
  rw [forLoop_traced (start_path.length : Int) (fun i => i)
    (fun i buf => (rd start_path ((start_path.length : Int) - 1 - i)).bind fun x => wr buf i x)
    _ (by
      intro i b log
      dsimp only
      cases rd start_path ((start_path.length : Int) - 1 - i) <;> rfl)]
  cases h1 : forLoop (start_path.length : Int)
      (fun i buf => (rd start_path ((start_path.length : Int) - 1 - i)).bind fun x =>
        wr buf i x) buf with
  | none => simp
  | some b1 =>
    simp only [Option.map_some', Option.some_bind]
    rw [forLoop_traced (target_path.length : Int) (fun i => i + (start_path.length : Int))
      (fun i buf => (rd target_path i).bind fun x => wr buf (i + (start_path.length : Int)) x)
      _ (by
        intro i b log
        dsimp only
        cases rd target_path i <;> rfl)]
    cases h2 : forLoop (target_path.length : Int)
        (fun i buf => (rd target_path i).bind fun x =>
          wr buf (i + (start_path.length : Int)) x) b1 with
    | none => simp
    | some b2 =>
      simp only [Option.map_some', Int.toNat_ofNat, List.nil_append]
      congr 2
      rw [List.range_add, List.map_append, List.map_map]
      congr 1
      apply List.map_congr_left
      intro i _
      simp only [Function.comp]
      push_cast
      omega

/-- After a meeting the routine reconstructs the two ancestral paths, writes
them out and returns the sum of their lengths. -/
theorem FindPath_met (sx sy tx ty : Int) (pMap : List Nat) (W H : Int) (buf : List Int)
    (cap : Int) (hne : ¬ (sx = tx ∧ sy = ty)) (m : Int) (st : Search)
    (hrun : runSearch sx sy tx ty pMap W H = some (Outcome.met m st)) :
    FindPath sx sy tx ty pMap W H buf cap =
      (ancestralPaths ((W * H).toNat + 1) st.start_parent st.target_parent m
          (tx + ty * W)).bind fun paths =>
        (writeOut paths.1 paths.2 buf cap).bind fun b =>
          some ((paths.1.length : Int) + (paths.2.length : Int), b) := by
  simp only [FindPath, if_neg hne, hrun, Option.some_bind]

/-- C11 (counterexample): the grid of 32768 x 16384 cells, all blocked, with
the distinct in-range cells (0,0) and (1,0) and an empty buffer of capacity
0, is a well-formed input on which the call does not run to completion: the
table size `nMapSize * 4 = 2^31` is not an `int` and no table is built. -/
theorem C11_counterexample :
    WellFormed (List.replicate 536870912 0) 32768 16384 ∧
    InRange 32768 16384 0 0 ∧ InRange 32768 16384 1 0 ∧
    ¬ ((0 : Int) = 1 ∧ (0 : Int) = 0) ∧ (0 : Int) ≤ (([] : List Int).length : Int) ∧
    (¬ ∃ r, FindPath 0 0 1 0 (List.replicate 536870912 0) 32768 16384 [] 0 = some r) ∧
    (¬ ∃ adj, buildAdj (List.replicate 536870912 0) 32768 (32768 * 16384) = some adj) := by
  refine ⟨wellFormed_replicate 0 536870912 32768 16384 (by decide) (by decide) (by decide),
    by decide, by decide, by decide, by decide, ?_, ?_⟩
  · rintro ⟨r, h⟩
    rw [FindPath_overflow 0 0 1 0 _ 32768 16384 [] 0 (by decide) (by decide)] at h
    cases h
  · rintro ⟨adj, h⟩
    rw [buildAdj_overflow _ 32768 (32768 * 16384) (by decide)] at h
    cases h

/-- C11 (amended): on a well-formed input (grid of `W * H` flags, distinct
in-range start and target, a buffer of at least `nOutBufferSize` entries)
whose table size `4 * W * H` fits an `int`, the call runs to completion with
every array access in bounds. In particular the builder succeeds on the
`W * H` flags; a meeting cell is never the start cell, and its start-side
parent is a cell index; and the call also succeeds on a buffer cut down to
exactly `nOutBufferSize` entries, so no write goes to an index
`≥ nOutBufferSize`. -/
theorem C11_no_fatal_abort (sx sy tx ty : Int) (pMap : List Nat) (W H : Int)
    (buf : List Int) (cap : Int) (hwf : WellFormed pMap W H)
    (hfit : 4 * (W * H) ≤ INT_MAX) (hs : InRange W H sx sy)
    (ht : InRange W H tx ty) (hne : ¬ (sx = tx ∧ sy = ty)) (hcap : cap ≤ (buf.length : Int)) :
    (∃ r, FindPath sx sy tx ty pMap W H buf cap = some r) ∧
    (∃ adj, buildAdj pMap W (W * H) = some adj) ∧
    (∀ m st, runSearch sx sy tx ty pMap W H = some (Outcome.met m st) →
      m ≠ sx + sy * W ∧ ∃ p, rd st.start_parent m = some p ∧ 0 ≤ p ∧ p < W * H) ∧
    (∃ r, FindPath sx sy tx ty pMap W H (buf.take cap.toNat) cap = some r) := by
  have total : ∀ (b : List Int), cap ≤ (b.length : Int) →
      ∃ r, FindPath sx sy tx ty pMap W H b cap = some r := by
    intro b hb
    rcases FindPath_grid sx sy tx ty pMap W H b cap hwf hs ht hne hb hfit with
      ⟨path, -, -, -, hfp, -⟩ | ⟨-, -, hfp⟩
    · exact ⟨_, hfp⟩
    · exact ⟨_, hfp⟩
  obtain ⟨adj, hadj, hg, hcase⟩ :=
    FindPath_spec sx sy tx ty pMap W H buf cap hwf hs ht hne hcap hfit
  refine ⟨total buf hcap, ⟨adj, hadj⟩, ?_, total _ ?_⟩
  · intro m st hrun
    rcases hcase with ⟨m1, st1, i, j, path, hrun1, hm, -⟩ | ⟨hrun1, -⟩
    · rw [hrun] at hrun1
      cases hrun1
      have hpos := hm.pos
      refine ⟨?_, ?_⟩
      · intro hms
        have h0 := hm.stree.origin
        have hi := hm.slevel
        rw [hms] at hi
        unfold cellIndex at h0
        rw [h0] at hi
        have := Option.some.inj hi
        omega
      · obtain ⟨p, hp, -, hlp⟩ := hm.stree.up m _ hm.slevel (by omega)
        have hb := rd_some_bounds hlp
        rw [hm.stree.level_len] at hb
        exact ⟨p, hp, hb.1, hb.2⟩
    · rw [hrun] at hrun1
      cases hrun1
  · rw [List.length_take]
    omega

/-- C11 (witness): the fully open 3x3 grid, from (0,0) to (2,2), with a
buffer of 6 entries and capacity 4. -/
theorem C11_no_fatal_abort_witness :
    (∃ r, FindPath 0 0 2 2 [1, 1, 1, 1, 1, 1, 1, 1, 1] 3 3 [0, 0, 0, 0, 0, 0] 4 = some r) ∧
    (∃ adj, buildAdj [1, 1, 1, 1, 1, 1, 1, 1, 1] 3 (3 * 3) = some adj) ∧
    (∀ m st, runSearch 0 0 2 2 [1, 1, 1, 1, 1, 1, 1, 1, 1] 3 3 = some (Outcome.met m st) →
      m ≠ 0 + 0 * 3 ∧ ∃ p, rd st.start_parent m = some p ∧ 0 ≤ p ∧ p < 3 * 3) ∧
    (∃ r, FindPath 0 0 2 2 [1, 1, 1, 1, 1, 1, 1, 1, 1] 3 3
      (([0, 0, 0, 0, 0, 0] : List Int).take (4 : Int).toNat) 4 = some r) :=
  C11_no_fatal_abort 0 0 2 2 [1, 1, 1, 1, 1, 1, 1, 1, 1] 3 3 [0, 0, 0, 0, 0, 0] 4
    (by decide) (by decide) (by decide) (by decide) (by decide) (by decide)

/-- C18: when the call returns a length `L` with `1 ≤ L ≤ nOutBufferSize`,
the copy loops assign exactly the entries `pOutBuffer[0 .. L - 1]`, each once
(the log of assigned indices is `0, 1, ..., L - 1`), the buffer keeps its
size and every entry at an index `≥ L` keeps its value. -/
theorem C18_buffer_frame (sx sy tx ty : Int) (pMap : List Nat) (W H : Int)
    (buf : List Int) (cap : Int) (hwf : WellFormed pMap W H) (hs : InRange W H sx sy)
    (ht : InRange W H tx ty) (hne : ¬ (sx = tx ∧ sy = ty)) (hcap : cap ≤ (buf.length : Int))
    (L : Int) (buf1 : List Int)
    (hres : FindPath sx sy tx ty pMap W H buf cap = some (L, buf1)) (h1 : 1 ≤ L)
    (h2 : L ≤ cap) :
    buf1.length = buf.length ∧ (∀ k, L ≤ k → rd buf1 k = rd buf k) ∧
    ∃ (m : Int) (st : Search) (sp tp : List Int),
      runSearch sx sy tx ty pMap W H = some (Outcome.met m st) ∧
      ancestralPaths ((W * H).toNat + 1) st.start_parent st.target_parent m (tx + ty * W) =
        some (sp, tp) ∧
      writeOutTraced sp tp buf cap =
        some (buf1, (List.range L.toNat).map fun i : Nat => (i : Int)) := by
  obtain ⟨-, hlen, hsplit, -, -⟩ :=
    written_prefix sx sy tx ty pMap W H buf cap hwf hs ht hne hcap L buf1 hres h1 h2
  have hlenNat : (buf1.take L.toNat).length = L.toNat := by omega
  refine ⟨?_, ?_, ?_⟩
  · rw [hsplit, List.length_append, hlenNat, List.length_drop]
    omega
  · intro k hk
    rw [hsplit, rd_append, if_neg (by omega), rd_drop _ _ _ (by omega)]
    congr 1
    omega
  · rcases FindPath_grid sx sy tx ty pMap W H buf cap hwf hs ht hne hcap
        (FindPath_fits hres hne) with
      ⟨path, -, -, -, -, m, st, i, j, hrun, -⟩ | ⟨-, -, hfp⟩
    · have hfm := FindPath_met sx sy tx ty pMap W H buf cap hne m st hrun
      rw [hres] at hfm
      cases hap : ancestralPaths ((W * H).toNat + 1) st.start_parent st.target_parent m
          (tx + ty * W) with
      | none => rw [hap] at hfm; simp at hfm
      | some paths =>
        obtain ⟨sp, tp⟩ := paths
        rw [hap] at hfm
        simp only [Option.some_bind] at hfm
        cases hw : writeOut sp tp buf cap with
        | none => rw [hw] at hfm; simp at hfm
        | some b =>
          rw [hw] at hfm
          simp only [Option.some_bind] at hfm
          have hL := (Prod.mk.inj (Option.some.inj hfm)).1
          have hb := (Prod.mk.inj (Option.some.inj hfm)).2
          subst hb
          refine ⟨m, st, sp, tp, hrun, hap, ?_⟩
          rw [writeOutTraced_spec, hw, Option.map_some', if_pos (by omega)]
          have : sp.length + tp.length = L.toNat := by omega
          rw [this]
    · rw [hfp] at hres
      have := (Prod.mk.inj (Option.some.inj hres)).1
      omega

/-- C18 (witness): the fully open 3x3 grid, from (0,0) to (2,2), on the
buffer `[9, 9, 9, 9, 9, 9]` with capacity 5: the entries 4 and 5 keep their
value. -/
theorem C18_buffer_frame_witness :
    ([1, 2, 5, 8, 9, 9] : List Int).length = ([9, 9, 9, 9, 9, 9] : List Int).length ∧
    (∀ k, (4 : Int) ≤ k → rd ([1, 2, 5, 8, 9, 9] : List Int) k = rd [9, 9, 9, 9, 9, 9] k) ∧
    ∃ (m : Int) (st : Search) (sp tp : List Int),
      runSearch 0 0 2 2 [1, 1, 1, 1, 1, 1, 1, 1, 1] 3 3 = some (Outcome.met m st) ∧
      ancestralPaths ((3 * 3 : Int).toNat + 1) st.start_parent st.target_parent m (2 + 2 * 3) =
        some (sp, tp) ∧
      writeOutTraced sp tp [9, 9, 9, 9, 9, 9] 5 =
        some ([1, 2, 5, 8, 9, 9], (List.range (4 : Int).toNat).map fun i : Nat => (i : Int)) :=
  C18_buffer_frame 0 0 2 2 [1, 1, 1, 1, 1, 1, 1, 1, 1] 3 3 [9, 9, 9, 9, 9, 9] 5
    (by decide) (by decide) (by decide) (by decide) (by decide) 4 [1, 2, 5, 8, 9, 9]
    (by decide) (by decide) (by decide)

/-! ## The loop invariant, iteration by iteration (C12) -/

/-- The main loop is the iteration of `loopBody`. -/
theorem mainLoop_step (adj : List Int) (fuel : Nat) (st : Search) :
    mainLoop adj (fuel + 1) st =
      (loopBody adj st).bind fun r =>
        match r with
        | Sum.inl o => some o
        | Sum.inr st1 => mainLoop adj fuel st1 := by
  rw [mainLoop]
  unfold loopBody
  by_cases hcond : st.start_frontier.length > 0 ∧ st.target_frontier.length > 0
  swap
  · simp only [if_neg hcond, Option.some_bind]
  simp only [if_pos hcond]
  cases expandStart adj st.l st.start_frontier
      { level := st.start_level, parent := st.start_parent, next := [] } with
  | none => rfl
  | some s =>
    simp only [Option.some_bind]
    cases targetPass adj st.l s.level st.target_frontier
        { level := st.target_level, parent := st.target_parent, next := [] } with
    | none => rfl
    | some r =>
      cases r with
      | inl mt => rfl
      | inr t => rfl

/-- One run of the loop body from a state that satisfies `DepthInv`: it does
not fail; it ends the loop without a meeting exactly when a frontier is
empty; and when the loop goes on, the invariant holds one level deeper and
the cells of the new frontiers are exactly the cells newly visited. -/
theorem loopBody_spec {adj : List Int} {N s t : Int} (hg : GoodAdj adj N) {k : Nat}
    {st : Search} (h : DepthInv adj N s t k st) :
    (∃ r, loopBody adj st = some r) ∧
    (loopBody adj st = some (Sum.inl Outcome.noPath) ↔
      (st.start_frontier = [] ∨ st.target_frontier = [])) ∧
    ∀ st1, loopBody adj st = some (Sum.inr st1) →
      DepthInv adj N s t (k + 1) st1 ∧
      st.start_frontier ≠ [] ∧ st.target_frontier ≠ [] ∧
      List.count (-1) st1.start_level + st1.start_frontier.length =
        List.count (-1) st.start_level ∧
      List.count (-1) st1.target_level + st1.target_frontier.length =
        List.count (-1) st.target_level := by
  have hl : st.l = (k : Int) + 1 := h.depth
  by_cases hcond : st.start_frontier.length > 0 ∧ st.target_frontier.length > 0
  swap
  · have hb : loopBody adj st = some (Sum.inl Outcome.noPath) := by
      unfold loopBody; rw [if_neg hcond]
    have hempty : st.start_frontier = [] ∨ st.target_frontier = [] := by
      by_contra hne
      push_neg at hne
      exact hcond ⟨List.length_pos.2 hne.1, List.length_pos.2 hne.2⟩
    refine ⟨⟨_, hb⟩, ⟨fun _ => hempty, fun _ => hb⟩, ?_⟩
    intro st1 h1
    rw [hb] at h1
    cases h1
  · have hsne : st.start_frontier ≠ [] := List.length_pos.1 hcond.1
    have htne : st.target_frontier ≠ [] := List.length_pos.1 hcond.2
    have hsF : ∀ c ∈ st.start_frontier, 0 ≤ c ∧ c < N := fun c hc => by
      have := rd_some_bounds ((h.sfront c).1 hc)
      rw [h.stree.level_len] at this
      exact this
    have htF : ∀ c ∈ st.target_frontier, 0 ≤ c ∧ c < N := fun c hc => by
      have := rd_some_bounds ((h.tfront c).1 hc)
      rw [h.ttree.level_len] at this
      exact this
    have hlne : st.l ≠ -1 := by omega
    obtain ⟨s1, e1, g1⟩ := expandStart_spec hg hlne st.start_frontier hsF
      ⟨st.start_level, st.start_parent, []⟩ h.stree.level_len h.stree.parent_len
    have stree1 : Tree adj N s s1.level s1.parent :=
      tree_grew (s := ⟨st.start_level, st.start_parent, []⟩) h.stree g1 (by omega)
        (fun f n hfn => ⟨hfn.2, by
          have := (h.sfront f).1 hfn.1
          rw [hl]
          simpa using this⟩)
    obtain ⟨sex1, sfr1, scount⟩ := exact_grew (s := ⟨st.start_level, st.start_parent, []⟩)
      h.sexact h.sfront (hl ▸ g1) rfl
    have snd1 : s1.next.Nodup := by
      obtain ⟨new, e, hnd, -, -⟩ := g1.pushed
      rw [e]; simpa using hnd
    rcases targetPass_spec hg hlne s1.level stree1.level_len st.target_frontier htF
      ⟨st.target_level, st.target_parent, []⟩ h.ttree.level_len h.ttree.parent_len with
      ⟨m, t1, pre, post, e2, -⟩ | ⟨t1, e2, hall, g2⟩
    · have hb : loopBody adj st = some (Sum.inl (Outcome.met m
          { start_level := s1.level, start_parent := s1.parent,
            target_level := t1.level, target_parent := t1.parent,
            start_frontier := s1.next, target_frontier := st.target_frontier,
            l := st.l })) := by
        unfold loopBody
        rw [if_pos hcond, e1, Option.some_bind, e2, Option.some_bind]
      refine ⟨⟨_, hb⟩, ⟨?_, ?_⟩, ?_⟩
      · intro h1; rw [hb] at h1; cases h1
      · rintro (h1 | h1)
        · exact absurd h1 hsne
        · exact absurd h1 htne
      · intro st1 h1; rw [hb] at h1; cases h1
    · have hb : loopBody adj st = some (Sum.inr
          { start_level := s1.level, start_parent := s1.parent,
            target_level := t1.level, target_parent := t1.parent,
            start_frontier := s1.next, target_frontier := t1.next, l := st.l + 1 }) := by
        unfold loopBody
        rw [if_pos hcond, e1, Option.some_bind, e2, Option.some_bind]
      have ttree1 : Tree adj N t t1.level t1.parent :=
        tree_grew (s := ⟨st.target_level, st.target_parent, []⟩) h.ttree g2 (by omega)
          (fun f n hfn => ⟨hfn.2, by
            have := (h.tfront f).1 hfn.1
            rw [hl]
            simpa using this⟩)
      obtain ⟨tex1, tfr1, tcount⟩ := exact_grew (s := ⟨st.target_level, st.target_parent, []⟩)
        h.texact h.tfront (hl ▸ g2) rfl
      have tnd1 : t1.next.Nodup := by
        obtain ⟨new, e, hnd, -, -⟩ := g2.pushed
        rw [e]; simpa using hnd
      refine ⟨⟨_, hb⟩, ⟨?_, ?_⟩, ?_⟩
      · intro h1; rw [hb] at h1; cases h1
      · rintro (h1 | h1)
        · exact absurd h1 hsne
        · exact absurd h1 htne
      · intro st1 h1
        rw [hb] at h1
        cases h1
        simp only at scount tcount
        have hsc := h.scount
        have htc := h.tcount
        rw [if_neg hsne] at hsc
        rw [if_neg htne] at htc
        refine ⟨⟨by simp [hl], stree1, ttree1, sex1, tex1, ?_, ?_, snd1, tnd1, ?_, ?_⟩,
          hsne, htne, scount, tcount⟩
        · intro c; rw [sfr1 c]; simp
        · intro c; rw [tfr1 c]; simp
        · show (List.count (-1) s1.level : Int) + ((k + 1 : Nat) : Int) +
            (if s1.next = [] then 0 else 1) ≤ N
          have : (if s1.next = [] then (0 : Int) else 1) ≤ (s1.next.length : Int) := by
            split
            · omega
            · rename_i hne
              have := List.length_pos.2 hne
              omega
          push_cast
          omega
        · show (List.count (-1) t1.level : Int) + ((k + 1 : Nat) : Int) +
            (if t1.next = [] then 0 else 1) ≤ N
          have : (if t1.next = [] then (0 : Int) else 1) ≤ (t1.next.length : Int) := by
            split
            · omega
            · rename_i hne
              have := List.length_pos.2 hne
              omega
          push_cast
          omega

/-- The initial state satisfies the depth invariant at depth `0`. -/
theorem initSearch_depth (adj : List Int) (N s t : Int) (hs : 0 ≤ s ∧ s < N)
    (ht : 0 ≤ t ∧ t < N) :
    ∃ st, initSearch N s t = some st ∧ DepthInv adj N s t 0 st := by
  obtain ⟨st, hinit, hinv⟩ := initSearch_spec adj N s t hs ht
  refine ⟨st, hinit, ?_⟩
  have hblank : ((List.replicate N.toNat (-1 : Int)).length : Int) = N := by
    simp; omega
  obtain ⟨sl, hsl⟩ := wr_in_bounds (a := List.replicate N.toNat (-1 : Int)) 0 hs.1
    (by rw [hblank]; exact hs.2)
  obtain ⟨tl, htl⟩ := wr_in_bounds (a := List.replicate N.toNat (-1 : Int)) 0 ht.1
    (by rw [hblank]; exact ht.2)
  have hst : st = ⟨sl, List.replicate N.toNat (-1 : Int), tl,
      List.replicate N.toNat (-1 : Int), [s], [t], 1⟩ := by
    simp only [initSearch, hsl, htl, Option.some_bind] at hinit
    exact (Option.some.inj hinit).symm
  have c1 := count_wr hsl (rd_replicate hs.1 (by omega)) (by decide)
  have c2 := count_wr htl (rd_replicate ht.1 (by omega)) (by decide)
  rw [List.count_replicate_self] at c1 c2
  refine ⟨hinv.depth, hinv.stree, hinv.ttree, hinv.sexact, hinv.texact, hinv.sfront,
    hinv.tfront, ?_, ?_, ?_, ?_⟩
  · rw [hst]; exact List.nodup_singleton s
  · rw [hst]; exact List.nodup_singleton t
  · rw [hst]
    show (List.count (-1) sl : Int) + ((0 : Nat) : Int) + (if [s] = [] then 0 else 1) ≤ N
    simp
    omega
  · rw [hst]
    show (List.count (-1) tl : Int) + ((0 : Nat) : Int) + (if [t] = [] then 0 else 1) ≤ N
    simp
    omega

/-- Every state the loop passes through satisfies the depth invariant. -/
theorem stateAfter_inv {adj : List Int} {N s t : Int} (hg : GoodAdj adj N) {st0 : Search}
    (h0 : DepthInv adj N s t 0 st0) :
    ∀ (k : Nat) (st : Search), stateAfter adj st0 k = some st → DepthInv adj N s t k st := by
  intro k
  induction k with
  | zero =>
    intro st h
    simp only [stateAfter] at h
    cases h
    exact h0
  | succ k ih =>
    intro st h
    simp only [stateAfter] at h
    cases hk : stateAfter adj st0 k with
    | none => rw [hk] at h; simp at h
    | some st1 =>
      rw [hk, Option.some_bind] at h
      cases hb : loopBody adj st1 with
      | none => rw [hb] at h; simp at h
      | some r =>
        rw [hb, Option.some_bind] at h
        cases r with
        | inl o => simp at h
        | inr st2 =>
          simp only at h
          cases h
          exact ((loopBody_spec hg (ih st1 hk)).2.2 st hb).1

/-- Under the depth invariant the frontier is the set of cells at distance
`k`, and every level that is set is a distance. -/
theorem exact_dist {adj : List Int} {o : Int} {k : Nat} {level F : List Int}
    (hex : Exact adj o k level) (hF : ∀ c, c ∈ F ↔ rd level c = some (k : Int)) :
    (∀ c, c ∈ F ↔ Dist adj o c k) ∧
    (∀ c v, rd level c = some v → v ≠ -1 → ∃ j : Nat, v = (j : Int) ∧ Dist adj o c j) := by
  have hsound : ∀ c v, rd level c = some v → v ≠ -1 →
      ∃ j : Nat, v = (j : Int) ∧ Dist adj o c j := by
    intro c v hv hv1
    obtain ⟨j, hj, -, hr, hmin⟩ := hex.sound c v hv hv1
    exact ⟨j, hj, hr, hmin⟩
  refine ⟨?_, hsound⟩
  intro c
  rw [hF]
  constructor
  · intro hc
    obtain ⟨j, hj, hd⟩ := hsound c _ hc (by omega)
    have : j = k := by omega
    subst this
    exact hd
  · rintro ⟨hr, hmin⟩
    obtain ⟨v, hv, hv1⟩ := hex.complete c k (le_refl _) hr
    obtain ⟨j, hj, hjk, hrj, -⟩ := hex.sound c v hv hv1
    have : j = k := by
      by_contra hne
      exact hmin j (by omega) hrj
    subst this
    rw [hv, hj]

/-- C12: the loop invariant of the engine. On a well-formed input, whatever
table `adj` the builder leaves, the search starts from a state `st0`, and
after every iteration `k ≥ 1` of the main loop that completes without a
meeting (so that `l` has become `k + 1`), the start frontier holds exactly
the cells at distance `k` from the start in the graph of `adj`, the target
frontier exactly the cells at distance `k` from the target, each cell once;
and every level that is set, on either side, is the distance of its cell from
that side's origin. The builder leaves a table whenever its size `4 * W * H`
fits an `int`. -/
theorem C12_frontiers_hold_depth (sx sy tx ty : Int) (pMap : List Nat) (W H : Int)
    (hwf : WellFormed pMap W H) (hs : InRange W H sx sy) (ht : InRange W H tx ty) :
    (4 * (W * H) ≤ INT_MAX → ∃ adj, buildAdj pMap W (W * H) = some adj) ∧
    ∀ adj, buildAdj pMap W (W * H) = some adj →
      ∃ st0, initSearch (W * H) (sx + sy * W) (tx + ty * W) = some st0 ∧
      ∀ (k : Nat) (st : Search), 1 ≤ k → stateAfter adj st0 k = some st →
        st.l = (k : Int) + 1 ∧
        (∀ c, c ∈ st.start_frontier ↔ Dist adj (sx + sy * W) c k) ∧
        st.start_frontier.Nodup ∧
        (∀ c, c ∈ st.target_frontier ↔ Dist adj (tx + ty * W) c k) ∧
        st.target_frontier.Nodup ∧
        (∀ c v, rd st.start_level c = some v → v ≠ -1 →
          ∃ j : Nat, v = (j : Int) ∧ Dist adj (sx + sy * W) c j) ∧
        (∀ c v, rd st.target_level c = some v → v ≠ -1 →
          ∃ j : Nat, v = (j : Int) ∧ Dist adj (tx + ty * W) c j) := by
  refine ⟨fun hfit => ?_, ?_⟩
  · obtain ⟨adj, hadj, -, -⟩ := buildAdj_spec pMap W H hwf hfit
    exact ⟨adj, hadj⟩
  intro adj hadj
  have hg := buildAdj_good pMap W H hwf adj hadj
  obtain ⟨st0, hinit, h0⟩ := initSearch_depth adj (W * H) _ _ (cellIndex_range hs)
    (cellIndex_range ht)
  refine ⟨st0, hinit, ?_⟩
  intro k st _ hk
  have h := stateAfter_inv hg h0 k st hk
  obtain ⟨s1, s2⟩ := exact_dist h.sexact h.sfront
  obtain ⟨t1, t2⟩ := exact_dist h.texact h.tfront
  exact ⟨h.depth, s1, h.snodup, t1, h.tnodup, s2, t2⟩

/-- C12 (witness): the fully open 3x3 grid, from (0,0) to (2,2); two
iterations complete without a meeting, and both frontiers then hold the cells
2, 4 and 6, at distance 2 from either corner. -/
theorem C12_frontiers_hold_depth_witness :
    ((buildAdj [1, 1, 1, 1, 1, 1, 1, 1, 1] 3 (3 * 3)).bind fun adj =>
      (initSearch (3 * 3) (0 + 0 * 3) (2 + 2 * 3)).bind fun st0 =>
        (stateAfter adj st0 2).map fun st => (st.start_frontier, st.target_frontier)) =
      some ([2, 4, 6], [2, 4, 6]) ∧
    (4 * (3 * 3) ≤ INT_MAX → ∃ adj, buildAdj [1, 1, 1, 1, 1, 1, 1, 1, 1] 3 (3 * 3) = some adj) ∧
    ∀ adj, buildAdj [1, 1, 1, 1, 1, 1, 1, 1, 1] 3 (3 * 3) = some adj →
      ∃ st0, initSearch (3 * 3) (0 + 0 * 3) (2 + 2 * 3) = some st0 ∧
      ∀ (k : Nat) (st : Search), 1 ≤ k → stateAfter adj st0 k = some st →
        st.l = (k : Int) + 1 ∧
        (∀ c, c ∈ st.start_frontier ↔ Dist adj (0 + 0 * 3) c k) ∧
        st.start_frontier.Nodup ∧
        (∀ c, c ∈ st.target_frontier ↔ Dist adj (2 + 2 * 3) c k) ∧
        st.target_frontier.Nodup ∧
        (∀ c v, rd st.start_level c = some v → v ≠ -1 →
          ∃ j : Nat, v = (j : Int) ∧ Dist adj (0 + 0 * 3) c j) ∧
        (∀ c v, rd st.target_level c = some v → v ≠ -1 →
          ∃ j : Nat, v = (j : Int) ∧ Dist adj (2 + 2 * 3) c j) :=
  ⟨by decide,
    C12_frontiers_hold_depth 0 0 2 2 [1, 1, 1, 1, 1, 1, 1, 1, 1] 3 3
      (by decide) (by decide) (by decide)⟩

/-! ## The parent invariant at every step, and termination (C15, C16) -/

theorem visits_append (adj : List Int) (l : Int) (s : Side) (a b : List (Int × Int)) :
    visits adj l s (a ++ b) = (visits adj l s a).bind fun s1 => visits adj l s1 b := by
  unfold visits
  rw [List.foldlM_append]
  rfl

/-- Expanding a cell is looking at its four slots in turn. -/
theorem expandCell_eq_visits (adj : List Int) (l : Int) (s : Side) (c : Int) :
    expandCell adj l s c = visits adj l s [(c, 0), (c, 1), (c, 2), (c, 3)] := by
  unfold expandCell visits
  rfl

/-- The pass over the start frontier is the run of the steps `slotsOf F`. -/
theorem expandStart_eq_visits (adj : List Int) (l : Int) (F : List Int) (s : Side) :
    expandStart adj l F s = visits adj l s (slotsOf F) := by
  induction F generalizing s with
  | nil => rfl
  | cons c F ih =>
    have hs : slotsOf (c :: F) = [(c, 0), (c, 1), (c, 2), (c, 3)] ++ slotsOf F := by
      simp [slotsOf]
    rw [hs, visits_append, ← expandCell_eq_visits]
    unfold expandStart at ih ⊢
    rw [List.foldlM_cons]
    cases expandCell adj l s c with
    | none => rfl
    | some s1 => exact ih s1

/-- The pass over the target frontier is a run of the steps of the cells it
expands: all of `F`, or the cells before the meeting cell. -/
theorem targetPass_visits (adj : List Int) (l : Int) (sl : List Int) (F : List Int) (s : Side)
    (r : Int × Side ⊕ Side) (h : targetPass adj l sl F s = some r) :
    (∀ s1, r = Sum.inr s1 → visits adj l s (slotsOf F) = some s1) ∧
    (∀ m s1, r = Sum.inl (m, s1) →
      ∃ pre post, F = pre ++ m :: post ∧ visits adj l s (slotsOf pre) = some s1) := by
  induction F generalizing s with
  | nil =>
    simp only [targetPass] at h
    cases h
    exact ⟨fun s1 h1 => (by cases h1; rfl), fun m s1 h1 => (by cases h1)⟩
  | cons c F ih =>
    simp only [targetPass] at h
    cases hsl : rd sl c with
    | none => rw [hsl] at h; simp at h
    | some v =>
      rw [hsl, Option.some_bind] at h
      by_cases hv : v ≠ -1
      · rw [if_pos hv] at h
        cases h
        refine ⟨fun s1 h1 => (by cases h1), fun m s1 h1 => ?_⟩
        cases h1
        exact ⟨[], F, rfl, rfl⟩
      · rw [if_neg hv] at h
        cases hc : expandCell adj l s c with
        | none => rw [hc] at h; simp at h
        | some s2 =>
          rw [hc, Option.some_bind] at h
          obtain ⟨a, b⟩ := ih s2 h
          have hs : slotsOf (c :: F) = [(c, 0), (c, 1), (c, 2), (c, 3)] ++ slotsOf F := by
            simp [slotsOf]
          refine ⟨fun s1 h1 => ?_, fun m s1 h1 => ?_⟩
          · rw [hs, visits_append, ← expandCell_eq_visits, hc]
            exact a s1 h1
          · obtain ⟨pre, post, hF, hvis⟩ := b m s1 h1
            refine ⟨c :: pre, post, by rw [hF]; rfl, ?_⟩
            have hs2 : slotsOf (c :: pre) = [(c, 0), (c, 1), (c, 2), (c, 3)] ++ slotsOf pre := by
              simp [slotsOf]
            rw [hs2, visits_append, ← expandCell_eq_visits, hc]
            exact hvis

/-- Any run of expansion steps from in-range cells succeeds and has the
effect described by `Grew`. -/
theorem visits_spec {adj : List Int} {N : Int} (hg : GoodAdj adj N) {l : Int} (hl : l ≠ -1)
    (cvs : List (Int × Int))
    (hcvs : ∀ cv ∈ cvs, (0 ≤ cv.1 ∧ cv.1 < N) ∧ 0 ≤ cv.2 ∧ cv.2 < 4) (s : Side)
    (hlev : (s.level.length : Int) = N) (hpar : (s.parent.length : Int) = N) :
    ∃ s1, visits adj l s cvs = some s1 ∧
      Grew l (fun f n => ∃ v, (f, v) ∈ cvs ∧ n ≠ -1 ∧ rd adj (4 * f + v) = some n) s s1 := by
  induction cvs generalizing s with
  | nil =>
    exact ⟨s, rfl, Grew.same hl (by rintro f n ⟨v, hv, -⟩; simp at hv)⟩
  | cons cv rest ih =>
    obtain ⟨c, v⟩ := cv
    have hc := hcvs (c, v) (List.mem_cons_self _ _)
    obtain ⟨s1, e1, g1⟩ := visit_spec hg (s := s) hl hc.1.1 hc.1.2 hc.2.1 hc.2.2 hlev hpar
    obtain ⟨s2, e2, g2⟩ := ih (fun x hx => hcvs x (List.mem_cons_of_mem _ hx)) s1
      (by rw [g1.level_len]; exact hlev) (by rw [g1.parent_len]; exact hpar)
    refine ⟨s2, ?_, (Grew.trans hl g1 g2).congr ?_⟩
    · unfold visits at e2 ⊢
      rw [List.foldlM_cons]
      simp only [e1]
      exact e2
    · intro f n
      constructor
      · rintro (⟨h1, h2, h3⟩ | ⟨w, h1, h2, h3⟩)
        · exact ⟨v, by rw [h1]; exact List.mem_cons_self _ _, h2, by rw [h1]; exact h3⟩
        · exact ⟨w, List.mem_cons_of_mem _ h1, h2, h3⟩
      · rintro ⟨w, h1, h2, h3⟩
        rcases List.mem_cons.1 h1 with heq | hmem
        · have hf : f = c := (Prod.mk.inj heq).1
          have hw : w = v := (Prod.mk.inj heq).2
          subst hf; subst hw
          exact Or.inl ⟨rfl, h2, h3⟩
        · exact Or.inr ⟨w, hmem, h2, h3⟩

/-- The parent invariant `Tree` gives the parent invariant in the words of
the specification. -/
theorem tree_parentInv {adj : List Int} {N o : Int} {level parent : List Int}
    (hg : GoodAdj adj N) (ht : Tree adj N o level parent) : ParentInv adj o level parent := by
  constructor
  · intro c p hp hp1
    have hb := rd_some_bounds hp
    rw [ht.parent_len, ← ht.level_len] at hb
    obtain ⟨v, hv⟩ := rd_in_bounds hb.1 hb.2
    by_cases hv0 : v ≤ 0
    · have := ht.root c v hv hv0
      rw [hp] at this
      exact absurd (Option.some.inj this) hp1
    · obtain ⟨q, hq, he, hlq⟩ := ht.up c v hv (by omega)
      rw [hp] at hq
      cases hq
      exact ⟨he, hg.symm _ _ he, v, hv, hlq⟩
  · intro c v hv hv1 hp
    by_cases hv0 : v ≤ 0
    · have := ht.ge c v hv
      have hv00 : v = 0 := by omega
      subst hv00
      exact ⟨ht.zero c hv, rfl⟩
    · obtain ⟨q, hq, -, hlq⟩ := ht.up c v hv (by omega)
      rw [hp] at hq
      cases hq
      have := rd_some_bounds hlq
      omega

/-- Every run of expansion steps from cells of the frontier of depth `l - 1`
keeps the parent invariant. -/
theorem visits_keep_tree {adj : List Int} {N o : Int} (hg : GoodAdj adj N) {l : Int}
    (hl : 1 ≤ l) {level parent F : List Int} (ht : Tree adj N o level parent)
    (hF : ∀ c, c ∈ F → rd level c = some (l - 1)) (cvs : List (Int × Int))
    (hcvs : ∀ cv ∈ cvs, cv.1 ∈ F ∧ 0 ≤ cv.2 ∧ cv.2 < 4) :
    ∃ s1, visits adj l ⟨level, parent, []⟩ cvs = some s1 ∧
      Tree adj N o s1.level s1.parent ∧ ParentInv adj o s1.level s1.parent := by
  obtain ⟨s1, e1, g1⟩ := visits_spec hg (l := l) (by omega) cvs
    (fun cv hcv => by
      have h1 := hcvs cv hcv
      have := rd_some_bounds (hF _ h1.1)
      rw [ht.level_len] at this
      exact ⟨this, h1.2⟩) ⟨level, parent, []⟩ ht.level_len ht.parent_len
  have ht1 : Tree adj N o s1.level s1.parent :=
    tree_grew (s := ⟨level, parent, []⟩) ht g1 hl (by
      rintro f n ⟨v, hv, hn, hrd⟩
      have h1 := hcvs _ hv
      exact ⟨⟨hn, v, h1.2.1, h1.2.2, hrd⟩, hF f h1.1⟩)
  exact ⟨s1, e1, ht1, tree_parentInv hg ht1⟩

/-- C15: the parent invariant holds at every point of the search. On a
well-formed input, whatever table `adj` the builder leaves, the search starts
from a state `st0`; take the loop variables after any number `k` of complete
iterations and run any sequence of expansion steps from cells of the start
frontier (or of the target frontier): the steps succeed, and afterwards every
parent that is set on that side is a neighbour of its cell and lies exactly
one level below it, and the only visited cell without a parent is that
side's origin, at level `0`. The passes of the loop are such sequences
(`expandStart_eq_visits`, `targetPass_visits`). The builder leaves a table
whenever its size `4 * W * H` fits an `int`. -/
theorem C15_parent_invariant (sx sy tx ty : Int) (pMap : List Nat) (W H : Int)
    (hwf : WellFormed pMap W H) (hs : InRange W H sx sy) (ht : InRange W H tx ty) :
    (4 * (W * H) ≤ INT_MAX → ∃ adj, buildAdj pMap W (W * H) = some adj) ∧
    ∀ adj, buildAdj pMap W (W * H) = some adj →
      ∃ st0, initSearch (W * H) (sx + sy * W) (tx + ty * W) = some st0 ∧
      ∀ (k : Nat) (st : Search), stateAfter adj st0 k = some st →
        (∀ cvs : List (Int × Int),
          (∀ cv ∈ cvs, cv.1 ∈ st.start_frontier ∧ 0 ≤ cv.2 ∧ cv.2 < 4) →
          ∃ s1, visits adj st.l ⟨st.start_level, st.start_parent, []⟩ cvs = some s1 ∧
            ParentInv adj (sx + sy * W) s1.level s1.parent) ∧
        (∀ cvs : List (Int × Int),
          (∀ cv ∈ cvs, cv.1 ∈ st.target_frontier ∧ 0 ≤ cv.2 ∧ cv.2 < 4) →
          ∃ t1, visits adj st.l ⟨st.target_level, st.target_parent, []⟩ cvs = some t1 ∧
            ParentInv adj (tx + ty * W) t1.level t1.parent) := by
  refine ⟨fun hfit => ?_, ?_⟩
  · obtain ⟨adj, hadj, -, -⟩ := buildAdj_spec pMap W H hwf hfit
    exact ⟨adj, hadj⟩
  intro adj hadj
  have hg := buildAdj_good pMap W H hwf adj hadj
  obtain ⟨st0, hinit, h0⟩ := initSearch_depth adj (W * H) _ _ (cellIndex_range hs)
    (cellIndex_range ht)
  refine ⟨st0, hinit, ?_⟩
  intro k st hk
  have h := stateAfter_inv hg h0 k st hk
  have hl : st.l - 1 = (k : Int) := by rw [h.depth]; omega
  constructor
  · intro cvs hcvs
    obtain ⟨s1, e1, -, p1⟩ := visits_keep_tree hg (l := st.l) (by rw [h.depth]; omega) h.stree
      (F := st.start_frontier) (fun c hc => by rw [hl]; exact (h.sfront c).1 hc) cvs hcvs
    exact ⟨s1, e1, p1⟩
  · intro cvs hcvs
    obtain ⟨t1, e1, -, p1⟩ := visits_keep_tree hg (l := st.l) (by rw [h.depth]; omega) h.ttree
      (F := st.target_frontier) (fun c hc => by rw [hl]; exact (h.tfront c).1 hc) cvs hcvs
    exact ⟨t1, e1, p1⟩

/-- C15 (witness): the fully open 3x3 grid, from (0,0) to (2,2); after the
first iteration the parents on the start side are those of the cells 1 and
3, both the start cell 0. -/
theorem C15_parent_invariant_witness :
    ((buildAdj [1, 1, 1, 1, 1, 1, 1, 1, 1] 3 (3 * 3)).bind fun adj =>
      (initSearch (3 * 3) (0 + 0 * 3) (2 + 2 * 3)).bind fun st0 =>
        (stateAfter adj st0 1).map fun st => (st.start_level, st.start_parent)) =
      some ([0, 1, -1, 1, -1, -1, -1, -1, -1], [-1, 0, -1, 0, -1, -1, -1, -1, -1]) ∧
    (4 * (3 * 3) ≤ INT_MAX → ∃ adj, buildAdj [1, 1, 1, 1, 1, 1, 1, 1, 1] 3 (3 * 3) = some adj) ∧
    ∀ adj, buildAdj [1, 1, 1, 1, 1, 1, 1, 1, 1] 3 (3 * 3) = some adj →
      ∃ st0, initSearch (3 * 3) (0 + 0 * 3) (2 + 2 * 3) = some st0 ∧
      ∀ (k : Nat) (st : Search), stateAfter adj st0 k = some st →
        (∀ cvs : List (Int × Int),
          (∀ cv ∈ cvs, cv.1 ∈ st.start_frontier ∧ 0 ≤ cv.2 ∧ cv.2 < 4) →
          ∃ s1, visits adj st.l ⟨st.start_level, st.start_parent, []⟩ cvs = some s1 ∧
            ParentInv adj (0 + 0 * 3) s1.level s1.parent) ∧
        (∀ cvs : List (Int × Int),
          (∀ cv ∈ cvs, cv.1 ∈ st.target_frontier ∧ 0 ≤ cv.2 ∧ cv.2 < 4) →
          ∃ t1, visits adj st.l ⟨st.target_level, st.target_parent, []⟩ cvs = some t1 ∧
            ParentInv adj (2 + 2 * 3) t1.level t1.parent) :=
  ⟨by decide,
    C15_parent_invariant 0 0 2 2 [1, 1, 1, 1, 1, 1, 1, 1, 1] 3 3
      (by decide) (by decide) (by decide)⟩

/-- C16 (counterexample): the fully open grid of 32768 x 16384 cells, with the
distinct in-range cells (0,0) and (32767,16383) and a buffer of one entry, is
a well-formed input on which the call does not run to completion: no table is
built, so the main loop is never entered. -/
theorem C16_counterexample :
    WellFormed (List.replicate 536870912 1) 32768 16384 ∧
    InRange 32768 16384 0 0 ∧ InRange 32768 16384 32767 16383 ∧
    ¬ ((0 : Int) = 32767 ∧ (0 : Int) = 16383) ∧ (1 : Int) ≤ (([0] : List Int).length : Int) ∧
    FindPath 0 0 32767 16383 (List.replicate 536870912 1) 32768 16384 [0] 1 = none ∧
    runSearch 0 0 32767 16383 (List.replicate 536870912 1) 32768 16384 = none := by
  refine ⟨wellFormed_replicate 1 536870912 32768 16384 (by decide) (by decide) (by decide),
    by decide, by decide, by decide, by decide,
    FindPath_overflow 0 0 32767 16383 _ 32768 16384 [0] 1 (by decide) (by decide), ?_⟩
  cases hr : runSearch 0 0 32767 16383 (List.replicate 536870912 1) 32768 16384 with
  | none => rfl
  | some o => exact absurd (runSearch_fits hr) (by decide)

/-- C16 (amended): the call runs to completion on every well-formed input
whose table size `4 * W * H` fits an `int`. The main loop returns within
`W * H + 1` evaluations of its condition; it ends without a meeting exactly
when a frontier is empty; an iteration is only started while fewer than
`W * H` are complete; an iteration after which the loop goes on has marked at
least one unvisited cell on each side; and after a meeting both chain walks
return, every parent that is set lying one level below its cell. -/
theorem C16_runs_to_completion (sx sy tx ty : Int) (pMap : List Nat) (W H : Int)
    (buf : List Int) (cap : Int) (hwf : WellFormed pMap W H)
    (hfit : 4 * (W * H) ≤ INT_MAX) (hs : InRange W H sx sy)
    (ht : InRange W H tx ty) (hne : ¬ (sx = tx ∧ sy = ty)) (hcap : cap ≤ (buf.length : Int)) :
    (∃ r, FindPath sx sy tx ty pMap W H buf cap = some r) ∧
    (∃ adj st0, buildAdj pMap W (W * H) = some adj ∧
      initSearch (W * H) (sx + sy * W) (tx + ty * W) = some st0 ∧
      (∃ o, mainLoop adj ((W * H).toNat + 1) st0 = some o) ∧
      ∀ (k : Nat) (st : Search), stateAfter adj st0 k = some st →
        (loopBody adj st = some (Sum.inl Outcome.noPath) ↔
          (st.start_frontier = [] ∨ st.target_frontier = [])) ∧
        (st.start_frontier ≠ [] → st.target_frontier ≠ [] → (k : Int) + 1 ≤ W * H) ∧
        (∀ st1, loopBody adj st = some (Sum.inr st1) →
          st1.start_frontier ≠ [] → st1.target_frontier ≠ [] →
          List.count (-1) st1.start_level < List.count (-1) st.start_level ∧
          List.count (-1) st1.target_level < List.count (-1) st.target_level)) ∧
    (∀ m st, runSearch sx sy tx ty pMap W H = some (Outcome.met m st) →
      (∃ paths, ancestralPaths ((W * H).toNat + 1) st.start_parent st.target_parent m
        (tx + ty * W) = some paths) ∧
      (∀ c p, rd st.start_parent c = some p → p ≠ -1 →
        ∃ v, rd st.start_level c = some v ∧ rd st.start_level p = some (v - 1) ∧ 1 ≤ v) ∧
      (∀ c p, rd st.target_parent c = some p → p ≠ -1 →
        ∃ v, rd st.target_level c = some v ∧ rd st.target_level p = some (v - 1) ∧ 1 ≤ v)) := by
  obtain ⟨adj, hadj, hg, hcase⟩ :=
    FindPath_spec sx sy tx ty pMap W H buf cap hwf hs ht hne hcap hfit
  have hsr := cellIndex_range hs
  have htr := cellIndex_range ht
  have hst : cellIndex W sx sy ≠ cellIndex W tx ty := fun h => hne (cellIndex_inj hs ht h)
  obtain ⟨st0, hinit, h0⟩ := initSearch_depth adj (W * H) _ _ hsr htr
  obtain ⟨st0', hinit', hinv⟩ := initSearch_spec adj (W * H) _ _ hsr htr
  rw [hinit] at hinit'
  cases hinit'
  refine ⟨?_, ⟨adj, st0, hadj, hinit, ?_, ?_⟩, ?_⟩
  · rcases hcase with ⟨m, st, i, j, path, -, -, -, -, -, hfp⟩ | ⟨-, -, hfp⟩
    · exact ⟨_, hfp⟩
    · exact ⟨_, hfp⟩
  · rcases mainLoop_spec hg hst _ _ st0 hinv with ⟨m, st, i, j, hloop, -⟩ | ⟨hloop, -⟩
    · exact ⟨_, hloop⟩
    · exact ⟨_, hloop⟩
  · intro k st hk
    have h := stateAfter_inv hg h0 k st hk
    obtain ⟨-, hiff, hnext⟩ := loopBody_spec hg h
    refine ⟨hiff, ?_, ?_⟩
    · intro hsne _
      have := h.scount
      rw [if_neg hsne] at this
      omega
    · intro st1 hb hs1 ht1
      obtain ⟨-, -, -, c1, c2⟩ := hnext st1 hb
      have := List.length_pos.2 hs1
      have := List.length_pos.2 ht1
      omega
  · intro m st hrun
    rcases hcase with ⟨m1, st1, i, j, path, hrun1, hm, -⟩ | ⟨hrun1, -⟩
    · rw [hrun] at hrun1
      cases hrun1
      obtain ⟨sp, tp, hap, -⟩ := ancestralPaths_spec hg hm
      have down : ∀ (o : Int) (level parent : List Int), Tree adj (W * H) o level parent →
          ∀ c p, rd parent c = some p → p ≠ -1 →
            ∃ v, rd level c = some v ∧ rd level p = some (v - 1) ∧ 1 ≤ v := by
        intro o level parent htree c p hp hp1
        obtain ⟨-, -, v, hv, hlp⟩ := (tree_parentInv hg htree).1 c p hp hp1
        refine ⟨v, hv, hlp, ?_⟩
        have := htree.ge p _ hlp
        have hb := rd_some_bounds hlp
        by_contra hv1
        have hv0 : v = 0 := by omega
        subst hv0
        have := htree.root c 0 hv (le_refl 0)
        rw [hp] at this
        exact hp1 (Option.some.inj this)
      exact ⟨⟨_, hap⟩, down _ _ _ hm.stree, down _ _ _ hm.ttree⟩
    · rw [hrun] at hrun1
      cases hrun1

/-- C16 (witness): the fully open 3x3 grid, from (0,0) to (2,2). -/
theorem C16_runs_to_completion_witness :
    (∃ r, FindPath 0 0 2 2 [1, 1, 1, 1, 1, 1, 1, 1, 1] 3 3 [0, 0, 0, 0] 4 = some r) ∧
    (∃ adj st0, buildAdj [1, 1, 1, 1, 1, 1, 1, 1, 1] 3 (3 * 3) = some adj ∧
      initSearch (3 * 3) (0 + 0 * 3) (2 + 2 * 3) = some st0 ∧
      (∃ o, mainLoop adj ((3 * 3 : Int).toNat + 1) st0 = some o) ∧
      ∀ (k : Nat) (st : Search), stateAfter adj st0 k = some st →
        (loopBody adj st = some (Sum.inl Outcome.noPath) ↔
          (st.start_frontier = [] ∨ st.target_frontier = [])) ∧
        (st.start_frontier ≠ [] → st.target_frontier ≠ [] → (k : Int) + 1 ≤ 3 * 3) ∧
        (∀ st1, loopBody adj st = some (Sum.inr st1) →
          st1.start_frontier ≠ [] → st1.target_frontier ≠ [] →
          List.count (-1) st1.start_level < List.count (-1) st.start_level ∧
          List.count (-1) st1.target_level < List.count (-1) st.target_level)) ∧
    (∀ m st, runSearch 0 0 2 2 [1, 1, 1, 1, 1, 1, 1, 1, 1] 3 3 = some (Outcome.met m st) →
      (∃ paths, ancestralPaths ((3 * 3 : Int).toNat + 1) st.start_parent st.target_parent m
        (2 + 2 * 3) = some paths) ∧
      (∀ c p, rd st.start_parent c = some p → p ≠ -1 →
        ∃ v, rd st.start_level c = some v ∧ rd st.start_level p = some (v - 1) ∧ 1 ≤ v) ∧
      (∀ c p, rd st.target_parent c = some p → p ≠ -1 →
        ∃ v, rd st.target_level c = some v ∧ rd st.target_level p = some (v - 1) ∧ 1 ≤ v)) :=
  C16_runs_to_completion 0 0 2 2 [1, 1, 1, 1, 1, 1, 1, 1, 1] 3 3 [0, 0, 0, 0] 4
    (by decide) (by decide) (by decide) (by decide) (by decide) (by decide)

end ShortestPaths
